import Mathlib

/-!
# Verification of the SubscriptionSensei optimizer core

Shallow embedding of the current optimization engine of
`src/lib/optimizer.ts` (the second, real-minutes version of the file,
whose code defines `getRealWatchTimeMinutes`, `initializeContentState`,
`getActivePriorityBucket`, `selectItemsWithinBudget`,
`selectPlatformsForMonth`, `scheduleContentForMonth` and
`optimizeSubscriptions`), together with the static platform catalog of
`src/data/services.ts` and the `WatchlistItem` record of
`src/data/sampleContent.ts`.

Modelling conventions:
* TS `number` values that hold whole minutes are modelled as `Int`
  (durations coming from the input are `Nat`).  Money is modelled in
  exact integer cents (`Int`): the price `7.99` becomes `799`, and the
  `budget` argument is likewise given in cents.  Hours and the derived
  ratio fields are `ℚ`.
* Optional TS fields become `Option`; JS truthiness tests on optional
  numbers (`if (item.totalWatchTimeMinutes)`) are modelled as
  `·.getD 0 ≠ 0`, and on optional strings as `·.getD "" ≠ ""`.
* The JS `Map` keyed by item id is modelled as a list of entries in
  insertion order; `Map.set` replaces in place or appends.
* `new Date()` has no counterpart in a pure embedding: the ambient
  current month and year are explicit arguments of
  `optimizeSubscriptions`.  JS `Date` values built by
  `new Date(year, monthIdx, 1)` followed by `setDate` arithmetic are
  modelled as unnormalised `(year, month, day)` triples.
* The surplus-redistribution `while` loop is written with an explicit
  fuel of `surplus.toNat + 1`; every iteration of the source loop
  strictly decreases the (nonnegative) surplus by at least one, so this
  fuel is never exhausted (`redistributeLoop_fuel_irrelevant` area
  lemmas below make the exit analysis precise).
* String rendering of numbers inside the explanation text is canonical
  (`Rat` printing) rather than byte-for-byte JS formatting; no claim
  depends on those characters.
-/

/-- `"movie" | "tv"` of `WatchlistItem.type`. -/
inductive ItemType where
  | movie : ItemType
  | tv : ItemType
deriving DecidableEq, Repr

/-- `"high" | "medium" | "low"` of `WatchlistItem.priority`. -/
inductive Priority where
  | high : Priority
  | medium : Priority
  | low : Priority
deriving DecidableEq, Repr

/-- `WatchlistItem` of `src/data/sampleContent.ts`, extended with the
optional fields the optimizer reads (`userSelectedProvider`,
`pendingPlatformSelection`, `totalWatchTimeMinutes`, `episodeCount`). -/
structure WatchlistItem where
  id : String
  title : String
  type : ItemType
  priority : Priority
  providers : List String
  userSelectedProvider : Option String := none
  pendingPlatformSelection : Bool := false
  totalWatchTimeMinutes : Option Nat := none
  episodeCount : Option Nat := none
deriving DecidableEq, Repr

/-- `StreamingService` of `src/data/services.ts`. -/
structure StreamingService where
  id : String
  name : String
  price : Int
  color : String
  logo : String
deriving DecidableEq, Repr

/-- `STREAMING_SERVICES` of `src/data/services.ts`. -/
def STREAMING_SERVICES : List StreamingService :=
  [ ⟨"netflix", "Netflix", 799, "netflix", "🔴"⟩,
    ⟨"disney", "Disney+", 999, "disney", "🏰"⟩,
    ⟨"hulu", "Hulu", 999, "hulu", "🟢"⟩,
    ⟨"amazon", "Prime Video", 899, "amazon", "📦"⟩,
    ⟨"hbo", "Max", 1099, "hbo", "🟣"⟩,
    ⟨"apple", "Apple TV+", 1299, "apple", "🍎"⟩,
    ⟨"paramount", "Paramount+", 799, "paramount", "⛰️"⟩,
    ⟨"peacock", "Peacock", 899, "peacock", "🦚"⟩ ]

-- Constants of optimizer.ts
def DAILY_WATCH_HOURS : Int := 2
def DAYS_IN_MONTH : Int := 30
/-- `DAILY_WATCH_HOURS * DAYS_IN_MONTH`, 60 hours. -/
def MONTHLY_WATCH_LIMIT : Int := DAILY_WATCH_HOURS * DAYS_IN_MONTH

/-- `PLATFORM_PRICES` record of optimizer.ts, as an association list
(prices in cents). -/
def PLATFORM_PRICES : List (String × Int) :=
  [ ("netflix", 799),
    ("disney", 999),
    ("hulu", 999),
    ("disney_hulu_bundle", 1099),
    ("hbo", 1099),
    ("amazon", 899),
    ("paramount", 799),
    ("peacock", 899),
    ("apple", 1299) ]

/-- `PRIORITY_ORDER` of optimizer.ts. -/
def PRIORITY_ORDER : List Priority := [Priority.high, Priority.medium, Priority.low]

/-- `PRIORITY_ORDER.indexOf` (every priority occurs in the list). -/
def priorityIdx : Priority → Nat
  | Priority.high => 0
  | Priority.medium => 1
  | Priority.low => 2

/-- `OptimizedService` of optimizer.ts. -/
structure OptimizedService where
  service : String
  serviceName : String
  cost : Int
  itemsToWatch : List WatchlistItem
  valueDensity : ℚ
  color : String
  watchTime : ℚ
deriving DecidableEq, Repr

/-- A JS `Date` built by `new Date(year, monthIdx, day)` or by `setDate`
arithmetic on such a value; kept unnormalised, which is injective on the
values this program builds within one month. -/
structure SimDate where
  year : Int
  month : Int
  day : Int
deriving DecidableEq, Repr

/-- `ScheduledItem` of optimizer.ts.  The TS interface extends
`WatchlistItem` by spreading `...state.item`; here the copied entry is
the `item` field. -/
structure ScheduledItem where
  item : WatchlistItem
  day : Int
  estimatedStartDate : SimDate
  estimatedEndDate : SimDate
  watchHours : ℚ
  remainingMinutes : Option Int
deriving DecidableEq, Repr

/-- The `action` union of `MonthlyPlan`. -/
inductive PlanAction where
  | subscribe : PlanAction
  | rotate : PlanAction
  | keep : PlanAction
  | cancel : PlanAction
deriving DecidableEq, Repr

/-- `MonthlyPlan` of optimizer.ts. -/
structure MonthlyPlan where
  month : String
  monthIndex : Int
  year : Int
  services : List OptimizedService
  itemsToWatch : List ScheduledItem
  monthlyCost : Int
  action : PlanAction
  totalWatchHours : ℚ
  isBudgetConstrained : Bool
deriving DecidableEq, Repr

/-- `OptimizationResult` of optimizer.ts; a deferred record
`{item, reason}` is a pair. -/
structure OptimizationResult where
  subscribeThisMonth : List OptimizedService
  deferredItems : List (WatchlistItem × String)
  totalCost : Int
  estimatedSavings : Int
  coveragePercent : Int
  explanation : String
  rotationSchedule : List MonthlyPlan
  totalMonthsNeeded : Nat
  averageMonthlyCost : ℚ
deriving DecidableEq, Repr

/-- `ContentState` of optimizer.ts (current version): real minutes
resolved once, plus the mutable remaining counter. -/
structure ContentState where
  item : WatchlistItem
  realMinutes : Nat
  remainingMinutes : Int
deriving DecidableEq, Repr

/-- The `Map<string, ContentState>` keyed by `item.id`, in insertion
order. -/
abbrev CState := List ContentState

/-- `Map.get` on the content map. -/
def stateGet (st : CState) (id : String) : Option ContentState :=
  st.find? (fun cs => cs.item.id == id)

/-- `Map.set`: replace the entry in place if the key exists, else append. -/
def stateSet (st : CState) (id : String) (v : ContentState) : CState :=
  if st.any (fun cs => cs.item.id == id) then
    st.map (fun cs => if cs.item.id == id then v else cs)
  else st ++ [v]

/-- Overwrite just the remaining-minutes counter of one entry
(`state.remainingMinutes = v` through the shared reference). -/
def stateSetRemaining (st : CState) (id : String) (v : Int) : CState :=
  st.map (fun cs => if cs.item.id == id then { cs with remainingMinutes := v } else cs)

/-- `getRealWatchTimeMinutes` of optimizer.ts.  The truthiness tests
`if (item.totalWatchTimeMinutes)` and `item.episodeCount || 10` make an
explicit `0` fall back to the defaults. -/
def getRealWatchTimeMinutes (item : WatchlistItem) : Nat :=
  if item.totalWatchTimeMinutes.getD 0 ≠ 0 then
    item.totalWatchTimeMinutes.getD 0
  else if item.type = ItemType.movie then
    120
  else
    (if item.episodeCount.getD 0 ≠ 0 then item.episodeCount.getD 0 else 10) * 45

/-- `getPlatformPrice`: `PLATFORM_PRICES[id] ?? STREAMING_SERVICES.find(...)?.price ?? 9.99`
(in cents). -/
def getPlatformPrice (serviceId : String) : Int :=
  match PLATFORM_PRICES.lookup serviceId with
  | some p => p
  | none =>
    match STREAMING_SERVICES.find? (fun s => s.id == serviceId) with
    | some s => s.price
    | none => 999

/-- `getPlatformInfo`: display name and color with fallbacks. -/
def getPlatformInfo (serviceId : String) : String × String :=
  match STREAMING_SERVICES.find? (fun s => s.id == serviceId) with
  | some s => (s.name, s.color)
  | none => (serviceId, "gray")

/-- `getEffectiveProviders`: a (truthy) user-selected provider replaces
the provider list. -/
def getEffectiveProviders (item : WatchlistItem) : List String :=
  if item.userSelectedProvider.getD "" ≠ "" then
    [item.userSelectedProvider.getD ""]
  else
    item.providers

/-- `shouldScheduleItem`: skip pending-decision items and items with no
provider at all. -/
def shouldScheduleItem (item : WatchlistItem) : Bool :=
  if item.pendingPlatformSelection then false
  else if item.providers.isEmpty && item.userSelectedProvider.getD "" == "" then false
  else true

/-- `initializeContentState`: one `ContentState` per entry, keyed by id,
`remainingMinutes` starting at the real duration. -/
def initializeContentState (watchlist : List WatchlistItem) : CState :=
  watchlist.foldl
    (fun m item =>
      let realMinutes := getRealWatchTimeMinutes item
      stateSet m item.id ⟨item, realMinutes, (realMinutes : Int)⟩)
    []

/-- `getActivePriorityBucket`: first priority tier (high → medium → low)
that still owns a schedulable entry with remaining time. -/
def getActivePriorityBucket (watchlist : List WatchlistItem) (contentState : CState) :
    Option (Priority × List WatchlistItem) :=
  PRIORITY_ORDER.findSome? (fun priority =>
    let items := watchlist.filter (fun item =>
      shouldScheduleItem item &&
      item.priority == priority &&
      (match stateGet contentState item.id with
       | some st => st.remainingMinutes > 0
       | none => false))
    if items.isEmpty then none else some (priority, items))

/-- `getCheapestProvider`: first provider of minimal price (the source
seeds with `providers[0]` and only replaces on a strictly lower price). -/
def getCheapestProvider (item : WatchlistItem) : Option (String × Int) :=
  match getEffectiveProviders item with
  | [] => none
  | p :: rest =>
    some ((p :: rest).foldl
      (fun best q =>
        let price := getPlatformPrice q
        if price < best.2 then (q, price) else best)
      (p, getPlatformPrice p))

/-- `calculatePlatformsCost`: summed prices of a platform set. -/
def calculatePlatformsCost (platformIds : List String) : Int :=
  (platformIds.map getPlatformPrice).sum

/-- Stable insertion of `a` after every element strictly before it
under `le`; `stableInsert` and `stableSort` implement the stable
comparator sort of `Array.prototype.sort` structurally (a later element
never jumps before an equal earlier one). -/
def stableInsert (le : α → α → Bool) (a : α) : List α → List α
  | [] => [a]
  | b :: t => if le b a && !le a b then b :: stableInsert le a t else a :: b :: t

/-- JS `Array.prototype.sort` with a consistent comparator: a stable
sort into `le`-order. -/
def stableSort (le : α → α → Bool) : List α → List α
  | [] => []
  | a :: t => stableInsert le a (stableSort le t)

/-- `Map<string, WatchlistItem[]>` grouping: append to an existing key
in place, else add the key at the end (JS `Map` insertion order). -/
def alistAppend (m : List (String × List WatchlistItem)) (key : String)
    (item : WatchlistItem) : List (String × List WatchlistItem) :=
  if m.any (fun e => e.1 == key) then
    m.map (fun e => if e.1 == key then (e.1, e.2 ++ [item]) else e)
  else m ++ [(key, [item])]

/-- The greedy loop of `selectItemsWithinBudget` over the price-sorted
platform groups `(platform, cost, items)`: accept a whole group while
the cumulative price stays within budget, else defer its items.  The
accumulator is `(selectedItems, deferredItems, currentCost)`. -/
def budgetGreedyPass (budget : Int) :
    List (String × Int × List WatchlistItem) →
    List WatchlistItem × List WatchlistItem × Int →
    List WatchlistItem × List WatchlistItem × Int
  | [], acc => acc
  | g :: rest, acc =>
    if acc.2.2 + g.2.1 ≤ budget then
      budgetGreedyPass budget rest (acc.1 ++ g.2.2, acc.2.1, acc.2.2 + g.2.1)
    else
      budgetGreedyPass budget rest (acc.1, acc.2.1 ++ g.2.2, acc.2.2)

/-- `selectItemsWithinBudget`: group the tier's items by their cheapest
platform, sort the groups by price ascending, and greedily accept whole
groups while the cumulative price stays within budget; rejected groups
are deferred for this month. -/
def selectItemsWithinBudget (items : List WatchlistItem) (budget : Int) :
    List WatchlistItem × List WatchlistItem :=
  let itemsByPlatform := items.foldl
    (fun m item =>
      match getCheapestProvider item with
      | none => m
      | some cheapest => alistAppend m cheapest.1 item)
    []
  let platformsWithCosts := itemsByPlatform.map (fun e => (e.1, getPlatformPrice e.1, e.2))
  let sorted := stableSort (fun a b => decide (a.2.1 ≤ b.2.1)) platformsWithCosts
  let result := budgetGreedyPass budget sorted ([], [], 0)
  (result.1, result.2.1)

/-- Test used twice by `selectPlatformsForMonth`: the entry still has
remaining watch time. -/
def hasRemaining (contentState : CState) (item : WatchlistItem) : Bool :=
  match stateGet contentState item.id with
  | some st => st.remainingMinutes > 0
  | none => false

/-- The lower-priority addition loop of `selectPlatformsForMonth`: an
item rides along for free when its cheapest platform is already
selected; a new platform is added only when affordable *and* used the
previous month.  The accumulator is
`(selectedItems, selectedPlatformIds, totalCost)`. -/
def addLowerPriorityItems (budget : Int) (previousPlatforms : List String) :
    List WatchlistItem →
    List WatchlistItem × List String × Int →
    List WatchlistItem × List String × Int
  | [], acc => acc
  | item :: rest, acc =>
    match getCheapestProvider item with
    | none => addLowerPriorityItems budget previousPlatforms rest acc
    | some cheapest =>
      if acc.2.1.contains cheapest.1 then
        addLowerPriorityItems budget previousPlatforms rest (acc.1 ++ [item], acc.2.1, acc.2.2)
      else if acc.2.2 + cheapest.2 ≤ budget then
        if previousPlatforms.contains cheapest.1 then
          addLowerPriorityItems budget previousPlatforms rest
            (acc.1 ++ [item], acc.2.1 ++ [cheapest.1], acc.2.2 + cheapest.2)
        else addLowerPriorityItems budget previousPlatforms rest acc
      else addLowerPriorityItems budget previousPlatforms rest acc

/-- `selectPlatformsForMonth` (current version): budget-capped selection
for the active bucket, then opportunistic lower-priority additions that
reuse already-selected or previously-used platforms. -/
def selectPlatformsForMonth
    (activeBucket : Priority × List WatchlistItem)
    (watchlist : List WatchlistItem)
    (contentState : CState)
    (budget : Int)
    (previousPlatforms : List String) :
    List OptimizedService × List WatchlistItem :=
  let activeItems := activeBucket.2.filter (hasRemaining contentState)
  let swb := selectItemsWithinBudget activeItems budget
  let selectedItems0 := swb.1
  -- the JS Set of platform ids needed by the selected items, in
  -- first-insertion order
  let selectedPlatformIds0 := selectedItems0.foldl
    (fun (ids : List String) item =>
      match getCheapestProvider item with
      | some cheapest => if ids.contains cheapest.1 then ids else ids ++ [cheapest.1]
      | none => ids)
    []
  let totalCost0 := calculatePlatformsCost selectedPlatformIds0
  let lowerPriorityItems := watchlist.filter (fun item =>
    shouldScheduleItem item &&
    decide (priorityIdx item.priority > priorityIdx activeBucket.1) &&
    hasRemaining contentState item)
  let phase2 := addLowerPriorityItems budget previousPlatforms lowerPriorityItems
    (selectedItems0, selectedPlatformIds0, totalCost0)
  let selectedItems := phase2.1
  let selectedPlatformIds := phase2.2.1
  let selectedPlatforms := selectedPlatformIds.map (fun serviceId =>
    let coveredItems := selectedItems.filter (fun item =>
      match getCheapestProvider item with
      | some cheapest => cheapest.1 == serviceId
      | none => false)
    let totalWatchHours := (coveredItems.map (fun item =>
      match stateGet contentState item.id with
      | some st => (st.remainingMinutes : ℚ) / 60
      | none => 0)).sum
    let cost := getPlatformPrice serviceId
    let info := getPlatformInfo serviceId
    { service := serviceId
      serviceName := info.1
      cost := cost
      itemsToWatch := coveredItems
      valueDensity := totalWatchHours / (cost : ℚ)
      color := info.2
      watchTime := min totalWatchHours ((MONTHLY_WATCH_LIMIT : Int) : ℚ) })
  (stableSort (fun a b => decide (b.itemsToWatch.length ≤ a.itemsToWatch.length)) selectedPlatforms,
   selectedItems)

/-- `Math.ceil(a / b)` on whole numbers, `b > 0` at every use site. -/
def jsCeilDiv (a b : Int) : Int := -((-a).fdiv b)

/-- The candidate content of one month: watchlist entries (in list
order) that are schedulable, still have remaining time, are not yet
added, and sit on a platform selected this month. -/
def computeCandidateIds (selectedPlatforms : List OptimizedService)
    (contentState : CState) (watchlist : List WatchlistItem) : List String :=
  let availablePlatformIds := selectedPlatforms.map (fun p => p.service)
  watchlist.foldl
    (fun (acc : List String) item =>
      if !shouldScheduleItem item then acc
      else
        match stateGet contentState item.id with
        | none => acc
        | some state =>
          if state.remainingMinutes ≤ 0 then acc
          else if acc.contains item.id then acc
          else if (getEffectiveProviders item).any
              (fun p => availablePlatformIds.contains p) then acc ++ [item.id]
          else acc)
    []

/-- STEP D movie loop of `scheduleContentForMonth`: whole remaining
duration or nothing, one simulated day per scheduled movie; stops when
capacity is exhausted. -/
def scheduleMoviePass (monthStart : SimDate) :
    List ContentState → CState → Int → Int → (List ScheduledItem × CState × Int × Int)
  | [], st, cap, day => ([], st, cap, day)
  | movieState :: rest, st, cap, day =>
    if cap ≤ 0 then ([], st, cap, day)
    else
      let movieMinutes := movieState.remainingMinutes
      if movieMinutes ≤ cap then
        let startDate : SimDate := ⟨monthStart.year, monthStart.month, monthStart.day + day - 1⟩
        let si : ScheduledItem :=
          { item := movieState.item
            day := day
            estimatedStartDate := startDate
            estimatedEndDate := startDate
            watchHours := (movieMinutes : ℚ) / 60
            remainingMinutes := some 0 }
        let next := scheduleMoviePass monthStart rest
          (stateSetRemaining st movieState.item.id 0) (cap - movieMinutes) (day + 1)
        (si :: next.1, next.2)
      else
        scheduleMoviePass monthStart rest st cap day

/-- The per-tier allocation table, `allocations.get(id) || 0` reading a
missing key as `0`. -/
abbrev AllocMap := String → Int

/-- `allocations.set`. -/
def allocSet (f : AllocMap) (id : String) (v : Int) : AllocMap :=
  fun x => if x = id then v else f x

/-- The loop of the first allocation pass, carrying
`(allocations, surplusMinutes)`. -/
def allocFirstPassAux (equalShareMinutes : Int) :
    List ContentState → AllocMap × Int → AllocMap × Int
  | [], acc => acc
  | state :: rest, acc =>
    let needed := state.remainingMinutes
    let allocated := min needed equalShareMinutes
    let f := allocSet acc.1 state.item.id allocated
    if needed < equalShareMinutes then
      allocFirstPassAux equalShareMinutes rest (f, acc.2 + (equalShareMinutes - needed))
    else
      allocFirstPassAux equalShareMinutes rest (f, acc.2)

/-- First allocation pass: equal share per item, capped by its need, and
the surplus of the entries that finish early. -/
def allocFirstPass (activeSeries : List ContentState) (equalShareMinutes : Int) :
    AllocMap × Int :=
  allocFirstPassAux equalShareMinutes activeSeries (fun _ => 0, 0)

/-- One redistribution pass: every needy entry absorbs up to
`extraPerItem`; returns the updated table and the total redistributed. -/
def givePass (extraPerItem : Int) : List ContentState → AllocMap → AllocMap × Int
  | [], alloc => (alloc, 0)
  | state :: rest, alloc =>
    let currentAlloc := alloc state.item.id
    let canUse := min extraPerItem (state.remainingMinutes - currentAlloc)
    if canUse > 0 then
      let next := givePass extraPerItem rest (allocSet alloc state.item.id (currentAlloc + canUse))
      (next.1, next.2 + canUse)
    else
      givePass extraPerItem rest alloc

/-- Final remainder distribution, one minute at a time while surplus
lasts. -/
def oneMinutePass : List ContentState → AllocMap → Int → AllocMap
  | [], alloc, _ => alloc
  | state :: rest, alloc, surplus =>
    if surplus ≤ 0 then alloc
    else
      let currentAlloc := alloc state.item.id
      let canUse := state.remainingMinutes - currentAlloc
      if canUse > 0 then
        oneMinutePass rest (allocSet alloc state.item.id (currentAlloc + 1)) (surplus - 1)
      else
        oneMinutePass rest alloc surplus

/-- The surplus-redistribution `while` loop, with explicit fuel.  Every
source iteration lowers the surplus by at least one minute, so fuel
`surplus.toNat + 1` reproduces the loop exactly (the `0` branch is
unreachable from `computeAllocations`). -/
def redistributeLoop (activeSeries : List ContentState) :
    Nat → AllocMap → Int → List ContentState → AllocMap
  | 0, alloc, _, _ => alloc
  | fuel + 1, alloc, surplus, needsMore =>
    if surplus > 0 ∧ needsMore ≠ [] then
      let extraPerItem := surplus.fdiv needsMore.length
      if extraPerItem = 0 then oneMinutePass needsMore alloc surplus
      else
        let gp := givePass extraPerItem needsMore alloc
        if gp.2 = 0 then gp.1
        else
          redistributeLoop activeSeries fuel gp.1 (surplus - gp.2)
            (activeSeries.filter (fun s => s.remainingMinutes > gp.1 s.item.id))
    else alloc

/-- STEP C allocation of `scheduleContentForMonth`: equal shares
(floor-divided) followed by iterative surplus redistribution. -/
def computeAllocations (activeSeries : List ContentState) (capacity : Int) : AllocMap :=
  let equalShareMinutes := capacity.fdiv activeSeries.length
  let fp := allocFirstPass activeSeries equalShareMinutes
  if fp.2 > 0 then
    let needsMore := activeSeries.filter (fun s => s.remainingMinutes > fp.1 s.item.id)
    redistributeLoop activeSeries (fp.2.toNat + 1) fp.1 fp.2 needsMore
  else fp.1

/-- Series emission loop of `scheduleContentForMonth`: one
`ScheduledItem` per entry with a positive allocation, all starting on
the bucket's current day. -/
def scheduleSeriesPass (monthStart : SimDate) (alloc : AllocMap) (startDay : Int) :
    List ContentState → CState → Int → (List ScheduledItem × CState × Int)
  | [], st, cap => ([], st, cap)
  | state :: rest, st, cap =>
    let allocatedMinutes := alloc state.item.id
    if allocatedMinutes ≤ 0 then scheduleSeriesPass monthStart alloc startDay rest st cap
    else
      let startDate : SimDate := ⟨monthStart.year, monthStart.month, monthStart.day + startDay - 1⟩
      let daysNeeded := jsCeilDiv allocatedMinutes (DAILY_WATCH_HOURS * 60)
      let endDay := min (startDay + daysNeeded - 1) DAYS_IN_MONTH
      let endDate : SimDate := ⟨monthStart.year, monthStart.month, monthStart.day + endDay - 1⟩
      let newRemaining := state.remainingMinutes - allocatedMinutes
      let si : ScheduledItem :=
        { item := state.item
          day := startDay
          estimatedStartDate := startDate
          estimatedEndDate := endDate
          watchHours := (allocatedMinutes : ℚ) / 60
          remainingMinutes := some newRemaining }
      let next := scheduleSeriesPass monthStart alloc startDay rest
        (stateSetRemaining st state.item.id newRemaining) (cap - allocatedMinutes)
      (si :: next.1, next.2)

/-- The priority-bucket loop of `scheduleContentForMonth`: per tier,
movies first (atomic), then fair series allocation; empty tiers are
skipped, and an exhausted capacity stops the loop. -/
def processBuckets (monthStart : SimDate) (bucketIds : Priority → List String) :
    List Priority → CState → Int → Int → List ScheduledItem →
    (List ScheduledItem × CState × Int × Int)
  | [], st, cap, day, out => (out, st, cap, day)
  | p :: rest, st, cap, day, out =>
    let bucketStates := (bucketIds p).filterMap (stateGet st)
    if bucketStates.isEmpty then processBuckets monthStart bucketIds rest st cap day out
    else if cap ≤ 0 then (out, st, cap, day)
    else
      let movies := bucketStates.filter
        (fun s => s.item.type == ItemType.movie && s.remainingMinutes > 0)
      let series := bucketStates.filter
        (fun s => s.item.type != ItemType.movie && s.remainingMinutes > 0)
      let mp := scheduleMoviePass monthStart movies st cap day
      let movieItems := mp.1
      let st1 := mp.2.1
      let cap1 := mp.2.2.1
      let day1 := mp.2.2.2
      -- the series states are re-read after the movie pass (the source
      -- reads the shared state objects live)
      let activeSeries := ((series.map (fun s => s.item.id)).filterMap (stateGet st1)).filter
        (fun s => s.remainingMinutes > 0)
      if activeSeries.isEmpty || cap1 ≤ 0 then
        processBuckets monthStart bucketIds rest st1 cap1 day1 (out ++ movieItems)
      else
        let alloc := computeAllocations activeSeries cap1
        let sp := scheduleSeriesPass monthStart alloc day1 activeSeries st1 cap1
        let day2 := min (day1 + ((activeSeries.length + 1) / 2 : Nat)) DAYS_IN_MONTH
        processBuckets monthStart bucketIds rest sp.2.1 sp.2.2 day2 (out ++ movieItems ++ sp.1)

/-- `scheduleContentForMonth` (current version).  Returns the emitted
items, the updated content state (mutated in place in the source), and
`totalWatchedHours`. -/
def scheduleContentForMonth (selectedPlatforms : List OptimizedService)
    (contentState : CState) (watchlist : List WatchlistItem) (monthStart : SimDate) :
    List ScheduledItem × CState × ℚ :=
  let candidateIds := computeCandidateIds selectedPlatforms contentState watchlist
  let bucketIds : Priority → List String := fun p =>
    candidateIds.filter (fun id =>
      match stateGet contentState id with
      | some cs => cs.item.priority == p
      | none => false)
  let r := processBuckets monthStart bucketIds PRIORITY_ORDER contentState
    (MONTHLY_WATCH_LIMIT * 60) 1 []
  (r.1, r.2.1, ((MONTHLY_WATCH_LIMIT * 60 - r.2.2.1 : Int) : ℚ) / 60)

def MONTHS : List String :=
  ["Jan", "Feb", "Mar", "Apr", "May", "Jun", "Jul", "Aug", "Sep", "Oct", "Nov", "Dec"]

/-- JS `Math.round(q)` for `q = num / den` with `den > 0`: round half
toward positive infinity, `⌊q + 1/2⌋ = ⌊(2*num + den) / (2*den)⌋`. -/
def jsRound (num den : Int) : Int := (2 * num + den).fdiv (2 * den)

/-- JS `Number.prototype.toFixed(2)` applied to a dollar amount held in
exact cents. -/
def toFixed2 (cents : Int) : String :=
  let sign := if cents < 0 then "-" else ""
  let n := cents.natAbs
  sign ++ toString (n / 100) ++ "." ++ (if n % 100 < 10 then "0" else "") ++ toString (n % 100)

/-- JS number-to-string interpolation of a dollar amount held in cents,
rendered canonically (see the header notes; no claim depends on these
characters). -/
def numToString (cents : Int) : String :=
  if cents % 100 = 0 then toString (cents / 100) else toFixed2 cents

/-- `generateExplanation` of optimizer.ts (current version). -/
def generateExplanation (selected : List OptimizedService)
    (deferred : List (WatchlistItem × String)) (budget : Int)
    (schedule : List MonthlyPlan) : String :=
  if selected.isEmpty then
    "No platforms selected. Try increasing your budget or adding content to your watchlist."
  else
    let serviceNames := String.intercalate ", " (selected.map (fun s => s.serviceName))
    let totalItems := (schedule.map (fun m => m.itemsToWatch.length)).sum
    let e1 := "Based on your $" ++ numToString budget ++ "/month budget, start with " ++
      serviceNames ++ ". "
    let e2 := "Watch " ++ toString totalItems ++ " items in " ++ toString schedule.length ++
      " month" ++ (if schedule.length > 1 then "s" else "") ++ " by rotating services. "
    let e3 :=
      match selected with
      | top :: _ => top.serviceName ++ " offers best value at $" ++ toFixed2 top.cost ++ "/month. "
      | [] => ""
    let e4 :=
      if deferred.length > 0 then
        toString deferred.length ++ " item" ++ (if deferred.length > 1 then "s" else "") ++
          " couldn\x27t be scheduled. "
      else ""
    let totalCost := (schedule.map (fun m => m.monthlyCost)).sum
    e1 ++ e2 ++ e3 ++ e4 ++ "Total cost: $" ++ toFixed2 totalCost ++ "."

/-- `sameServices` test of the rotation loop (mutual inclusion of the
service-id sets). -/
def sameServiceSets (curr prev : List OptimizedService) : Bool :=
  curr.all (fun s => (prev.map (fun t => t.service)).contains s.service) &&
  prev.all (fun s => (curr.map (fun t => t.service)).contains s.service)

/-- The month-by-month `while` loop of `optimizeSubscriptions`.  The
source condition is `monthOffset < Math.min(M_max, 24)`; here `fuel`
counts the remaining iterations, starting at that bound.  Halts early
when no active bucket remains, when the selector returns no platform,
or on the defensive over-budget check. -/
def runRotation (watchlist : List WatchlistItem) (budget : Int)
    (currentMonth : Nat) (currentYear : Int) :
    Nat → Nat → CState → List String → List MonthlyPlan → (List MonthlyPlan × CState)
  | 0, _, st, _, plans => (plans, st)
  | fuel + 1, monthOffset, st, previousPlatforms, plans =>
    match getActivePriorityBucket watchlist st with
    | none => (plans, st)
    | some activeBucket =>
      let selectedPlatforms :=
        (selectPlatformsForMonth activeBucket watchlist st budget previousPlatforms).1
      if selectedPlatforms.isEmpty then (plans, st)
      else
        let monthlyCost := (selectedPlatforms.map (fun p => p.cost)).sum
        -- BUDGET VALIDATION CHECKPOINT: the safety-net break
        if monthlyCost > budget then (plans, st)
        else
          let previousPlatforms2 := selectedPlatforms.map (fun p => p.service)
          let monthIdx := (currentMonth + monthOffset) % 12
          let year := currentYear + ((currentMonth + monthOffset) / 12 : Nat)
          let monthStart : SimDate := ⟨year, (monthIdx : Int), 1⟩
          let sched := scheduleContentForMonth selectedPlatforms st watchlist monthStart
          let action :=
            if monthOffset = 0 then PlanAction.subscribe
            else
              let previousServices := ((plans.getLast?).map (fun m => m.services)).getD []
              if sameServiceSets selectedPlatforms previousServices then PlanAction.keep
              else PlanAction.rotate
          let plan : MonthlyPlan :=
            { month := MONTHS.getD monthIdx ""
              monthIndex := (monthIdx : Int)
              year := year
              services := selectedPlatforms
              itemsToWatch := sched.1
              monthlyCost := monthlyCost
              action := action
              totalWatchHours := sched.2.2
              -- `monthlyCost >= budget * 0.9`, stated exactly over cents
              isBudgetConstrained := decide (monthlyCost * 10 ≥ budget * 9) }
          runRotation watchlist budget currentMonth currentYear fuel (monthOffset + 1)
            sched.2.1 previousPlatforms2 (plans ++ [plan])

/-- `totalRealMinutes` of `optimizeSubscriptions`: summed real minutes
of the schedulable entries. -/
def totalSchedulableRealMinutes (watchlist : List WatchlistItem) : Nat :=
  (((initializeContentState watchlist).filter
      (fun cs => shouldScheduleItem cs.item)).map (fun cs => cs.realMinutes)).sum

/-- `M_max = Math.ceil(totalRealMinutes / (MONTHLY_WATCH_LIMIT * 60)) + 3`
(the divisor is 3600 minutes). -/
def maxHorizon (watchlist : List WatchlistItem) : Nat :=
  (totalSchedulableRealMinutes watchlist + 3599) / 3600 + 3

/-- The deferred-reason strings of the source. -/
def reasonPending : String :=
  "Pending platform selection - marked as \x27decide later\x27."

def reasonNoPlatform : String :=
  "No streaming platform available. Please select a platform manually."

def reasonBudget : String :=
  "Could not fit within budget constraints. Consider increasing budget."

/-- First deferred loop: entries flagged "decide later", in watchlist
order. -/
def pendingDeferred : List WatchlistItem → List (WatchlistItem × String)
  | [] => []
  | item :: rest =>
    if item.pendingPlatformSelection then (item, reasonPending) :: pendingDeferred rest
    else pendingDeferred rest

/-- Second deferred loop over the final content state: every entry with
remaining time that is not already listed, classified by provider
availability. -/
def collectDeferred : CState → List (WatchlistItem × String) → List (WatchlistItem × String)
  | [], acc => acc
  | state :: rest, acc =>
    if acc.any (fun d => d.1.id == state.item.id) then collectDeferred rest acc
    else if state.remainingMinutes > 0 then
      if (getEffectiveProviders state.item).isEmpty then
        collectDeferred rest (acc ++ [(state.item, reasonNoPlatform)])
      else
        collectDeferred rest (acc ++ [(state.item, reasonBudget)])
    else collectDeferred rest acc

/-- The post-loop deferred-item aggregation: pending-decision entries
first, then every entry with remaining time, each at most once,
classified by provider availability. -/
def buildDeferredItems (watchlist : List WatchlistItem) (finalState : CState) :
    List (WatchlistItem × String) :=
  collectDeferred finalState (pendingDeferred watchlist)

/-- `optimizeSubscriptions` (current version).  The ambient
`new Date()` is made explicit: `currentMonth` (0-based) and
`currentYear` are the clock values the source reads. -/
def optimizeSubscriptions (watchlist : List WatchlistItem) (budget : Int)
    (currentMonth : Nat) (currentYear : Int) : OptimizationResult :=
  let contentState := initializeContentState watchlist
  let fuel := min (maxHorizon watchlist) 24
  let r := runRotation watchlist budget currentMonth currentYear fuel 0 contentState [] []
  let rotationSchedule := r.1
  let deferredItems := buildDeferredItems watchlist r.2
  let totalMonthsNeeded := rotationSchedule.length
  let totalRotationCost : Int := (rotationSchedule.map (fun m => m.monthlyCost)).sum
  let averageMonthlyCost : ℚ :=
    if totalMonthsNeeded > 0 then (totalRotationCost : ℚ) / (totalMonthsNeeded : ℚ) else 0
  let firstMonthServices := ((rotationSchedule.head?).map (fun m => m.services)).getD []
  let totalItems := watchlist.length
  let watchedItems : Int := (totalItems : Int) - (deferredItems.length : Int)
  let coveragePercent :=
    if totalItems > 0 then jsRound (watchedItems * 100) (totalItems : Int) else 0
  let allServicesCost := (PLATFORM_PRICES.map (fun e => e.2)).sum
  let estimatedSavings := allServicesCost * (totalMonthsNeeded : Int) - totalRotationCost
  { subscribeThisMonth := firstMonthServices
    deferredItems := deferredItems
    totalCost := ((rotationSchedule.head?).map (fun m => m.monthlyCost)).getD 0
    estimatedSavings := estimatedSavings
    coveragePercent := coveragePercent
    explanation := generateExplanation firstMonthServices deferredItems budget rotationSchedule
    rotationSchedule := rotationSchedule
    totalMonthsNeeded := totalMonthsNeeded
    averageMonthlyCost := averageMonthlyCost }

/-! ## Concrete inputs shared by witnesses and counterexamples -/

/-- A high-priority movie on netflix (real duration: the 120-minute
default). -/
def exMovie : WatchlistItem :=
  { id := "m1", title := "Movie", type := ItemType.movie, priority := Priority.high,
    providers := ["netflix"] }

/-- A high-priority ten-episode series on netflix (real duration 450
minutes). -/
def exSeries : WatchlistItem :=
  { id := "s1", title := "Series", type := ItemType.tv, priority := Priority.high,
    providers := ["netflix"], episodeCount := some 10 }

/-! ## C5: the rotation loop is bounded -/

/-- The rotation loop appends at most `fuel` plans to its accumulator. -/
theorem runRotation_length_le (wl : List WatchlistItem) (b : Int) (cm : Nat) (cy : Int) :
    ∀ (fuel offset : Nat) (st : CState) (prev : List String) (plans : List MonthlyPlan),
      (runRotation wl b cm cy fuel offset st prev plans).1.length ≤ fuel + plans.length := by
  intro fuel
  induction fuel with
  | zero =>
    intro offset st prev plans
    simp [runRotation]
  | succ n ih =>
    intro offset st prev plans
    rw [runRotation]
    cases hb : getActivePriorityBucket wl st with
    | none => simp
    | some activeBucket =>
      simp only
      split
      · simp
      · split
        · simp
        · refine le_trans (ih _ _ _ _) ?_
          simp
          omega

/-- C5: for every finite watchlist and budget, `optimizeSubscriptions`
terminates (it is a total function of this development, all its loops
being structurally bounded), and the rotation loop executes at most
`min(ceil(totalRealMinutes / 3600) + 3, 24)` monthly iterations — one
emitted `MonthlyPlan` per iteration. -/
theorem rotation_horizon_cap (wl : List WatchlistItem) (b : Int) (cm : Nat) (cy : Int) :
    (optimizeSubscriptions wl b cm cy).rotationSchedule.length ≤
      min (maxHorizon wl) 24 := by
  have h := runRotation_length_le wl b cm cy (min (maxHorizon wl) 24) 0
    (initializeContentState wl) [] []
  simpa [optimizeSubscriptions] using h

/-! ## C1: emitted months never exceed the budget -/

/-- Plans emitted by the rotation loop pass the budget checkpoint. -/
theorem runRotation_cost_le (wl : List WatchlistItem) (b : Int) (cm : Nat) (cy : Int) :
    ∀ (fuel offset : Nat) (st : CState) (prev : List String) (plans : List MonthlyPlan),
      (∀ p ∈ plans, p.monthlyCost ≤ b) →
      ∀ p ∈ (runRotation wl b cm cy fuel offset st prev plans).1, p.monthlyCost ≤ b := by
  intro fuel
  induction fuel with
  | zero =>
    intro offset st prev plans hacc
    simpa [runRotation] using hacc
  | succ n ih =>
    intro offset st prev plans hacc
    rw [runRotation]
    cases hb : getActivePriorityBucket wl st with
    | none => simpa using hacc
    | some activeBucket =>
      simp only
      split
      · simpa using hacc
      · split
        · simpa using hacc
        · rename_i hover
          refine ih _ _ _ _ ?_
          intro p hp
          rcases List.mem_append.mp hp with h | h
          · exact hacc p h
          · rcases List.mem_singleton.mp h with rfl
            exact le_of_not_lt hover

/-- C1: every `MonthlyPlan` appended to `rotationSchedule` by
`optimizeSubscriptions` satisfies `monthlyCost ≤ budget` — the rotation
loop refuses to emit a month whose summed platform prices exceed the
budget ceiling. -/
theorem budget_hard_cap (wl : List WatchlistItem) (b : Int) (cm : Nat) (cy : Int)
    (p : MonthlyPlan) (hp : p ∈ (optimizeSubscriptions wl b cm cy).rotationSchedule) :
    p.monthlyCost ≤ b := by
  refine runRotation_cost_le wl b cm cy (min (maxHorizon wl) 24) 0
    (initializeContentState wl) [] [] (by simp) p ?_
  simpa [optimizeSubscriptions] using hp

/-- Witness for C1 at a concrete input: the January plan of the
two-item example watchlist with budget 1000 cents costs at most that
budget. -/
theorem budget_hard_cap_witness :
    ((optimizeSubscriptions [exMovie, exSeries] 1000 0 2026).rotationSchedule.head
        (by decide)).monthlyCost ≤ 1000 :=
  budget_hard_cap [exMovie, exSeries] 1000 0 2026 _ (List.head_mem _)

/-! ## C9: real-duration resolution at initialization -/

/-- `Map.set` appends when the key is absent. -/
theorem stateSet_of_notMem (m : CState) (id : String) (v : ContentState)
    (h : ∀ cs ∈ m, cs.item.id ≠ id) : stateSet m id v = m ++ [v] := by
  unfold stateSet
  rw [if_neg]
  simp only [List.any_eq_true, beq_iff_eq, not_exists]
  intro cs hm
  exact h cs hm.1 hm.2

/-- The entry built by `initializeContentState` for one item. -/
def initEntry (item : WatchlistItem) : ContentState :=
  ⟨item, getRealWatchTimeMinutes item, (getRealWatchTimeMinutes item : Int)⟩

/-- On a duplicate-free watchlist the initialization fold is a plain
map. -/
theorem initFold_eq_append (wl : List WatchlistItem) :
    ∀ acc : CState,
      (wl.map (fun i => i.id)).Nodup →
      (∀ cs ∈ acc, cs.item.id ∉ wl.map (fun i => i.id)) →
      wl.foldl (fun m item => stateSet m item.id (initEntry item)) acc =
        acc ++ wl.map initEntry := by
  induction wl with
  | nil => intro acc _ _; simp
  | cons a rest ih =>
    intro acc hnd hdisj
    have hset : stateSet acc a.id (initEntry a) = acc ++ [initEntry a] := by
      refine stateSet_of_notMem acc a.id (initEntry a) ?_
      intro cs hm
      have := hdisj cs hm
      simp only [List.map_cons, List.mem_cons, not_or] at this
      exact this.1
    rw [List.map_cons, List.nodup_cons] at hnd
    obtain ⟨hnotin, hnd2⟩ := hnd
    have hdisj2 : ∀ cs ∈ acc ++ [initEntry a], cs.item.id ∉ rest.map (fun i => i.id) := by
      intro cs hm
      rcases List.mem_append.mp hm with hm | hm
      · have := hdisj cs hm
        simp only [List.map_cons, List.mem_cons, not_or] at this
        exact this.2
      · rcases List.mem_singleton.mp hm with rfl
        simpa [initEntry] using hnotin
    calc (a :: rest).foldl (fun m item => stateSet m item.id (initEntry item)) acc
        = rest.foldl (fun m item => stateSet m item.id (initEntry item))
            (acc ++ [initEntry a]) := by rw [List.foldl_cons, hset]
      _ = (acc ++ [initEntry a]) ++ rest.map initEntry := ih _ hnd2 hdisj2
      _ = acc ++ (a :: rest).map initEntry := by simp

/-- `initializeContentState` on a duplicate-free watchlist is a map in
watchlist order. -/
theorem initializeContentState_eq_map (wl : List WatchlistItem)
    (hnd : (wl.map (fun i => i.id)).Nodup) :
    initializeContentState wl = wl.map initEntry := by
  have h := initFold_eq_append wl [] hnd (by intro cs hm; simp at hm)
  simpa [initializeContentState, initEntry] using h

/-- Looking up a member of a duplicate-free watchlist in the initial
state returns its freshly initialized entry. -/
theorem initializeContentState_get (wl : List WatchlistItem) (item : WatchlistItem)
    (hnd : (wl.map (fun i => i.id)).Nodup) (hmem : item ∈ wl) :
    stateGet (initializeContentState wl) item.id = some (initEntry item) := by
  rw [initializeContentState_eq_map wl hnd]
  induction wl with
  | nil => cases hmem
  | cons a rest ih =>
    rcases List.mem_cons.mp hmem with rfl | hmem2
    · simp [stateGet, initEntry]
    · rw [List.map_cons, List.nodup_cons] at hnd
      obtain ⟨hnotin, hnd2⟩ := hnd
      have hne : a.id ≠ item.id := by
        intro he
        exact hnotin (he ▸ List.mem_map_of_mem (fun i => i.id) hmem2)
      have := ih hnd2 hmem2
      simpa [stateGet, initEntry, hne] using this

/-- An item whose explicit duration field is present but zero for C9:
the claim reads the field, the code falls back to the 120-minute movie
default. -/
def exZeroDuration : WatchlistItem :=
  { id := "z1", title := "Zero", type := ItemType.movie, priority := Priority.high,
    providers := ["netflix"], totalWatchTimeMinutes := some 0 }

/-- Counterexample for C9: `exZeroDuration` carries the explicit
total-duration value `0`, yet its resolved real duration is the movie
default `120`, not `0` — "equal to the entry's explicit
total-duration-in-minutes when that field is present" fails at this
input (JS truthiness sends a present-but-zero field to the default). -/
theorem real_duration_counterexample :
    exZeroDuration.totalWatchTimeMinutes = some 0 ∧
    getRealWatchTimeMinutes exZeroDuration ≠ 0 ∧
    getRealWatchTimeMinutes exZeroDuration = 120 := by decide

/-- C9 (amended): the real duration equals the explicit
total-duration-in-minutes when that field is present *and nonzero*;
otherwise 120 minutes for a movie and `episodeCount × 45` for a series,
`episodeCount` defaulting to 10 when absent *or zero*.  The entry's
`ContentState` is initialized with `remainingMinutes` equal to that real
duration, and initialization is total (it never raises). -/
theorem real_duration_defaults (wl : List WatchlistItem) (item : WatchlistItem)
    (hnd : (wl.map (fun i => i.id)).Nodup) (hmem : item ∈ wl) :
    (∀ n : Nat, item.totalWatchTimeMinutes = some n → n ≠ 0 →
      getRealWatchTimeMinutes item = n) ∧
    (item.totalWatchTimeMinutes.getD 0 = 0 → item.type = ItemType.movie →
      getRealWatchTimeMinutes item = 120) ∧
    (item.totalWatchTimeMinutes.getD 0 = 0 → item.type = ItemType.tv →
      getRealWatchTimeMinutes item =
        (if item.episodeCount.getD 0 ≠ 0 then item.episodeCount.getD 0 else 10) * 45) ∧
    stateGet (initializeContentState wl) item.id =
      some ⟨item, getRealWatchTimeMinutes item, (getRealWatchTimeMinutes item : Int)⟩ := by
  refine ⟨?_, ?_, ?_, ?_⟩
  · intro n hsome hn
    simp [getRealWatchTimeMinutes, hsome, hn]
  · intro hz hm
    simp [getRealWatchTimeMinutes, hz, hm]
  · intro hz ht
    have : item.type ≠ ItemType.movie := by simp [ht]
    simp [getRealWatchTimeMinutes, hz, this]
  · exact initializeContentState_get wl item hnd hmem

/-- Witness for C9 (amended) at a concrete input: the two-item example
watchlist has duplicate-free ids and contains `exSeries`, whose state is
initialized at its 450 real minutes. -/
theorem real_duration_defaults_witness :
    (∀ n : Nat, exSeries.totalWatchTimeMinutes = some n → n ≠ 0 →
      getRealWatchTimeMinutes exSeries = n) ∧
    (exSeries.totalWatchTimeMinutes.getD 0 = 0 → exSeries.type = ItemType.movie →
      getRealWatchTimeMinutes exSeries = 120) ∧
    (exSeries.totalWatchTimeMinutes.getD 0 = 0 → exSeries.type = ItemType.tv →
      getRealWatchTimeMinutes exSeries =
        (if exSeries.episodeCount.getD 0 ≠ 0 then exSeries.episodeCount.getD 0 else 10) * 45) ∧
    stateGet (initializeContentState [exMovie, exSeries]) exSeries.id =
      some ⟨exSeries, getRealWatchTimeMinutes exSeries, (getRealWatchTimeMinutes exSeries : Int)⟩ :=
  real_duration_defaults [exMovie, exSeries] exSeries (by decide) (by decide)

/-! ## C7: degenerate inputs -/

/-- Membership is preserved by stable insertion. -/
theorem mem_stableInsert {le : α → α → Bool} {a b : α} :
    ∀ {l : List α}, b ∈ stableInsert le a l ↔ b = a ∨ b ∈ l := by
  intro l
  induction l with
  | nil => simp [stableInsert]
  | cons c t ih =>
    rw [stableInsert]
    split
    · simp only [List.mem_cons, ih]
      tauto
    · simp only [List.mem_cons]

/-- `stableSort` permutes its input, in particular preserves
membership. -/
theorem mem_stableSort {le : α → α → Bool} {a : α} :
    ∀ {l : List α}, a ∈ stableSort le l ↔ a ∈ l := by
  intro l
  induction l with
  | nil => simp [stableSort]
  | cons c t ih =>
    rw [stableSort, mem_stableInsert]
    simp [ih]

/-- A successful association-list lookup comes from a list member. -/
theorem lookup_mem_prices {l : List (String × Int)} {k : String} {v : Int}
    (h : l.lookup k = some v) : (k, v) ∈ l := by
  induction l with
  | nil => simp [List.lookup] at h
  | cons a t ih =>
    rw [List.lookup] at h
    revert h
    split
    · rename_i heq
      intro h
      obtain rfl := Option.some.inj h
      have hk : k = a.1 := by simpa using heq
      subst hk
      exact List.mem_cons_self _ _
    · intro h
      exact List.mem_cons_of_mem _ (ih h)

/-- Every platform price the catalog can produce is strictly positive
(the price table, the service catalog, and the `9.99` fallback). -/
theorem getPlatformPrice_pos (serviceId : String) : 0 < getPlatformPrice serviceId := by
  unfold getPlatformPrice
  cases h : PLATFORM_PRICES.lookup serviceId with
  | some p =>
    have hmem := lookup_mem_prices h
    have hall : ∀ e ∈ PLATFORM_PRICES, 0 < e.2 := by decide
    simpa using hall _ hmem
  | none =>
    cases h2 : STREAMING_SERVICES.find? (fun s => s.id == serviceId) with
    | some s =>
      have hmem := List.mem_of_find?_eq_some h2
      have hall : ∀ s ∈ STREAMING_SERVICES, 0 < s.price := by decide
      simpa using hall _ hmem
    | none => simp

/-- With a nonpositive budget the greedy pass accepts nothing: every
group's price is positive, so no group ever fits. -/
theorem budgetGreedyPass_nonpos (b : Int) (hb : b ≤ 0) :
    ∀ gs : List (String × Int × List WatchlistItem), (∀ g ∈ gs, 0 < g.2.1) →
    ∀ sel defd : List WatchlistItem,
      (budgetGreedyPass b gs (sel, defd, 0)).1 = sel ∧
      (budgetGreedyPass b gs (sel, defd, 0)).2.2 = 0 := by
  intro gs
  induction gs with
  | nil => intro _ sel defd; simp [budgetGreedyPass]
  | cons g rest ih =>
    intro hpos sel defd
    have hgpos : 0 < g.2.1 := hpos g (List.mem_cons_self g rest)
    rw [budgetGreedyPass]
    rw [if_neg (by simpa using lt_of_le_of_lt hb (by simpa using hgpos))]
    exact ih (fun x hx => hpos x (List.mem_cons_of_mem g hx)) sel (defd ++ g.2.2)

/-- With a nonpositive budget `selectItemsWithinBudget` selects no
item. -/
theorem selectItemsWithinBudget_nonpos (items : List WatchlistItem) (b : Int)
    (hb : b ≤ 0) : (selectItemsWithinBudget items b).1 = [] := by
  unfold selectItemsWithinBudget
  refine (budgetGreedyPass_nonpos b hb _ ?_ [] []).1
  intro g hg
  rw [mem_stableSort] at hg
  rcases List.mem_map.mp hg with ⟨e, _, rfl⟩
  exact getPlatformPrice_pos e.1

/-- With a nonpositive budget the lower-priority pass adds nothing to an
empty selection. -/
theorem addLowerPriorityItems_nonpos (b : Int) (hb : b ≤ 0) (prev : List String) :
    ∀ l : List WatchlistItem,
      addLowerPriorityItems b prev l ([], [], 0) = ([], [], 0) := by
  intro l
  induction l with
  | nil => rw [addLowerPriorityItems]
  | cons item rest ih =>
    rw [addLowerPriorityItems]
    cases hch : getCheapestProvider item with
    | none => exact ih
    | some cheapest =>
      simp only
      rw [if_neg (by simp)]
      have hpos : 0 < cheapest.2 := by
        unfold getCheapestProvider at hch
        revert hch
        cases hprov : getEffectiveProviders item with
        | nil => intro hch; cases hch
        | cons p rest2 =>
          intro hch
          obtain rfl := Option.some.inj hch
          generalize hseed : (p, getPlatformPrice p) = seed
          have hseedpos : 0 < seed.2 := by rw [← hseed]; exact getPlatformPrice_pos p
          clear hseed
          induction (p :: rest2) generalizing seed with
          | nil => simpa using hseedpos
          | cons q t ih2 =>
            rw [List.foldl_cons]
            by_cases hlt : getPlatformPrice q < seed.2
            · simp only [hlt, if_pos]
              exact ih2 _ (getPlatformPrice_pos q)
            · simp only [hlt, if_neg, if_false]
              exact ih2 _ hseedpos
      rw [if_neg (by simpa using lt_of_le_of_lt hb (by simpa using hpos))]
      exact ih

/-- With a nonpositive budget the platform selector returns no
platform. -/
theorem selectPlatformsForMonth_nonpos (ab : Priority × List WatchlistItem)
    (wl : List WatchlistItem) (cs : CState) (b : Int) (prev : List String)
    (hb : b ≤ 0) : (selectPlatformsForMonth ab wl cs b prev).1 = [] := by
  unfold selectPlatformsForMonth
  simp only [selectItemsWithinBudget_nonpos _ b hb, List.foldl_nil]
  rw [show calculatePlatformsCost [] = 0 from rfl,
    addLowerPriorityItems_nonpos b hb prev _]
  simp [stableSort]

/-- With a nonpositive budget the rotation loop halts immediately,
emitting no plan and leaving the state untouched. -/
theorem runRotation_nonpos (wl : List WatchlistItem) (b : Int) (cm : Nat) (cy : Int)
    (hb : b ≤ 0) (fuel offset : Nat) (st : CState) (prev : List String)
    (plans : List MonthlyPlan) :
    runRotation wl b cm cy fuel offset st prev plans = (plans, st) := by
  cases fuel with
  | zero => rw [runRotation]
  | succ n =>
    rw [runRotation]
    cases hbk : getActivePriorityBucket wl st with
    | none => rfl
    | some activeBucket =>
      simp only [selectPlatformsForMonth_nonpos activeBucket wl st b prev hb]
      rfl

/-- Counterexample for C7: with a zero budget and the nonempty watchlist
`[exMovie]`, the deferred-items list is *not* empty — the unwatchable
movie is reported there with a budget reason, contradicting the claim's
"empty deferred-items list" for zero/negative budgets. -/
theorem degenerate_input_counterexample :
    (optimizeSubscriptions [exMovie] 0 0 2026).deferredItems ≠ [] ∧
    (optimizeSubscriptions [exMovie] 0 0 2026).deferredItems.map (fun d => d.1.id) = ["m1"] := by
  constructor
  · decide
  · decide

/-- C7 (amended): an empty watchlist yields zero months, zero cost, an
empty deferred list and the no-plan explanation; a zero or negative
budget yields zero months, zero cost and the no-plan explanation, but
its deferred list holds the still-unwatched entries instead of being
empty.  Both cases return normally (the function is total). -/
theorem degenerate_input_handling (wl : List WatchlistItem) (b : Int) (cm : Nat) (cy : Int) :
    (wl = [] →
      (optimizeSubscriptions wl b cm cy).rotationSchedule = [] ∧
      (optimizeSubscriptions wl b cm cy).totalMonthsNeeded = 0 ∧
      (optimizeSubscriptions wl b cm cy).totalCost = 0 ∧
      (optimizeSubscriptions wl b cm cy).deferredItems = [] ∧
      (optimizeSubscriptions wl b cm cy).explanation =
        "No platforms selected. Try increasing your budget or adding content to your watchlist.") ∧
    (b ≤ 0 →
      (optimizeSubscriptions wl b cm cy).rotationSchedule = [] ∧
      (optimizeSubscriptions wl b cm cy).totalMonthsNeeded = 0 ∧
      (optimizeSubscriptions wl b cm cy).totalCost = 0 ∧
      (optimizeSubscriptions wl b cm cy).explanation =
        "No platforms selected. Try increasing your budget or adding content to your watchlist.") := by
  constructor
  · rintro rfl
    exact ⟨rfl, rfl, rfl, rfl, rfl⟩
  · intro hb
    have hrun := runRotation_nonpos wl b cm cy hb (min (maxHorizon wl) 24) 0
      (initializeContentState wl) [] []
    refine ⟨?_, ?_, ?_, ?_⟩ <;>
      simp [optimizeSubscriptions, hrun, generateExplanation]

/-- Witness for C7 (amended) at concrete inputs: the empty watchlist
with budget 1000, and the one-movie watchlist with budget 0. -/
theorem degenerate_input_witness :
    ((optimizeSubscriptions ([] : List WatchlistItem) 1000 0 2026).rotationSchedule = [] ∧
     (optimizeSubscriptions ([] : List WatchlistItem) 1000 0 2026).totalMonthsNeeded = 0 ∧
     (optimizeSubscriptions ([] : List WatchlistItem) 1000 0 2026).totalCost = 0 ∧
     (optimizeSubscriptions ([] : List WatchlistItem) 1000 0 2026).deferredItems = [] ∧
     (optimizeSubscriptions ([] : List WatchlistItem) 1000 0 2026).explanation =
       "No platforms selected. Try increasing your budget or adding content to your watchlist.") ∧
    ((optimizeSubscriptions [exMovie] 0 0 2026).rotationSchedule = [] ∧
     (optimizeSubscriptions [exMovie] 0 0 2026).totalMonthsNeeded = 0 ∧
     (optimizeSubscriptions [exMovie] 0 0 2026).totalCost = 0 ∧
     (optimizeSubscriptions [exMovie] 0 0 2026).explanation =
       "No platforms selected. Try increasing your budget or adding content to your watchlist.") :=
  ⟨(degenerate_input_handling [] 1000 0 2026).1 rfl,
   (degenerate_input_handling [exMovie] 0 0 2026).2 le_rfl⟩

/-! ## C3: fairness of the per-tier allocation -/

/-- Total minutes the allocation table assigns to a list of entries. -/
def sumAlloc (l : List ContentState) (f : AllocMap) : Int :=
  (l.map (fun s => f s.item.id)).sum

/-- Duplicate-free keys of a state list. -/
abbrev NodupKeys (l : List ContentState) : Prop :=
  (l.map (fun s => s.item.id)).Nodup

theorem allocSet_self (f : AllocMap) (id : String) (v : Int) :
    allocSet f id v id = v := by simp [allocSet]

theorem allocSet_ne (f : AllocMap) {id id2 : String} (v : Int) (h : id2 ≠ id) :
    allocSet f id v id2 = f id2 := by simp [allocSet, h]

/-- Updating a key outside the summed list leaves the sum unchanged. -/
theorem sumAlloc_set_notMem (l : List ContentState) (f : AllocMap) {id : String}
    (v : Int) (h : id ∉ l.map (fun s => s.item.id)) :
    sumAlloc l (allocSet f id v) = sumAlloc l f := by
  induction l with
  | nil => rfl
  | cons s t ih =>
    simp only [List.map_cons, List.mem_cons, not_or] at h
    have hne : s.item.id ≠ id := fun he => h.1 he.symm
    simp only [sumAlloc, List.map_cons, List.sum_cons] at *
    rw [allocSet_ne f v hne, ih h.2]

/-- Updating the key of a unique member shifts the sum by the
difference. -/
theorem sumAlloc_set_mem (l : List ContentState) (f : AllocMap) (s0 : ContentState)
    (v : Int) (hnd : NodupKeys l) (hmem : s0 ∈ l) :
    sumAlloc l (allocSet f s0.item.id v) = sumAlloc l f + (v - f s0.item.id) := by
  induction l with
  | nil => cases hmem
  | cons s t ih =>
    unfold NodupKeys at hnd
    rw [List.map_cons, List.nodup_cons] at hnd
    rcases List.mem_cons.mp hmem with rfl | hmem2
    · have hrest := sumAlloc_set_notMem t f v hnd.1
      simp only [sumAlloc] at hrest
      simp only [sumAlloc, List.map_cons, List.sum_cons, allocSet_self]
      rw [hrest]
      ring
    · have hne : s.item.id ≠ s0.item.id := by
        intro he
        exact hnd.1 (he ▸ List.mem_map_of_mem (fun x => x.item.id) hmem2)
      have hih := ih hnd.2 hmem2
      simp only [sumAlloc] at hih
      simp only [sumAlloc, List.map_cons, List.sum_cons]
      rw [allocSet_ne f v hne, hih]
      ring

/-- The first-pass surplus is the summed overshoot of the entries that
need less than the equal share. -/
theorem allocFirstPassAux_surplus (share : Int) :
    ∀ (l : List ContentState) (acc : AllocMap × Int),
      (allocFirstPassAux share l acc).2 =
        acc.2 + (l.map (fun s =>
          if s.remainingMinutes < share then share - s.remainingMinutes else 0)).sum := by
  intro l
  induction l with
  | nil => intro acc; simp [allocFirstPassAux]
  | cons s t ih =>
    intro acc
    rw [allocFirstPassAux]
    by_cases h : s.remainingMinutes < share
    · rw [if_pos h, ih]
      simp [h]
      ring
    · rw [if_neg h, ih]
      simp [h]

/-- The first pass only writes keys of its list. -/
theorem allocFirstPassAux_notMem (share : Int) :
    ∀ (l : List ContentState) (acc : AllocMap × Int) (id : String),
      id ∉ l.map (fun s => s.item.id) →
      (allocFirstPassAux share l acc).1 id = acc.1 id := by
  intro l
  induction l with
  | nil => intro acc id _; rfl
  | cons s t ih =>
    intro acc id hid
    simp only [List.map_cons, List.mem_cons, not_or] at hid
    rw [allocFirstPassAux]
    by_cases h : s.remainingMinutes < share
    · rw [if_pos h, ih _ _ hid.2]
      exact allocSet_ne _ _ (fun he => hid.1 he)
    · rw [if_neg h, ih _ _ hid.2]
      exact allocSet_ne _ _ (fun he => hid.1 he)

/-- On duplicate-free keys the first pass allocates
`min need equalShare` to every entry. -/
theorem allocFirstPassAux_get (share : Int) :
    ∀ (l : List ContentState) (acc : AllocMap × Int),
      NodupKeys l → ∀ s ∈ l,
      (allocFirstPassAux share l acc).1 s.item.id = min s.remainingMinutes share := by
  intro l
  induction l with
  | nil => intro acc _ s hs; cases hs
  | cons a t ih =>
    intro acc hnd s hs
    unfold NodupKeys at hnd
    rw [List.map_cons, List.nodup_cons] at hnd
    rcases List.mem_cons.mp hs with rfl | hs2
    · rw [allocFirstPassAux]
      by_cases h : s.remainingMinutes < share
      · rw [if_pos h, allocFirstPassAux_notMem share t _ _ hnd.1]
        exact allocSet_self _ _ _
      · rw [if_neg h, allocFirstPassAux_notMem share t _ _ hnd.1]
        exact allocSet_self _ _ _
    · rw [allocFirstPassAux]
      by_cases h : a.remainingMinutes < share
      · rw [if_pos h]; exact ih _ hnd.2 s hs2
      · rw [if_neg h]; exact ih _ hnd.2 s hs2

/-- First-pass conservation: allocations plus surplus equal
`length * equalShare`, entrywise `min + overshoot = share`. -/
theorem allocFirstPass_conservation (l : List ContentState) (share : Int)
    (hnd : NodupKeys l) :
    sumAlloc l (allocFirstPass l share).1 + (allocFirstPass l share).2 =
      (l.length : Int) * share := by
  unfold allocFirstPass
  rw [allocFirstPassAux_surplus]
  have hpt : ∀ s ∈ l, (allocFirstPassAux share l (fun _ => 0, 0)).1 s.item.id =
      min s.remainingMinutes share := allocFirstPassAux_get share l _ hnd
  unfold sumAlloc
  rw [List.map_congr_left (fun s hs => hpt s hs)]
  induction l with
  | nil => simp
  | cons a t iht =>
    have hndt : NodupKeys t := by
      unfold NodupKeys at hnd ⊢
      rw [List.map_cons, List.nodup_cons] at hnd
      exact hnd.2
    have := iht hndt (allocFirstPassAux_get share t _ hndt)
    simp only [List.map_cons, List.sum_cons, List.length_cons]
    push_cast
    rw [show ((t.length : Int) + 1) * share = (t.length : Int) * share + share by ring]
    have hone : min a.remainingMinutes share +
        (if a.remainingMinutes < share then share - a.remainingMinutes else 0) = share := by
      by_cases h : a.remainingMinutes < share
      · simp [h, min_eq_left (le_of_lt h)]
      · simp [h, min_eq_right (le_of_not_lt h)]
    omega

/-- The first-pass surplus is nonnegative. -/
theorem allocFirstPass_surplus_nonneg (l : List ContentState) (share : Int) :
    0 ≤ (allocFirstPass l share).2 := by
  unfold allocFirstPass
  rw [allocFirstPassAux_surplus]
  simp only [zero_add]
  refine List.sum_nonneg ?_
  intro x hx
  rcases List.mem_map.mp hx with ⟨s, _, rfl⟩
  by_cases h : s.remainingMinutes < share
  · simp [h]; omega
  · simp [h]

/-- The first pass never allocates beyond an entry's need. -/
theorem allocFirstPass_le_need (l : List ContentState) (share : Int)
    (hnd : NodupKeys l) :
    ∀ s ∈ l, (allocFirstPass l share).1 s.item.id ≤ s.remainingMinutes := by
  intro s hs
  rw [allocFirstPass, allocFirstPassAux_get share l _ hnd s hs]
  exact min_le_left _ _

/-- Two members of a duplicate-free state list sharing a key are the
same entry. -/
theorem eq_of_same_key {l : List ContentState} (hnd : NodupKeys l) {s x : ContentState}
    (hs : s ∈ l) (hx : x ∈ l) (h : s.item.id = x.item.id) : s = x := by
  induction l with
  | nil => cases hs
  | cons a t ih =>
    unfold NodupKeys at hnd
    rw [List.map_cons, List.nodup_cons] at hnd
    rcases List.mem_cons.mp hs with rfl | hs2
    · rcases List.mem_cons.mp hx with rfl | hx2
      · rfl
      · exact absurd (h ▸ List.mem_map_of_mem (fun y => y.item.id) hx2) hnd.1
    · rcases List.mem_cons.mp hx with rfl | hx2
      · exact absurd (h ▸ List.mem_map_of_mem (fun y => y.item.id) hs2) hnd.1
      · exact ih hnd.2 hs2 hx2

/-- A redistribution pass preserves the per-entry need bound. -/
theorem givePass_le_need (extra : Int) :
    ∀ (nm : List ContentState) (alloc : AllocMap) (l : List ContentState),
      NodupKeys l → (∀ x ∈ nm, x ∈ l) →
      (∀ s ∈ l, alloc s.item.id ≤ s.remainingMinutes) →
      ∀ s ∈ l, (givePass extra nm alloc).1 s.item.id ≤ s.remainingMinutes := by
  intro nm
  induction nm with
  | nil => intro alloc l _ _ hle s hs; exact hle s hs
  | cons x rest ih =>
    intro alloc l hnd hsub hle s hs
    have hxl : x ∈ l := hsub x (List.mem_cons_self x rest)
    rw [givePass]
    by_cases hc : min extra (x.remainingMinutes - alloc x.item.id) > 0
    · rw [if_pos hc]
      simp only
      refine ih _ l hnd (fun y hy => hsub y (List.mem_cons_of_mem x hy)) ?_ s hs
      intro y hy
      by_cases hid : y.item.id = x.item.id
      · have hyx : y = x := eq_of_same_key hnd hy hxl hid
        subst hyx
        rw [allocSet_self]
        have := min_le_right extra (y.remainingMinutes - alloc y.item.id)
        omega
      · rw [allocSet_ne _ _ hid]
        exact hle y hy
    · rw [if_neg hc]
      exact ih _ l hnd (fun y hy => hsub y (List.mem_cons_of_mem x hy)) hle s hs

/-- A redistribution pass shifts the total allocation by exactly the
redistributed amount. -/
theorem givePass_sum (extra : Int) :
    ∀ (nm : List ContentState) (alloc : AllocMap) (l : List ContentState),
      NodupKeys l → (∀ x ∈ nm, x ∈ l) →
      sumAlloc l (givePass extra nm alloc).1 =
        sumAlloc l alloc + (givePass extra nm alloc).2 := by
  intro nm
  induction nm with
  | nil => intro alloc l _ _; simp [givePass]
  | cons x rest ih =>
    intro alloc l hnd hsub
    have hxl : x ∈ l := hsub x (List.mem_cons_self x rest)
    rw [givePass]
    by_cases hc : min extra (x.remainingMinutes - alloc x.item.id) > 0
    · rw [if_pos hc]
      simp only
      have hrec := ih (allocSet alloc x.item.id
          (alloc x.item.id + min extra (x.remainingMinutes - alloc x.item.id))) l hnd
        (fun y hy => hsub y (List.mem_cons_of_mem x hy))
      rw [hrec, sumAlloc_set_mem l alloc x _ hnd hxl]
      ring
    · rw [if_neg hc]
      exact ih alloc l hnd (fun y hy => hsub y (List.mem_cons_of_mem x hy))

/-- The redistributed amount is nonnegative and bounded by
`extra * length`. -/
theorem givePass_red_bounds (extra : Int) (hex : 0 ≤ extra) :
    ∀ (nm : List ContentState) (alloc : AllocMap),
      0 ≤ (givePass extra nm alloc).2 ∧
      (givePass extra nm alloc).2 ≤ extra * nm.length := by
  intro nm
  induction nm with
  | nil => intro alloc; simp [givePass]
  | cons x rest ih =>
    intro alloc
    rw [givePass]
    by_cases hc : min extra (x.remainingMinutes - alloc x.item.id) > 0
    · rw [if_pos hc]
      simp only
      have hrec := ih (allocSet alloc x.item.id
        (alloc x.item.id + min extra (x.remainingMinutes - alloc x.item.id)))
      have hmin := min_le_left extra (x.remainingMinutes - alloc x.item.id)
      constructor
      · omega
      · have : extra * ((x :: rest).length : Int) = extra * rest.length + extra := by
          simp [List.length_cons]
          ring
        omega
    · rw [if_neg hc]
      have hrec := ih alloc
      have : extra * ((x :: rest).length : Int) = extra * rest.length + extra := by
        simp [List.length_cons]
        ring
      constructor
      · exact hrec.1
      · omega

/-- On a nonempty list of strictly needy entries with a positive
`extra`, some amount is always redistributed. -/
theorem givePass_red_pos (extra : Int) (hex : 0 < extra)
    (nm : List ContentState) (alloc : AllocMap)
    (hunder : ∀ s ∈ nm, alloc s.item.id < s.remainingMinutes) (hne : nm ≠ []) :
    0 < (givePass extra nm alloc).2 := by
  cases nm with
  | nil => cases hne rfl
  | cons x rest =>
    rw [givePass]
    have hx := hunder x (List.mem_cons_self x rest)
    have hc : min extra (x.remainingMinutes - alloc x.item.id) > 0 := by omega
    rw [if_pos hc]
    simp only
    have := (givePass_red_bounds extra (le_of_lt hex) rest
      (allocSet alloc x.item.id (alloc x.item.id + min extra (x.remainingMinutes - alloc x.item.id)))).1
    omega

/-- The one-minute remainder pass preserves the per-entry need bound. -/
theorem oneMinutePass_le_need :
    ∀ (nm : List ContentState) (alloc : AllocMap) (surplus : Int)
      (l : List ContentState),
      NodupKeys l → (∀ x ∈ nm, x ∈ l) →
      (∀ s ∈ l, alloc s.item.id ≤ s.remainingMinutes) →
      ∀ s ∈ l, oneMinutePass nm alloc surplus s.item.id ≤ s.remainingMinutes := by
  intro nm
  induction nm with
  | nil => intro alloc surplus l _ _ hle s hs; exact hle s hs
  | cons x rest ih =>
    intro alloc surplus l hnd hsub hle s hs
    have hxl : x ∈ l := hsub x (List.mem_cons_self x rest)
    rw [oneMinutePass]
    by_cases hz : surplus ≤ 0
    · rw [if_pos hz]; exact hle s hs
    · rw [if_neg hz]
      by_cases hc : x.remainingMinutes - alloc x.item.id > 0
      · rw [if_pos hc]
        refine ih _ _ l hnd (fun y hy => hsub y (List.mem_cons_of_mem x hy)) ?_ s hs
        intro y hy
        by_cases hid : y.item.id = x.item.id
        · have hyx : y = x := eq_of_same_key hnd hy hxl hid
          subst hyx
          rw [allocSet_self]
          omega
        · rw [allocSet_ne _ _ hid]
          exact hle y hy
      · rw [if_neg hc]
        exact ih _ _ l hnd (fun y hy => hsub y (List.mem_cons_of_mem x hy)) hle s hs

/-- When the surplus is at most the number of needy entries, the
one-minute pass spends it exactly. -/
theorem oneMinutePass_sum :
    ∀ (nm : List ContentState) (alloc : AllocMap) (surplus : Int)
      (l : List ContentState),
      NodupKeys l → NodupKeys nm → (∀ x ∈ nm, x ∈ l) →
      (∀ x ∈ nm, alloc x.item.id < x.remainingMinutes) →
      0 ≤ surplus → surplus ≤ nm.length →
      sumAlloc l (oneMinutePass nm alloc surplus) = sumAlloc l alloc + surplus := by
  intro nm
  induction nm with
  | nil =>
    intro alloc surplus l _ _ _ _ h0 hlen
    simp only [List.length_nil, Nat.cast_zero] at hlen
    have : surplus = 0 := le_antisymm (by exact_mod_cast hlen) h0
    subst this
    simp [oneMinutePass]
  | cons x rest ih =>
    intro alloc surplus l hnd hndnm hsub hunder h0 hlen
    have hxl : x ∈ l := hsub x (List.mem_cons_self x rest)
    rw [oneMinutePass]
    by_cases hz : surplus ≤ 0
    · have : surplus = 0 := le_antisymm hz h0
      subst this
      simp
    · rw [if_neg hz]
      have hcx := hunder x (List.mem_cons_self x rest)
      have hc : x.remainingMinutes - alloc x.item.id > 0 := by omega
      rw [if_pos hc]
      unfold NodupKeys at hndnm
      rw [List.map_cons, List.nodup_cons] at hndnm
      have hrec := ih (allocSet alloc x.item.id (alloc x.item.id + 1)) (surplus - 1) l hnd
        hndnm.2 (fun y hy => hsub y (List.mem_cons_of_mem x hy))
        (fun y hy => by
          have hidne : y.item.id ≠ x.item.id := by
            intro he
            exact hndnm.1 (he ▸ List.mem_map_of_mem (fun z => z.item.id) hy)
          rw [allocSet_ne _ _ hidne]
          exact hunder y (List.mem_cons_of_mem x hy))
        (by omega)
        (by
          have : ((x :: rest).length : Int) = (rest.length : Int) + 1 := by
            simp [List.length_cons]
          omega)
      rw [hrec, sumAlloc_set_mem l alloc x _ hnd hxl]
      ring

/-- Keys of a filtered state list stay duplicate-free. -/
theorem NodupKeys.filter (l : List ContentState) (p : ContentState → Bool)
    (hnd : NodupKeys l) : NodupKeys (l.filter p) :=
  List.Nodup.sublist (List.Sublist.map _ (List.filter_sublist l)) hnd

/-- Exit analysis of the surplus-redistribution loop: with enough fuel
(one more than the surplus, which each iteration decreases by at least
one), the result never over-allocates an entry, its total stays below
the conserved quantity `K`, and `K` is reached in full whenever some
entry is still under-served. -/
theorem redistributeLoop_spec (l : List ContentState) (hnd : NodupKeys l) (K : Int) :
    ∀ (fuel : Nat) (alloc : AllocMap) (surplus : Int),
      surplus.toNat < fuel →
      0 ≤ surplus →
      sumAlloc l alloc + surplus = K →
      (∀ s ∈ l, alloc s.item.id ≤ s.remainingMinutes) →
      (∀ s ∈ l, (redistributeLoop l fuel alloc surplus
          (l.filter (fun s => s.remainingMinutes > alloc s.item.id))) s.item.id ≤
          s.remainingMinutes) ∧
      sumAlloc l (redistributeLoop l fuel alloc surplus
        (l.filter (fun s => s.remainingMinutes > alloc s.item.id))) ≤ K ∧
      ((∃ s ∈ l, (redistributeLoop l fuel alloc surplus
          (l.filter (fun s => s.remainingMinutes > alloc s.item.id))) s.item.id <
          s.remainingMinutes) →
        sumAlloc l (redistributeLoop l fuel alloc surplus
          (l.filter (fun s => s.remainingMinutes > alloc s.item.id))) = K) := by
  intro fuel
  induction fuel with
  | zero => intro alloc surplus hfuel; omega
  | succ n ih =>
    intro alloc surplus hfuel h0 hK hle
    set nm := l.filter (fun s => s.remainingMinutes > alloc s.item.id) with hnm
    have hnmsub : ∀ x ∈ nm, x ∈ l := fun x hx => List.mem_of_mem_filter hx
    have hnmunder : ∀ x ∈ nm, alloc x.item.id < x.remainingMinutes := by
      intro x hx
      have := List.of_mem_filter hx
      simpa using this
    have hnmnd : NodupKeys nm := NodupKeys.filter l _ hnd
    rw [redistributeLoop]
    by_cases hc : surplus > 0 ∧ nm ≠ []
    · rw [if_pos hc]
      have hlenpos : (0 : Int) < nm.length := by
        cases hmm : nm with
        | nil => exact absurd hmm hc.2
        | cons a t => simp [hmm]
      by_cases hex : surplus.fdiv nm.length = 0
      · rw [if_pos hex]
        have hslt : surplus < nm.length := by
          by_contra hge
          push_neg at hge
          have h1 : (1 : Int) ≤ surplus / (nm.length : Int) :=
            (Int.le_ediv_iff_mul_le hlenpos).mpr (by omega)
          rw [← Int.fdiv_eq_ediv surplus (le_of_lt hlenpos)] at h1
          omega
        have hsum := oneMinutePass_sum nm alloc surplus l hnd hnmnd hnmsub hnmunder h0
          (le_of_lt hslt)
        refine ⟨?_, ?_, ?_⟩
        · exact oneMinutePass_le_need nm alloc surplus l hnd hnmsub hle
        · omega
        · intro _; omega
      · rw [if_neg hex]
        have hexpos : 0 < surplus.fdiv nm.length := by
          have := Int.fdiv_nonneg (le_of_lt hc.1) (le_of_lt hlenpos)
          omega
        have hgpos := givePass_red_pos (surplus.fdiv nm.length) hexpos nm alloc
          hnmunder hc.2
        rw [if_neg (by omega)]
        have hred := givePass_red_bounds (surplus.fdiv nm.length) (le_of_lt hexpos) nm alloc
        have hredle : (givePass (surplus.fdiv nm.length) nm alloc).2 ≤ surplus := by
          have hmul : surplus.fdiv nm.length * nm.length ≤ surplus := by
            rw [Int.fdiv_eq_ediv surplus (le_of_lt hlenpos)]
            exact Int.ediv_mul_le surplus (by omega)
          exact le_trans hred.2 hmul
        have hsum := givePass_sum (surplus.fdiv nm.length) nm alloc l hnd hnmsub
        have hle2 := givePass_le_need (surplus.fdiv nm.length) nm alloc l hnd hnmsub hle
        exact ih (givePass (surplus.fdiv nm.length) nm alloc).1
          (surplus - (givePass (surplus.fdiv nm.length) nm alloc).2)
          (by omega) (by omega) (by omega) hle2
    · rw [if_neg hc]
      push_neg at hc
      refine ⟨hle, by omega, ?_⟩
      intro hunder
      by_cases hz : surplus > 0
      · obtain ⟨s, hs, hlt⟩ := hunder
        have : s ∈ nm := by
          rw [hnm]
          refine List.mem_filter.mpr ⟨hs, by simpa using hlt⟩
        exact absurd (hc hz) (by intro he; rw [he] at this; cases this)
      · omega

/-- Full exit analysis of `computeAllocations`: never over-allocates an
entry, never exceeds the capacity, and distributes the full equal-share
total `length * ⌊capacity / length⌋` whenever an entry is left
under-served. -/
theorem computeAllocations_spec (l : List ContentState) (cap : Int)
    (hnd : NodupKeys l) (hcap : 0 ≤ cap) :
    (∀ s ∈ l, computeAllocations l cap s.item.id ≤ s.remainingMinutes) ∧
    sumAlloc l (computeAllocations l cap) ≤ cap ∧
    ((∃ s ∈ l, computeAllocations l cap s.item.id < s.remainingMinutes) →
      sumAlloc l (computeAllocations l cap) =
        (l.length : Int) * (cap.fdiv l.length)) := by
  have hKcap : (l.length : Int) * (cap.fdiv l.length) ≤ cap := by
    cases l with
    | nil => simpa using hcap
    | cons a t =>
      have hlen : (0 : Int) < (((a :: t).length : Nat) : Int) := by
        simp
      rw [Int.fdiv_eq_ediv cap (le_of_lt hlen)]
      calc (((a :: t).length : Nat) : Int) * (cap / (((a :: t).length : Nat) : Int))
          = cap / (((a :: t).length : Nat) : Int) * (((a :: t).length : Nat) : Int) := by ring
        _ ≤ cap := Int.ediv_mul_le cap (by omega)
  simp only [computeAllocations]
  by_cases hsp : (allocFirstPass l (cap.fdiv l.length)).2 > 0
  · rw [if_pos hsp]
    have hspec := redistributeLoop_spec l hnd ((l.length : Int) * (cap.fdiv l.length))
      ((allocFirstPass l (cap.fdiv l.length)).2.toNat + 1)
      (allocFirstPass l (cap.fdiv l.length)).1
      (allocFirstPass l (cap.fdiv l.length)).2
      (by omega) (le_of_lt hsp)
      (allocFirstPass_conservation l _ hnd)
      (allocFirstPass_le_need l _ hnd)
    exact ⟨hspec.1, le_trans hspec.2.1 hKcap, fun h => hspec.2.2 h⟩
  · rw [if_neg hsp]
    have hz : (allocFirstPass l (cap.fdiv l.length)).2 = 0 := by
      have := allocFirstPass_surplus_nonneg l (cap.fdiv l.length)
      omega
    have hcons := allocFirstPass_conservation l (cap.fdiv l.length) hnd
    exact ⟨allocFirstPass_le_need l _ hnd, by omega, fun _ => by omega⟩

/-- Active-series entries whose needs sum exactly to the capacity, yet
the floor residue of the equal share leaves the first one
under-served. -/
def exA : ContentState :=
  ⟨{ id := "a", title := "A", type := ItemType.tv, priority := Priority.low,
     providers := ["netflix"] }, 1202, 1202⟩

def exB : ContentState :=
  ⟨{ id := "b", title := "B", type := ItemType.tv, priority := Priority.low,
     providers := ["netflix"] }, 1199, 1199⟩

def exC : ContentState :=
  ⟨{ id := "c", title := "C", type := ItemType.tv, priority := Priority.low,
     providers := ["netflix"] }, 1198, 1198⟩

/-- Counterexample for C3: with needs (1202, 1199, 1198) and capacity
3599 = the exact total need, entry `a` ends with 1200 < 1202 allocated —
an entry is under-served although the tier's total capacity sufficed;
the floor residue `3599 - 3*1199 = 2` is never distributed.  This
refutes "no entry ends with allocated < its remaining need unless the
tier's total capacity was insufficient". -/
theorem fair_allocation_counterexample :
    computeAllocations [exA, exB, exC] 3599 exA.item.id < exA.remainingMinutes ∧
    ([exA, exB, exC].map (fun s => s.remainingMinutes)).sum ≤ 3599 ∧
    computeAllocations [exA, exB, exC] 3599 exA.item.id = 1200 := by
  refine ⟨?_, ?_, ?_⟩ <;> decide

/-- C3 (amended): within one tier, the allocation pass (equal shares
plus surplus redistribution) never allocates beyond an entry's need or
beyond the tier capacity, and an entry can end under-served only when
the summed needs exceed `length * ⌊capacity / length⌋` — the equal-share
total after floor division, which can fall short of the capacity by up
to `length - 1` residue minutes. -/
theorem fair_allocation_bounds (l : List ContentState) (cap : Int)
    (hnd : NodupKeys l) (hcap : 0 ≤ cap) :
    sumAlloc l (computeAllocations l cap) ≤ cap ∧
    (∀ s ∈ l, computeAllocations l cap s.item.id ≤ s.remainingMinutes) ∧
    ((∃ s ∈ l, computeAllocations l cap s.item.id < s.remainingMinutes) →
      (l.map (fun s => s.remainingMinutes)).sum >
        (l.length : Int) * (cap.fdiv l.length)) := by
  obtain ⟨h1, h2, h3⟩ := computeAllocations_spec l cap hnd hcap
  refine ⟨h2, h1, ?_⟩
  intro hex
  have hsum := h3 hex
  have hlt : sumAlloc l (computeAllocations l cap) <
      (l.map (fun s => s.remainingMinutes)).sum := by
    unfold sumAlloc
    exact List.sum_lt_sum _ _ (fun s hs => h1 s hs) hex
  omega

/-- Two series entries for the C3 witness: one finishing early, one
absorbing the redistributed surplus. -/
def exD : ContentState :=
  ⟨{ id := "d", title := "D", type := ItemType.tv, priority := Priority.low,
     providers := ["netflix"] }, 1, 1⟩

def exE : ContentState :=
  ⟨{ id := "e", title := "E", type := ItemType.tv, priority := Priority.low,
     providers := ["netflix"] }, 100, 100⟩

/-- Witness for C3 (amended) at a concrete input: needs (1, 100) with
capacity 10. -/
theorem fair_allocation_bounds_witness :
    sumAlloc [exD, exE] (computeAllocations [exD, exE] 10) ≤ 10 ∧
    (∀ s ∈ [exD, exE], computeAllocations [exD, exE] 10 s.item.id ≤ s.remainingMinutes) ∧
    ((∃ s ∈ [exD, exE], computeAllocations [exD, exE] 10 s.item.id < s.remainingMinutes) →
      ([exD, exE].map (fun s => s.remainingMinutes)).sum >
        (([exD, exE].length : Nat) : Int) * ((10 : Int).fdiv ([exD, exE].length : Nat))) :=
  fair_allocation_bounds [exD, exE] 10 (by decide) (by decide)

/-! ## C10: the input watchlist is never mutated -/

/-- Updating a remaining counter leaves every entry's copied
`WatchlistItem` intact. -/
theorem stateSetRemaining_items (st : CState) (id : String) (v : Int) :
    (stateSetRemaining st id v).map (fun cs => cs.item) = st.map (fun cs => cs.item) := by
  unfold stateSetRemaining
  rw [List.map_map]
  refine List.map_congr_left ?_
  intro cs _
  simp only [Function.comp]
  split <;> rfl

/-- A found state entry is a member of the map. -/
theorem stateGet_mem {st : CState} {id : String} {cs : ContentState}
    (h : stateGet st id = some cs) : cs ∈ st :=
  List.mem_of_find?_eq_some h

/-- A found state entry carries the looked-up key. -/
theorem stateGet_key {st : CState} {id : String} {cs : ContentState}
    (h : stateGet st id = some cs) : cs.item.id = id := by
  have := List.find?_some h
  simpa using this

/-- The movie pass preserves the entry items and only emits copies of
its input movies. -/
theorem scheduleMoviePass_items (d : SimDate) :
    ∀ (movies : List ContentState) (st : CState) (cap day : Int),
      ((scheduleMoviePass d movies st cap day).2.1.map (fun cs => cs.item) =
        st.map (fun cs => cs.item)) ∧
      (∀ si ∈ (scheduleMoviePass d movies st cap day).1,
        ∃ m ∈ movies, si.item = m.item) := by
  intro movies
  induction movies with
  | nil => intro st cap day; exact ⟨rfl, by intro si h; cases h⟩
  | cons m rest ih =>
    intro st cap day
    rw [scheduleMoviePass]
    by_cases hc : cap ≤ 0
    · rw [if_pos hc]
      exact ⟨rfl, by intro si h; cases h⟩
    · rw [if_neg hc]
      by_cases hfit : m.remainingMinutes ≤ cap
      · rw [if_pos hfit]
        simp only
        have hrec := ih (stateSetRemaining st m.item.id 0) (cap - m.remainingMinutes) (day + 1)
        constructor
        · rw [hrec.1, stateSetRemaining_items]
        · intro si hsi
          rcases List.mem_cons.mp hsi with rfl | hsi2
          · exact ⟨m, List.mem_cons_self m rest, rfl⟩
          · obtain ⟨x, hx, hxe⟩ := hrec.2 si hsi2
            exact ⟨x, List.mem_cons_of_mem m hx, hxe⟩
      · rw [if_neg hfit]
        have hrec := ih st cap day
        exact ⟨hrec.1, fun si hsi => by
          obtain ⟨x, hx, hxe⟩ := hrec.2 si hsi
          exact ⟨x, List.mem_cons_of_mem m hx, hxe⟩⟩

/-- The series pass preserves the entry items and only emits copies of
its input series. -/
theorem scheduleSeriesPass_items (d : SimDate) (alloc : AllocMap) (startDay : Int) :
    ∀ (ser : List ContentState) (st : CState) (cap : Int),
      ((scheduleSeriesPass d alloc startDay ser st cap).2.1.map (fun cs => cs.item) =
        st.map (fun cs => cs.item)) ∧
      (∀ si ∈ (scheduleSeriesPass d alloc startDay ser st cap).1,
        ∃ x ∈ ser, si.item = x.item) := by
  intro ser
  induction ser with
  | nil => intro st cap; exact ⟨rfl, by intro si h; cases h⟩
  | cons x rest ih =>
    intro st cap
    rw [scheduleSeriesPass]
    by_cases hz : alloc x.item.id ≤ 0
    · rw [if_pos hz]
      have hrec := ih st cap
      exact ⟨hrec.1, fun si hsi => by
        obtain ⟨y, hy, hye⟩ := hrec.2 si hsi
        exact ⟨y, List.mem_cons_of_mem x hy, hye⟩⟩
    · rw [if_neg hz]
      simp only
      have hrec := ih (stateSetRemaining st x.item.id (x.remainingMinutes - alloc x.item.id))
        (cap - alloc x.item.id)
      constructor
      · rw [hrec.1, stateSetRemaining_items]
      · intro si hsi
        rcases List.mem_cons.mp hsi with rfl | hsi2
        · exact ⟨x, List.mem_cons_self x rest, rfl⟩
        · obtain ⟨y, hy, hye⟩ := hrec.2 si hsi2
          exact ⟨y, List.mem_cons_of_mem x hy, hye⟩

/-- The bucket loop preserves the entry items; every emitted item is
the copy of a current state entry. -/
theorem processBuckets_items (d : SimDate) (bucketIds : Priority → List String) :
    ∀ (prios : List Priority) (st : CState) (cap day : Int) (out : List ScheduledItem),
      ((processBuckets d bucketIds prios st cap day out).2.1.map (fun cs => cs.item) =
        st.map (fun cs => cs.item)) ∧
      (∀ si ∈ (processBuckets d bucketIds prios st cap day out).1,
        si ∈ out ∨ si.item ∈ st.map (fun cs => cs.item)) := by
  intro prios
  induction prios with
  | nil => intro st cap day out; exact ⟨rfl, fun si hsi => Or.inl hsi⟩
  | cons p rest ih =>
    intro st cap day out
    rw [processBuckets]
    by_cases hbe : ((bucketIds p).filterMap (stateGet st)).isEmpty
    · rw [if_pos hbe]
      exact ih st cap day out
    · rw [if_neg hbe]
      by_cases hcap : cap ≤ 0
      · rw [if_pos hcap]
        exact ⟨rfl, fun si hsi => Or.inl hsi⟩
      · rw [if_neg hcap]
        simp only
        set bucketStates := (bucketIds p).filterMap (stateGet st) with hbs
        have hbsmem : ∀ cs ∈ bucketStates, cs ∈ st := by
          intro cs hcs
          rw [hbs] at hcs
          obtain ⟨id, _, hg⟩ := List.mem_filterMap.mp hcs
          exact stateGet_mem hg
        set movies := bucketStates.filter
          (fun s => s.item.type == ItemType.movie && s.remainingMinutes > 0) with hmv
        set series := bucketStates.filter
          (fun s => s.item.type != ItemType.movie && s.remainingMinutes > 0) with hsr
        have hmp := scheduleMoviePass_items d movies st cap day
        set mp := scheduleMoviePass d movies st cap day with hmpd
        set activeSeries := ((series.map (fun s => s.item.id)).filterMap
          (stateGet mp.2.1)).filter (fun s => s.remainingMinutes > 0) with has
        have hasmem : ∀ cs ∈ activeSeries, cs ∈ mp.2.1 := by
          intro cs hcs
          rw [has] at hcs
          obtain ⟨id, _, hg⟩ := List.mem_filterMap.mp (List.mem_of_mem_filter hcs)
          exact stateGet_mem hg
        by_cases hskip : activeSeries.isEmpty || decide (mp.2.2.1 ≤ 0)
        · rw [if_pos hskip]
          have hrec := ih mp.2.1 mp.2.2.1 mp.2.2.2 (out ++ mp.1)
          constructor
          · rw [hrec.1, hmp.1]
          · intro si hsi
            rcases hrec.2 si hsi with hin | hin
            · rcases List.mem_append.mp hin with h | h
              · exact Or.inl h
              · obtain ⟨m, hm, hme⟩ := hmp.2 si h
                exact Or.inr (hme ▸
                  List.mem_map_of_mem (fun cs => cs.item) (hbsmem m (List.mem_of_mem_filter hm)))
            · rw [hmp.1] at hin
              exact Or.inr hin
        · rw [if_neg hskip]
          have hsp := scheduleSeriesPass_items d (computeAllocations activeSeries mp.2.2.1)
            mp.2.2.2 activeSeries mp.2.1 mp.2.2.1
          set sp := scheduleSeriesPass d (computeAllocations activeSeries mp.2.2.1)
            mp.2.2.2 activeSeries mp.2.1 mp.2.2.1 with hspd
          have hrec := ih sp.2.1 sp.2.2
            (min (mp.2.2.2 + ((activeSeries.length + 1) / 2 : Nat)) DAYS_IN_MONTH)
            (out ++ mp.1 ++ sp.1)
          constructor
          · rw [hrec.1, hsp.1, hmp.1]
          · intro si hsi
            rcases hrec.2 si hsi with hin | hin
            · rcases List.mem_append.mp hin with h | h
              · rcases List.mem_append.mp h with h2 | h2
                · exact Or.inl h2
                · obtain ⟨m, hm, hme⟩ := hmp.2 si h2
                  exact Or.inr (hme ▸
                    List.mem_map_of_mem (fun cs => cs.item) (hbsmem m (List.mem_of_mem_filter hm)))
              · obtain ⟨x, hx, hxe⟩ := hsp.2 si h
                have : x.item ∈ mp.2.1.map (fun cs => cs.item) :=
                  List.mem_map_of_mem (fun cs => cs.item) (hasmem x hx)
                rw [hmp.1] at this
                exact Or.inr (hxe ▸ this)
            · rw [hsp.1, hmp.1] at hin
              exact Or.inr hin

/-- The month scheduler preserves entry items; every emitted item is a
copy of a state entry. -/
theorem scheduleContentForMonth_items (ps : List OptimizedService) (cs : CState)
    (wl : List WatchlistItem) (d : SimDate) :
    ((scheduleContentForMonth ps cs wl d).2.1.map (fun s => s.item) =
      cs.map (fun s => s.item)) ∧
    (∀ si ∈ (scheduleContentForMonth ps cs wl d).1,
      si.item ∈ cs.map (fun s => s.item)) := by
  unfold scheduleContentForMonth
  simp only
  have h := processBuckets_items d
    (fun p =>
      List.filter
        (fun id =>
          match stateGet cs id with
          | some cs => cs.item.priority == p
          | none => false)
        (computeCandidateIds ps cs wl))
    PRIORITY_ORDER cs (MONTHLY_WATCH_LIMIT * 60) 1 []
  exact ⟨h.1, fun si hsi => by
    rcases h.2 si hsi with hin | hin
    · cases hin
    · exact hin⟩

/-- Entries of an `alistAppend` group come from the old groups or are
the appended item. -/
theorem alistAppend_mem {m : List (String × List WatchlistItem)} {key : String}
    {item : WatchlistItem} :
    ∀ e ∈ alistAppend m key item, ∀ it ∈ e.2, (∃ e0 ∈ m, it ∈ e0.2) ∨ it = item := by
  intro e he it hit
  unfold alistAppend at he
  by_cases hk : m.any (fun x => x.1 == key)
  · rw [if_pos hk] at he
    obtain ⟨e0, he0, he0e⟩ := List.mem_map.mp he
    by_cases hkey : e0.1 == key
    · rw [if_pos hkey] at he0e
      subst he0e
      rcases List.mem_append.mp hit with h | h
      · exact Or.inl ⟨e0, he0, h⟩
      · exact Or.inr (List.mem_singleton.mp h)
    · rw [if_neg hkey] at he0e
      subst he0e
      exact Or.inl ⟨e0, he0, hit⟩
  · rw [if_neg hk] at he
    rcases List.mem_append.mp he with h | h
    · exact Or.inl ⟨e, h, hit⟩
    · rcases List.mem_singleton.mp h with rfl
      exact Or.inr (List.mem_singleton.mp hit)

/-- Members of the cheapest-platform grouping come from the grouped
items. -/
theorem groupFold_subset :
    ∀ (items : List WatchlistItem) (m : List (String × List WatchlistItem)),
      ∀ e ∈ items.foldl
        (fun m item =>
          match getCheapestProvider item with
          | none => m
          | some cheapest => alistAppend m cheapest.1 item) m,
      ∀ it ∈ e.2, (∃ e0 ∈ m, it ∈ e0.2) ∨ it ∈ items := by
  intro items
  induction items with
  | nil => intro m e he it hit; exact Or.inl ⟨e, he, hit⟩
  | cons a rest ih =>
    intro m e he it hit
    rw [List.foldl_cons] at he
    cases hch : getCheapestProvider a with
    | none =>
      rw [hch] at he
      rcases ih m e he it hit with h | h
      · exact Or.inl h
      · exact Or.inr (List.mem_cons_of_mem a h)
    | some cheapest =>
      rw [hch] at he
      rcases ih (alistAppend m cheapest.1 a) e he it hit with ⟨e0, he0, hite0⟩ | h
      · rcases alistAppend_mem e0 he0 it hite0 with h2 | h2
        · exact Or.inl h2
        · exact Or.inr (h2 ▸ List.mem_cons_self a rest)
      · exact Or.inr (List.mem_cons_of_mem a h)

/-- The greedy budget pass only moves grouped items into its outputs. -/
theorem budgetGreedyPass_subset (b : Int) :
    ∀ (gs : List (String × Int × List WatchlistItem))
      (acc : List WatchlistItem × List WatchlistItem × Int),
      ∀ it ∈ (budgetGreedyPass b gs acc).1, it ∈ acc.1 ∨ ∃ g ∈ gs, it ∈ g.2.2 := by
  intro gs
  induction gs with
  | nil => intro acc it hit; exact Or.inl hit
  | cons g rest ih =>
    intro acc it hit
    rw [budgetGreedyPass] at hit
    by_cases hc : acc.2.2 + g.2.1 ≤ b
    · rw [if_pos hc] at hit
      rcases ih _ it hit with h | ⟨g0, hg0, hg0e⟩
      · rcases List.mem_append.mp h with h2 | h2
        · exact Or.inl h2
        · exact Or.inr ⟨g, List.mem_cons_self g rest, h2⟩
      · exact Or.inr ⟨g0, List.mem_cons_of_mem g hg0, hg0e⟩
    · rw [if_neg hc] at hit
      rcases ih _ it hit with h | ⟨g0, hg0, hg0e⟩
      · exact Or.inl h
      · exact Or.inr ⟨g0, List.mem_cons_of_mem g hg0, hg0e⟩

/-- Items selected within budget come from the input tier. -/
theorem selectItemsWithinBudget_subset (items : List WatchlistItem) (b : Int) :
    ∀ it ∈ (selectItemsWithinBudget items b).1, it ∈ items := by
  intro it hit
  unfold selectItemsWithinBudget at hit
  simp only at hit
  rcases budgetGreedyPass_subset b _ _ it hit with h | ⟨g, hg, hge⟩
  · cases h
  · rw [mem_stableSort] at hg
    obtain ⟨e, hem, rfl⟩ := List.mem_map.mp hg
    rcases groupFold_subset items [] e hem it hge with ⟨e0, he0, _⟩ | h
    · cases he0
    · exact h

/-- The lower-priority pass only adds items from its input list. -/
theorem addLowerPriorityItems_subset (b : Int) (prev : List String) :
    ∀ (l : List WatchlistItem) (acc : List WatchlistItem × List String × Int),
      ∀ it ∈ (addLowerPriorityItems b prev l acc).1, it ∈ acc.1 ∨ it ∈ l := by
  intro l
  induction l with
  | nil => intro acc it hit; exact Or.inl hit
  | cons a rest ih =>
    intro acc it hit
    rw [addLowerPriorityItems] at hit
    have hstep : ∀ acc2 : List WatchlistItem × List String × Int,
        (acc2.1 = acc.1 ∨ acc2.1 = acc.1 ++ [a]) →
        it ∈ (addLowerPriorityItems b prev rest acc2).1 → it ∈ acc.1 ∨ it ∈ a :: rest := by
      intro acc2 hacc2 hin
      rcases ih acc2 it hin with h | h
      · rcases hacc2 with he | he
        · exact Or.inl (he ▸ h)
        · rw [he] at h
          rcases List.mem_append.mp h with h2 | h2
          · exact Or.inl h2
          · exact Or.inr (List.mem_singleton.mp h2 ▸ List.mem_cons_self a rest)
      · exact Or.inr (List.mem_cons_of_mem a h)
    revert hit
    cases hch : getCheapestProvider a with
    | none => exact hstep acc (Or.inl rfl)
    | some cheapest =>
      simp only
      by_cases h1 : acc.2.1.contains cheapest.1
      · rw [if_pos h1]
        exact hstep _ (Or.inr rfl)
      · rw [if_neg h1]
        by_cases h2 : acc.2.2 + cheapest.2 ≤ b
        · rw [if_pos h2]
          by_cases h3 : prev.contains cheapest.1
          · rw [if_pos h3]
            exact hstep _ (Or.inr rfl)
          · rw [if_neg h3]
            exact hstep acc (Or.inl rfl)
        · rw [if_neg h2]
          exact hstep acc (Or.inl rfl)

/-- Every item a selected platform carries comes from the watchlist or
the active bucket. -/
theorem selectPlatformsForMonth_subset (ab : Priority × List WatchlistItem)
    (wl : List WatchlistItem) (cs : CState) (b : Int) (prev : List String) :
    ∀ svc ∈ (selectPlatformsForMonth ab wl cs b prev).1,
      ∀ it ∈ svc.itemsToWatch, it ∈ ab.2 ∨ it ∈ wl := by
  intro svc hsvc it hit
  unfold selectPlatformsForMonth at hsvc
  simp only at hsvc
  rw [mem_stableSort] at hsvc
  obtain ⟨serviceId, _, rfl⟩ := List.mem_map.mp hsvc
  simp only at hit
  have hit2 := List.mem_of_mem_filter hit
  rcases addLowerPriorityItems_subset b prev _ _ it hit2 with h | h
  · have := selectItemsWithinBudget_subset (ab.2.filter (hasRemaining cs)) b it h
    exact Or.inl (List.mem_of_mem_filter this)
  · exact Or.inr (List.mem_of_mem_filter h)

/-- Members of a `Map.set` result are old entries or the inserted
value. -/
theorem stateSet_mem {m : CState} {id : String} {v : ContentState} :
    ∀ cs ∈ stateSet m id v, cs ∈ m ∨ cs = v := by
  intro cs hcs
  unfold stateSet at hcs
  by_cases hk : m.any (fun x => x.item.id == id)
  · rw [if_pos hk] at hcs
    obtain ⟨c0, hc0, hc0e⟩ := List.mem_map.mp hcs
    by_cases hkey : c0.item.id == id
    · rw [if_pos hkey] at hc0e
      exact Or.inr hc0e.symm
    · rw [if_neg hkey] at hc0e
      exact Or.inl (hc0e ▸ hc0)
  · rw [if_neg hk] at hcs
    rcases List.mem_append.mp hcs with h | h
    · exact Or.inl h
    · exact Or.inr (List.mem_singleton.mp h)

/-- Every initialized state entry copies a watchlist item. -/
theorem initializeContentState_items (wl : List WatchlistItem) :
    ∀ cs ∈ initializeContentState wl, cs.item ∈ wl := by
  have hgen : ∀ (l : List WatchlistItem) (acc : CState),
      (∀ cs ∈ acc, cs.item ∈ wl) → (∀ it ∈ l, it ∈ wl) →
      ∀ cs ∈ l.foldl (fun m item => stateSet m item.id (initEntry item)) acc,
        cs.item ∈ wl := by
    intro l
    induction l with
    | nil => intro acc hacc _ cs hcs; exact hacc cs hcs
    | cons a rest ih =>
      intro acc hacc hl cs hcs
      rw [List.foldl_cons] at hcs
      refine ih _ ?_ (fun it hit => hl it (List.mem_cons_of_mem a hit)) cs hcs
      intro c0 hc0
      rcases stateSet_mem c0 hc0 with h | h
      · exact hacc c0 h
      · rw [h]
        exact hl a (List.mem_cons_self a rest)
  intro cs hcs
  refine hgen wl [] (by intro c h; cases h) (fun it hit => hit) cs ?_
  simpa [initializeContentState, initEntry] using hcs

/-- The active bucket's items come from the watchlist. -/
theorem getActivePriorityBucket_subset {wl : List WatchlistItem} {st : CState}
    {ab : Priority × List WatchlistItem}
    (h : getActivePriorityBucket wl st = some ab) : ∀ it ∈ ab.2, it ∈ wl := by
  unfold getActivePriorityBucket at h
  obtain ⟨p, _, hf⟩ := List.exists_of_findSome?_eq_some h
  revert hf
  simp only
  split
  · intro hf; cases hf
  · intro hf
    obtain he := Option.some.inj hf
    intro it hit
    rw [← he] at hit
    exact List.mem_of_mem_filter hit

/-- The rotation loop keeps every state entry and every plan component
inside the input watchlist. -/
theorem runRotation_items (wl : List WatchlistItem) (b : Int) (cm : Nat) (cy : Int) :
    ∀ (fuel offset : Nat) (st : CState) (prev : List String) (plans : List MonthlyPlan),
      (∀ cs ∈ st, cs.item ∈ wl) →
      (∀ plan ∈ plans,
        (∀ svc ∈ plan.services, ∀ it ∈ svc.itemsToWatch, it ∈ wl) ∧
        (∀ si ∈ plan.itemsToWatch, si.item ∈ wl)) →
      (∀ cs ∈ (runRotation wl b cm cy fuel offset st prev plans).2, cs.item ∈ wl) ∧
      (∀ plan ∈ (runRotation wl b cm cy fuel offset st prev plans).1,
        (∀ svc ∈ plan.services, ∀ it ∈ svc.itemsToWatch, it ∈ wl) ∧
        (∀ si ∈ plan.itemsToWatch, si.item ∈ wl)) := by
  intro fuel
  induction fuel with
  | zero =>
    intro offset st prev plans hst hplans
    rw [runRotation]
    exact ⟨hst, hplans⟩
  | succ n ih =>
    intro offset st prev plans hst hplans
    rw [runRotation]
    cases hb : getActivePriorityBucket wl st with
    | none => exact ⟨hst, hplans⟩
    | some activeBucket =>
      simp only
      split
      · exact ⟨hst, hplans⟩
      · split
        · exact ⟨hst, hplans⟩
        · set monthStart : SimDate :=
            ⟨cy + ((cm + offset) / 12 : Nat), (((cm + offset) % 12 : Nat) : Int), 1⟩ with hms
          have hsched := scheduleContentForMonth_items
            (selectPlatformsForMonth activeBucket wl st b prev).1 st wl monthStart
          refine ih (offset + 1) _ _ _ ?_ ?_
          · intro cs hcs
            have : cs.item ∈ (scheduleContentForMonth
                (selectPlatformsForMonth activeBucket wl st b prev).1 st wl
                monthStart).2.1.map (fun s => s.item) :=
              List.mem_map_of_mem (fun s => s.item) hcs
            rw [hsched.1] at this
            obtain ⟨c0, hc0, he⟩ := List.mem_map.mp this
            exact he ▸ hst c0 hc0
          · intro plan hplan
            rcases List.mem_append.mp hplan with h | h
            · exact hplans plan h
            · rcases List.mem_singleton.mp h with rfl
              constructor
              · intro svc hsvc it hit
                rcases selectPlatformsForMonth_subset activeBucket wl st b prev
                    svc hsvc it hit with h2 | h2
                · exact getActivePriorityBucket_subset hb it h2
                · exact h2
              · intro si hsi
                have := hsched.2 si hsi
                obtain ⟨c0, hc0, he⟩ := List.mem_map.mp this
                exact he ▸ hst c0 hc0

/-- C10: `optimizeSubscriptions` never mutates its input — all per-run
mutable state lives in the internal content map, and every
`WatchlistItem` the result carries (in monthly services, scheduled
items, the first-month services, and the deferred list) is a member of
the input watchlist, equal to it field for field. -/
theorem no_input_mutation (wl : List WatchlistItem) (b : Int) (cm : Nat) (cy : Int) :
    (∀ plan ∈ (optimizeSubscriptions wl b cm cy).rotationSchedule,
      (∀ svc ∈ plan.services, ∀ it ∈ svc.itemsToWatch, it ∈ wl) ∧
      (∀ si ∈ plan.itemsToWatch, si.item ∈ wl)) ∧
    (∀ svc ∈ (optimizeSubscriptions wl b cm cy).subscribeThisMonth,
      ∀ it ∈ svc.itemsToWatch, it ∈ wl) ∧
    (∀ d ∈ (optimizeSubscriptions wl b cm cy).deferredItems, d.1 ∈ wl) := by
  have hrun := runRotation_items wl b cm cy (min (maxHorizon wl) 24) 0
    (initializeContentState wl) [] []
    (initializeContentState_items wl) (by intro plan h; cases h)
  have hplans : ∀ plan ∈ (optimizeSubscriptions wl b cm cy).rotationSchedule,
      (∀ svc ∈ plan.services, ∀ it ∈ svc.itemsToWatch, it ∈ wl) ∧
      (∀ si ∈ plan.itemsToWatch, si.item ∈ wl) := by
    intro plan hplan
    refine hrun.2 plan ?_
    simpa [optimizeSubscriptions] using hplan
  refine ⟨hplans, ?_, ?_⟩
  · intro svc hsvc it hit
    have hsub : (optimizeSubscriptions wl b cm cy).subscribeThisMonth =
        (((optimizeSubscriptions wl b cm cy).rotationSchedule.head?).map
          (fun m => m.services)).getD [] := by
      simp [optimizeSubscriptions]
    rw [hsub] at hsvc
    cases hh : (optimizeSubscriptions wl b cm cy).rotationSchedule.head? with
    | none => rw [hh] at hsvc; cases hsvc
    | some plan =>
      rw [hh] at hsvc
      simp at hsvc
      exact (hplans plan (List.mem_of_mem_head? hh)).1 svc hsvc it hit
  · intro d hd
    have hdef : (optimizeSubscriptions wl b cm cy).deferredItems =
        buildDeferredItems wl (runRotation wl b cm cy (min (maxHorizon wl) 24) 0
          (initializeContentState wl) [] []).2 := by
      simp [optimizeSubscriptions]
    rw [hdef] at hd
    unfold buildDeferredItems at hd
    have hpend : ∀ (l : List WatchlistItem) (x : WatchlistItem × String),
        x ∈ pendingDeferred l → x.1 ∈ l := by
      intro l
      induction l with
      | nil => intro x hx; cases hx
      | cons a rest ihp =>
        intro x hx
        rw [pendingDeferred] at hx
        by_cases hp : a.pendingPlatformSelection
        · rw [if_pos hp] at hx
          rcases List.mem_cons.mp hx with rfl | hx2
          · exact List.mem_cons_self a rest
          · exact List.mem_cons_of_mem a (ihp x hx2)
        · rw [if_neg hp] at hx
          exact List.mem_cons_of_mem a (ihp x hx)
    have hcoll : ∀ (fin : CState) (acc : List (WatchlistItem × String)),
        (∀ cs ∈ fin, cs.item ∈ wl) → (∀ x ∈ acc, x.1 ∈ wl) →
        ∀ x ∈ collectDeferred fin acc, x.1 ∈ wl := by
      intro fin
      induction fin with
      | nil => intro acc _ hacc x hx; exact hacc x hx
      | cons c rest ihc =>
        intro acc hfin hacc x hx
        have hcw : c.item ∈ wl := hfin c (List.mem_cons_self c rest)
        have hrest : ∀ cs ∈ rest, cs.item ∈ wl :=
          fun cs hcs => hfin cs (List.mem_cons_of_mem c hcs)
        rw [collectDeferred] at hx
        revert hx
        split
        · intro hx; exact ihc acc hrest hacc x hx
        · split
          · split
            · intro hx
              refine ihc _ hrest ?_ x hx
              intro y hy
              rcases List.mem_append.mp hy with h | h
              · exact hacc y h
              · rcases List.mem_singleton.mp h with rfl
                exact hcw
            · intro hx
              refine ihc _ hrest ?_ x hx
              intro y hy
              rcases List.mem_append.mp hy with h | h
              · exact hacc y h
              · rcases List.mem_singleton.mp h with rfl
                exact hcw
          · intro hx; exact ihc acc hrest hacc x hx
    exact hcoll _ _ hrun.1 (fun x hx => hpend wl x hx) d hd

/-- Witness for C10 at a concrete input: the first scheduled item of
the first month for the two-item example watchlist is field-for-field a
member of the input. -/
theorem no_input_mutation_witness :
    (((optimizeSubscriptions [exMovie, exSeries] 1000 0 2026).rotationSchedule.head
        (by decide)).itemsToWatch.head (by decide)).item ∈ [exMovie, exSeries] :=
  ((no_input_mutation [exMovie, exSeries] 1000 0 2026).1 _ (List.head_mem _)).2 _
    (List.head_mem _)

/-! ## Month accounting: the per-id contract of one scheduling pass -/

/-- The remaining minutes the state records for a key (0 for a missing
key; every key the scheduler touches is present). -/
def remOf (st : CState) (id : String) : Int :=
  match stateGet st id with
  | some cs => cs.remainingMinutes
  | none => 0

/-- The watchlist entry the state records for a key. -/
def itemOf (st : CState) (id : String) : Option WatchlistItem :=
  (stateGet st id).map (fun cs => cs.item)

/-- Everything of a state except the mutable remaining counters. -/
def shapeOf (st : CState) : List (WatchlistItem × Nat) :=
  st.map (fun cs => (cs.item, cs.realMinutes))

/-- The scheduled items a month emits for one entry. -/
def emittedFor (items : List ScheduledItem) (id : String) : List ScheduledItem :=
  items.filter (fun si => si.item.id == id)

/-- Minutes of watching a month's emissions record for one entry. -/
def watchedMin (items : List ScheduledItem) (id : String) : ℚ :=
  ((emittedFor items id).map (fun si => si.watchHours * 60)).sum

/-- Per-id contract of one scheduling pass from `st` to `st'` emitting
`items`: shapes are preserved, and each id is either untouched or
emitted exactly once, with the emitted watch time equal to its
remaining-minutes decrease, the decrease strictly positive, the new
remaining nonnegative, the `ScheduledItem` echoing the new remaining,
and movies dropping straight to zero. -/
def PassSpec (st st' : CState) (items : List ScheduledItem) : Prop :=
  shapeOf st' = shapeOf st ∧
  ∀ id,
    (emittedFor items id = [] ∧ remOf st' id = remOf st id) ∨
    (∃ si, emittedFor items id = [si] ∧
      itemOf st id = some si.item ∧
      si.watchHours * 60 = ((remOf st id - remOf st' id : Int) : ℚ) ∧
      remOf st' id < remOf st id ∧ 0 ≤ remOf st' id ∧
      si.remainingMinutes = some (remOf st' id) ∧
      (si.item.type = ItemType.movie → remOf st' id = 0))

/-- `stateSetRemaining` acts pointwise on lookups. -/
theorem stateGet_setRemaining (st : CState) (id id2 : String) (v : Int) :
    stateGet (stateSetRemaining st id v) id2 =
      if id2 = id then
        (stateGet st id2).map (fun cs => { cs with remainingMinutes := v })
      else stateGet st id2 := by
  induction st with
  | nil => by_cases h : id2 = id <;> simp [stateGet, stateSetRemaining, h]
  | cons c t ih =>
    unfold stateSetRemaining at ih ⊢
    simp only [List.map_cons]
    by_cases hck : (c.item.id == id) = true
    · rw [if_pos hck]
      have hck2 : c.item.id = id := by simpa using hck
      unfold stateGet
      rw [List.find?_cons, List.find?_cons]
      by_cases hd : (c.item.id == id2) = true
      · have hd2 : c.item.id = id2 := by simpa using hd
        have hii : id2 = id := by rw [← hd2, hck2]
        simp only [hd, if_pos hii]
        rfl
      · have hdf : (c.item.id == id2) = false := by simpa using hd
        simp only [hdf]
        exact ih
    · rw [if_neg hck]
      unfold stateGet
      rw [List.find?_cons, List.find?_cons]
      by_cases hd : (c.item.id == id2) = true
      · have hd2 : c.item.id = id2 := by simpa using hd
        have hck2 : ¬ c.item.id = id := by simpa using hck
        have hne : ¬ id2 = id := by rw [← hd2]; exact hck2
        simp only [hd, if_neg hne]
      · have hdf : (c.item.id == id2) = false := by simpa using hd
        simp only [hdf]
        exact ih

/-- `remOf` after a remaining update on a present key. -/
theorem remOf_setRemaining_self {st : CState} {id : String} {cs : ContentState}
    (h : stateGet st id = some cs) (v : Int) :
    remOf (stateSetRemaining st id v) id = v := by
  unfold remOf
  rw [stateGet_setRemaining, if_pos rfl, h]
  rfl

/-- `remOf` of other keys is untouched by a remaining update. -/
theorem remOf_setRemaining_ne {st : CState} {id id2 : String} (hne : id2 ≠ id) (v : Int) :
    remOf (stateSetRemaining st id v) id2 = remOf st id2 := by
  unfold remOf
  rw [stateGet_setRemaining, if_neg hne]

/-- Remaining updates keep the shape. -/
theorem shapeOf_setRemaining (st : CState) (id : String) (v : Int) :
    shapeOf (stateSetRemaining st id v) = shapeOf st := by
  unfold shapeOf stateSetRemaining
  rw [List.map_map]
  refine List.map_congr_left ?_
  intro cs _
  simp only [Function.comp]
  split <;> rfl

/-- Equal shapes yield pointwise equal item-and-real lookups. -/
theorem stateGet_shape : ∀ {st st' : CState}, shapeOf st' = shapeOf st → ∀ id,
    ((stateGet st' id).map (fun cs => (cs.item, cs.realMinutes))) =
      ((stateGet st id).map (fun cs => (cs.item, cs.realMinutes))) := by
  intro st
  induction st with
  | nil =>
    intro st' h id
    cases st' with
    | nil => rfl
    | cons c t => exact absurd h (by simp [shapeOf])
  | cons c t ih =>
    intro st' h id
    cases st' with
    | nil => exact absurd h (by simp [shapeOf])
    | cons c' t' =>
      unfold shapeOf at h
      rw [List.map_cons, List.map_cons] at h
      obtain ⟨hhead, htail⟩ := List.cons.inj h
      have hitem : c'.item = c.item := congrArg Prod.fst hhead
      have hreal : c'.realMinutes = c.realMinutes := congrArg Prod.snd hhead
      unfold stateGet
      rw [List.find?_cons, List.find?_cons, hitem]
      by_cases hk : (c.item.id == id) = true
      · simp only [hk]
        simp [hitem, hreal]
      · have hkf : (c.item.id == id) = false := by simpa using hk
        simp only [hkf]
        exact ih htail id

/-- Equal shapes yield pointwise equal item lookups. -/
theorem itemOf_of_shape {st st' : CState} (h : shapeOf st' = shapeOf st) (id : String) :
    itemOf st' id = itemOf st id := by
  have h2 := stateGet_shape h id
  unfold itemOf
  cases h1 : stateGet st' id with
  | none =>
    rw [h1] at h2
    cases h3 : stateGet st id with
    | none => rfl
    | some cs => rw [h3] at h2; simp at h2
  | some cs =>
    rw [h1] at h2
    cases h3 : stateGet st id with
    | none => rw [h3] at h2; simp at h2
    | some cs2 =>
      rw [h3] at h2
      simp only [Option.map_some'] at h2 ⊢
      have := (Prod.mk.injEq _ _ _ _).mp (Option.some.inj h2)
      rw [this.1]

/-- Equal shapes have equal key lists. -/
theorem keys_of_shape {st st' : CState} (h : shapeOf st' = shapeOf st) :
    st'.map (fun cs => cs.item.id) = st.map (fun cs => cs.item.id) := by
  have h1 : (shapeOf st').map (fun e => e.1.id) = (shapeOf st).map (fun e => e.1.id) := by
    rw [h]
  unfold shapeOf at h1
  rw [List.map_map, List.map_map] at h1
  exact h1

/-- Equal shapes preserve duplicate-freeness of the keys. -/
theorem NodupKeys.of_shape {st st' : CState} (h : shapeOf st' = shapeOf st)
    (hnd : NodupKeys st) : NodupKeys st' := by
  unfold NodupKeys at hnd ⊢
  rw [keys_of_shape h]
  exact hnd

theorem emittedFor_append (a b : List ScheduledItem) (id : String) :
    emittedFor (a ++ b) id = emittedFor a id ++ emittedFor b id := by
  unfold emittedFor
  exact List.filter_append _ _

theorem emittedFor_eq_nil {items : List ScheduledItem} {id : String}
    (h : ∀ si ∈ items, si.item.id ≠ id) : emittedFor items id = [] := by
  unfold emittedFor
  rw [List.filter_eq_nil_iff]
  intro si hsi
  simpa using h si hsi

theorem mem_of_emittedFor {items : List ScheduledItem} {id : String} {si : ScheduledItem}
    (h : si ∈ emittedFor items id) : si ∈ items ∧ si.item.id = id := by
  unfold emittedFor at h
  exact ⟨List.mem_of_mem_filter h, by simpa using List.of_mem_filter h⟩

/-- The do-nothing pass satisfies the contract. -/
theorem PassSpec.id_of (st : CState) : PassSpec st st [] :=
  ⟨rfl, fun _ => Or.inl ⟨rfl, rfl⟩⟩

/-- Sequential composition of two passes that never emit for the same
entry. -/
theorem PassSpec.comp {st st1 st2 : CState} {items1 items2 : List ScheduledItem}
    (h1 : PassSpec st st1 items1) (h2 : PassSpec st1 st2 items2)
    (hdisj : ∀ id, emittedFor items1 id ≠ [] → emittedFor items2 id = []) :
    PassSpec st st2 (items1 ++ items2) := by
  refine ⟨h1.1 ▸ h2.1, ?_⟩
  intro id
  rw [emittedFor_append]
  rcases h1.2 id with ⟨he1, hr1⟩ | ⟨si, he1, hitem1, heq1, hlt1, hnn1, hrm1, hmv1⟩
  · rcases h2.2 id with ⟨he2, hr2⟩ | ⟨si, he2, hitem2, heq2, hlt2, hnn2, hrm2, hmv2⟩
    · exact Or.inl ⟨by rw [he1, he2]; rfl, by rw [hr2, hr1]⟩
    · refine Or.inr ⟨si, by rw [he1, he2]; rfl, ?_, ?_, ?_, ?_, ?_, ?_⟩
      · rw [← itemOf_of_shape h1.1 id]
        exact hitem2
      · rw [heq2, hr1]
      · rw [← hr1]; exact hlt2
      · exact hnn2
      · exact hrm2
      · exact hmv2
  · have he2 : emittedFor items2 id = [] := hdisj id (by rw [he1]; simp)
    have hr2 : remOf st2 id = remOf st1 id := by
      rcases h2.2 id with ⟨_, hr⟩ | ⟨si2, he2b, _⟩
      · exact hr
      · rw [he2] at he2b; cases he2b
    refine Or.inr ⟨si, by rw [he1, he2]; simp, hitem1, ?_, ?_, ?_, ?_, ?_⟩
    · rw [hr2]; exact heq1
    · rw [hr2]; exact hlt1
    · rw [hr2]; exact hnn1
    · rw [hr2]; exact hrm1
    · intro hm; rw [hr2]; exact hmv1 hm

/-- One movie emission as a pass contract. -/
theorem moviestep_spec (st : CState) (m : ContentState) (si : ScheduledItem)
    (hget : stateGet st m.item.id = some m) (hpos : 0 < m.remainingMinutes)
    (hitem : si.item = m.item)
    (hwh : si.watchHours = (m.remainingMinutes : ℚ) / 60)
    (hrm : si.remainingMinutes = some 0) :
    PassSpec st (stateSetRemaining st m.item.id 0) [si] := by
  refine ⟨shapeOf_setRemaining st m.item.id 0, ?_⟩
  intro id
  by_cases hid : id = m.item.id
  · subst hid
    refine Or.inr ⟨si, ?_, ?_, ?_, ?_, ?_, ?_, ?_⟩
    · simp [emittedFor, hitem]
    · unfold itemOf
      rw [hget, hitem]
      rfl
    · rw [remOf_setRemaining_self hget 0]
      unfold remOf
      rw [hget]
      rw [hwh]
      push_cast
      field_simp
    · rw [remOf_setRemaining_self hget 0]
      unfold remOf
      rw [hget]
      exact hpos
    · rw [remOf_setRemaining_self hget 0]
    · rw [remOf_setRemaining_self hget 0]
      exact hrm
    · intro _
      exact remOf_setRemaining_self hget 0
  · refine Or.inl ⟨?_, remOf_setRemaining_ne hid 0⟩
    refine emittedFor_eq_nil ?_
    intro s hs
    rcases List.mem_singleton.mp hs with rfl
    rw [hitem]
    exact fun he => hid he.symm

/-- The movie pass satisfies the per-id contract; its emissions carry
movie keys only and capacity stays nonnegative. -/
theorem scheduleMoviePass_spec (d : SimDate) :
    ∀ (movies : List ContentState) (st : CState) (cap day : Int),
      NodupKeys movies →
      (∀ m ∈ movies, stateGet st m.item.id = some m) →
      (∀ m ∈ movies, 0 < m.remainingMinutes) →
      PassSpec st (scheduleMoviePass d movies st cap day).2.1
        (scheduleMoviePass d movies st cap day).1 ∧
      (∀ si ∈ (scheduleMoviePass d movies st cap day).1,
        si.item.id ∈ movies.map (fun m => m.item.id)) ∧
      (0 ≤ cap → 0 ≤ (scheduleMoviePass d movies st cap day).2.2.1) := by
  intro movies
  induction movies with
  | nil =>
    intro st cap day _ _ _
    refine ⟨PassSpec.id_of st, ?_, ?_⟩
    · intro si h; cases h
    · exact fun h => h
  | cons m rest ih =>
    intro st cap day hnd hget hpos
    unfold NodupKeys at hnd
    rw [List.map_cons, List.nodup_cons] at hnd
    rw [scheduleMoviePass]
    by_cases hcap : cap ≤ 0
    · rw [if_pos hcap]
      refine ⟨PassSpec.id_of st, ?_, ?_⟩
      · intro si h; cases h
      · exact fun h => h
    · rw [if_neg hcap]
      simp only []
      by_cases hfit : m.remainingMinutes ≤ cap
      · rw [if_pos hfit]
        simp only
        have hgetm := hget m (List.mem_cons_self m rest)
        have hget2 : ∀ x ∈ rest, stateGet (stateSetRemaining st m.item.id 0) x.item.id =
            some x := by
          intro x hx
          have hne : x.item.id ≠ m.item.id := by
            intro he
            exact hnd.1 (he ▸ List.mem_map_of_mem (fun y => y.item.id) hx)
          rw [stateGet_setRemaining, if_neg hne]
          exact hget x (List.mem_cons_of_mem m hx)
        have hrec := ih (stateSetRemaining st m.item.id 0) (cap - m.remainingMinutes)
          (day + 1) hnd.2 hget2 (fun x hx => hpos x (List.mem_cons_of_mem m hx))
        set si0 : ScheduledItem :=
          { item := m.item, day := day,
            estimatedStartDate := ⟨d.year, d.month, d.day + day - 1⟩,
            estimatedEndDate := ⟨d.year, d.month, d.day + day - 1⟩,
            watchHours := (m.remainingMinutes : ℚ) / 60,
            remainingMinutes := some 0 } with hsi0
        have hhead := moviestep_spec st m si0
          hgetm (hpos m (List.mem_cons_self m rest)) rfl rfl rfl
        have hdisj : ∀ id, emittedFor [si0] id ≠ [] →
            emittedFor (scheduleMoviePass d rest (stateSetRemaining st m.item.id 0)
              (cap - m.remainingMinutes) (day + 1)).1 id = [] := by
          intro id hne
          have hidm : id = m.item.id := by
            by_contra hcon
            refine hne (emittedFor_eq_nil ?_)
            intro s hs
            rcases List.mem_singleton.mp hs with rfl
            exact fun he => hcon he.symm
          subst hidm
          refine emittedFor_eq_nil ?_
          intro s hs
          have := hrec.2.1 s hs
          intro he
          exact hnd.1 (he ▸ this)
        have hcomp := PassSpec.comp hhead hrec.1 hdisj
        refine ⟨hcomp, ?_, ?_⟩
        · intro si hsi
          rcases List.mem_cons.mp hsi with rfl | hsi2
          · exact List.mem_cons_self m.item.id _
          · exact List.mem_cons_of_mem _ (hrec.2.1 si hsi2)
        · intro _
          exact hrec.2.2 (by omega)
      · rw [if_neg hfit]
        have hrec := ih st cap day hnd.2
          (fun x hx => hget x (List.mem_cons_of_mem m hx))
          (fun x hx => hpos x (List.mem_cons_of_mem m hx))
        exact ⟨hrec.1, fun si hsi => List.mem_cons_of_mem _ (hrec.2.1 si hsi),
          hrec.2.2⟩

/-- Redistribution passes only ever raise an allocation. -/
theorem givePass_mono (extra : Int) :
    ∀ (nm : List ContentState) (alloc : AllocMap) (id : String),
      alloc id ≤ (givePass extra nm alloc).1 id := by
  intro nm
  induction nm with
  | nil => intro alloc id; exact le_refl _
  | cons x rest ih =>
    intro alloc id
    rw [givePass]
    by_cases hc : min extra (x.remainingMinutes - alloc x.item.id) > 0
    · rw [if_pos hc]
      simp only
      refine le_trans ?_ (ih _ id)
      by_cases hid : id = x.item.id
      · subst hid
        rw [allocSet_self]
        omega
      · rw [allocSet_ne _ _ hid]
    · rw [if_neg hc]
      exact ih alloc id

/-- The one-minute pass only ever raises an allocation. -/
theorem oneMinutePass_mono :
    ∀ (nm : List ContentState) (alloc : AllocMap) (surplus : Int) (id : String),
      alloc id ≤ oneMinutePass nm alloc surplus id := by
  intro nm
  induction nm with
  | nil => intro alloc surplus id; exact le_refl _
  | cons x rest ih =>
    intro alloc surplus id
    rw [oneMinutePass]
    by_cases hz : surplus ≤ 0
    · rw [if_pos hz]
    · rw [if_neg hz]
      by_cases hc : x.remainingMinutes - alloc x.item.id > 0
      · rw [if_pos hc]
        refine le_trans ?_ (ih _ _ id)
        by_cases hid : id = x.item.id
        · subst hid
          rw [allocSet_self]
          omega
        · rw [allocSet_ne _ _ hid]
      · rw [if_neg hc]
        exact ih alloc surplus id

/-- The surplus loop only ever raises an allocation. -/
theorem redistributeLoop_mono (actives : List ContentState) :
    ∀ (fuel : Nat) (alloc : AllocMap) (surplus : Int) (nm : List ContentState)
      (id : String),
      alloc id ≤ redistributeLoop actives fuel alloc surplus nm id := by
  intro fuel
  induction fuel with
  | zero => intro alloc surplus nm id; rw [redistributeLoop]
  | succ n ih =>
    intro alloc surplus nm id
    rw [redistributeLoop]
    by_cases hc : surplus > 0 ∧ nm ≠ []
    · rw [if_pos hc]
      by_cases hex : surplus.fdiv nm.length = 0
      · rw [if_pos hex]
        exact oneMinutePass_mono nm alloc surplus id
      · rw [if_neg hex]
        by_cases hred : (givePass (surplus.fdiv nm.length) nm alloc).2 = 0
        · rw [if_pos hred]
          exact givePass_mono _ nm alloc id
        · rw [if_neg hred]
          exact le_trans (givePass_mono _ nm alloc id) (ih _ _ _ id)
    · rw [if_neg hc]

/-- The first pass allocates nonnegatively when share and needs are
nonnegative. -/
theorem allocFirstPassAux_nonneg (share : Int) (hsh : 0 ≤ share) :
    ∀ (l : List ContentState) (acc : AllocMap × Int),
      (∀ s ∈ l, 0 ≤ s.remainingMinutes) → (∀ id, 0 ≤ acc.1 id) →
      ∀ id, 0 ≤ (allocFirstPassAux share l acc).1 id := by
  intro l
  induction l with
  | nil => intro acc _ hacc id; exact hacc id
  | cons s t ih =>
    intro acc hneed hacc id
    rw [allocFirstPassAux]
    have hs := hneed s (List.mem_cons_self s t)
    have hnext : ∀ id2, 0 ≤ allocSet acc.1 s.item.id
        (min s.remainingMinutes share) id2 := by
      intro id2
      by_cases hid : id2 = s.item.id
      · subst hid
        rw [allocSet_self]
        omega
      · rw [allocSet_ne _ _ hid]
        exact hacc id2
    by_cases h : s.remainingMinutes < share
    · rw [if_pos h]
      exact ih _ (fun y hy => hneed y (List.mem_cons_of_mem s hy)) hnext id
    · rw [if_neg h]
      exact ih _ (fun y hy => hneed y (List.mem_cons_of_mem s hy)) hnext id

/-- `computeAllocations` never produces a negative allocation. -/
theorem computeAllocations_nonneg (l : List ContentState) (cap : Int)
    (hcap : 0 ≤ cap) (hneed : ∀ s ∈ l, 0 ≤ s.remainingMinutes) :
    ∀ id, 0 ≤ computeAllocations l cap id := by
  intro id
  have hsh : 0 ≤ cap.fdiv l.length :=
    Int.fdiv_nonneg hcap (by exact_mod_cast Nat.zero_le _)
  have hfp : ∀ id2, 0 ≤ (allocFirstPass l (cap.fdiv l.length)).1 id2 := by
    intro id2
    unfold allocFirstPass
    exact allocFirstPassAux_nonneg _ hsh l _ hneed (fun _ => le_refl 0) id2
  simp only [computeAllocations]
  by_cases hsp : (allocFirstPass l (cap.fdiv l.length)).2 > 0
  · rw [if_pos hsp]
    exact le_trans (hfp id) (redistributeLoop_mono l _ _ _ _ id)
  · rw [if_neg hsp]
    exact hfp id

/-- One series emission as a pass contract. -/
theorem seriesstep_spec (st : CState) (x : ContentState) (si : ScheduledItem) (a : Int)
    (hget : stateGet st x.item.id = some x) (hpos : 0 < a)
    (hle : a ≤ x.remainingMinutes)
    (hitem : si.item = x.item)
    (hwh : si.watchHours = (a : ℚ) / 60)
    (hrm : si.remainingMinutes = some (x.remainingMinutes - a))
    (hmv : x.item.type ≠ ItemType.movie) :
    PassSpec st (stateSetRemaining st x.item.id (x.remainingMinutes - a)) [si] := by
  refine ⟨shapeOf_setRemaining st x.item.id _, ?_⟩
  intro id
  by_cases hid : id = x.item.id
  · subst hid
    refine Or.inr ⟨si, ?_, ?_, ?_, ?_, ?_, ?_, ?_⟩
    · simp [emittedFor, hitem]
    · unfold itemOf
      rw [hget, hitem]
      rfl
    · rw [remOf_setRemaining_self hget _]
      unfold remOf
      rw [hget, hwh]
      push_cast
      field_simp
    · rw [remOf_setRemaining_self hget _]
      have hrem : remOf st x.item.id = x.remainingMinutes := by
        unfold remOf
        rw [hget]
      rw [hrem]
      omega
    · rw [remOf_setRemaining_self hget _]
      omega
    · rw [remOf_setRemaining_self hget _]
      exact hrm
    · intro hm
      rw [hitem] at hm
      exact absurd hm hmv
  · refine Or.inl ⟨?_, remOf_setRemaining_ne hid _⟩
    refine emittedFor_eq_nil ?_
    intro s hs
    rcases List.mem_singleton.mp hs with rfl
    rw [hitem]
    exact fun he => hid he.symm

/-- The series pass satisfies the per-id contract; its emissions carry
keys from the tier and the final capacity is at least the original
capacity minus the total allocation of the tier. -/
theorem scheduleSeriesPass_spec (d : SimDate) (alloc : AllocMap) (startDay : Int) :
    ∀ (ser : List ContentState) (st : CState) (cap : Int),
      NodupKeys ser →
      (∀ x ∈ ser, stateGet st x.item.id = some x) →
      (∀ x ∈ ser, alloc x.item.id ≤ x.remainingMinutes) →
      (∀ x ∈ ser, 0 ≤ alloc x.item.id) →
      (∀ x ∈ ser, x.item.type ≠ ItemType.movie) →
      PassSpec st (scheduleSeriesPass d alloc startDay ser st cap).2.1
        (scheduleSeriesPass d alloc startDay ser st cap).1 ∧
      (∀ si ∈ (scheduleSeriesPass d alloc startDay ser st cap).1,
        si.item.id ∈ ser.map (fun x => x.item.id)) ∧
      cap - sumAlloc ser alloc ≤ (scheduleSeriesPass d alloc startDay ser st cap).2.2 := by
  intro ser
  induction ser with
  | nil =>
    intro st cap _ _ _ _ _
    refine ⟨PassSpec.id_of st, ?_, ?_⟩
    · intro si h; cases h
    · simp [sumAlloc, scheduleSeriesPass]
  | cons x rest ih =>
    intro st cap hnd hget hle hnn hmv
    unfold NodupKeys at hnd
    rw [List.map_cons, List.nodup_cons] at hnd
    have hsum : sumAlloc (x :: rest) alloc = alloc x.item.id + sumAlloc rest alloc := by
      simp [sumAlloc]
    rw [scheduleSeriesPass]
    simp only []
    by_cases hz : alloc x.item.id ≤ 0
    · rw [if_pos hz]
      have hz0 : alloc x.item.id = 0 :=
        le_antisymm hz (hnn x (List.mem_cons_self x rest))
      have hrec := ih st cap hnd.2
        (fun y hy => hget y (List.mem_cons_of_mem x hy))
        (fun y hy => hle y (List.mem_cons_of_mem x hy))
        (fun y hy => hnn y (List.mem_cons_of_mem x hy))
        (fun y hy => hmv y (List.mem_cons_of_mem x hy))
      refine ⟨hrec.1, fun si hsi => List.mem_cons_of_mem _ (hrec.2.1 si hsi), ?_⟩
      rw [hsum, hz0]
      have := hrec.2.2
      omega
    · rw [if_neg hz]
      simp only
      have hposx : 0 < alloc x.item.id := by omega
      have hgetx := hget x (List.mem_cons_self x rest)
      have hlex := hle x (List.mem_cons_self x rest)
      have hget2 : ∀ y ∈ rest, stateGet
          (stateSetRemaining st x.item.id (x.remainingMinutes - alloc x.item.id))
          y.item.id = some y := by
        intro y hy
        have hne : y.item.id ≠ x.item.id := by
          intro he
          exact hnd.1 (he ▸ List.mem_map_of_mem (fun z => z.item.id) hy)
        rw [stateGet_setRemaining, if_neg hne]
        exact hget y (List.mem_cons_of_mem x hy)
      have hrec := ih
        (stateSetRemaining st x.item.id (x.remainingMinutes - alloc x.item.id))
        (cap - alloc x.item.id) hnd.2 hget2
        (fun y hy => hle y (List.mem_cons_of_mem x hy))
        (fun y hy => hnn y (List.mem_cons_of_mem x hy))
        (fun y hy => hmv y (List.mem_cons_of_mem x hy))
      set si0 : ScheduledItem :=
        { item := x.item, day := startDay,
          estimatedStartDate := ⟨d.year, d.month, d.day + startDay - 1⟩,
          estimatedEndDate := ⟨d.year, d.month,
            d.day + min (startDay + jsCeilDiv (alloc x.item.id)
              (DAILY_WATCH_HOURS * 60) - 1) DAYS_IN_MONTH - 1⟩,
          watchHours := (alloc x.item.id : ℚ) / 60,
          remainingMinutes := some (x.remainingMinutes - alloc x.item.id) } with hsi0
      have hhead := seriesstep_spec st x si0 (alloc x.item.id)
        hgetx hposx hlex rfl rfl rfl (hmv x (List.mem_cons_self x rest))
      have hdisj : ∀ id, emittedFor [si0] id ≠ [] →
          emittedFor (scheduleSeriesPass d alloc startDay rest
            (stateSetRemaining st x.item.id (x.remainingMinutes - alloc x.item.id))
            (cap - alloc x.item.id)).1 id = [] := by
        intro id hne
        have hidx : id = x.item.id := by
          by_contra hcon
          refine hne (emittedFor_eq_nil ?_)
          intro s hs
          rcases List.mem_singleton.mp hs with rfl
          exact fun he => hcon he.symm
        subst hidx
        refine emittedFor_eq_nil ?_
        intro s hs
        have := hrec.2.1 s hs
        intro he
        exact hnd.1 (he ▸ this)
      have hcomp := PassSpec.comp hhead hrec.1 hdisj
      refine ⟨hcomp, ?_, ?_⟩
      · intro si hsi
        rcases List.mem_cons.mp hsi with rfl | hsi2
        · exact List.mem_cons_self x.item.id _
        · exact List.mem_cons_of_mem _ (hrec.2.1 si hsi2)
      · rw [hsum]
        have := hrec.2.2
        omega

/-- Keys of the states found for a list of ids form a sublist of the
ids. -/
theorem filterMap_stateGet_keys_sublist (st : CState) :
    ∀ ids : List String,
      ((ids.filterMap (stateGet st)).map (fun s => s.item.id)).Sublist ids := by
  intro ids
  induction ids with
  | nil => exact List.Sublist.refl []
  | cons i t ih =>
    rw [List.filterMap_cons]
    cases h : stateGet st i with
    | none => exact List.Sublist.cons i ih
    | some cs =>
      rw [List.map_cons, stateGet_key h]
      exact List.Sublist.cons₂ i ih

/-- Looking up a duplicate-free id list yields duplicate-free keys. -/
theorem nodupKeys_filterMap_stateGet {ids : List String} (h : ids.Nodup)
    (st : CState) : NodupKeys (ids.filterMap (stateGet st)) :=
  List.Nodup.sublist (filterMap_stateGet_keys_sublist st ids) h

/-- A state found for some id of a list is its own key's lookup, and
its key is in the list. -/
theorem mem_filterMap_stateGet {st : CState} {ids : List String} {x : ContentState}
    (h : x ∈ ids.filterMap (stateGet st)) :
    stateGet st x.item.id = some x ∧ x.item.id ∈ ids := by
  rcases List.mem_filterMap.mp h with ⟨i, hi, hget⟩
  have hk := stateGet_key hget
  exact ⟨hk ▸ hget, hk ▸ hi⟩

/-- The priority-bucket loop satisfies the per-id month contract: it
appends to the accumulator a block of emissions obeying `PassSpec`,
every emission's key lies in its priority's bucket, and the remaining
capacity stays nonnegative. -/
theorem processBuckets_spec (d : SimDate) (bucketIds : Priority → List String) :
    ∀ (prios : List Priority) (st : CState) (cap day : Int) (out : List ScheduledItem),
      NodupKeys st →
      (∀ p, (bucketIds p).Nodup) →
      prios.Pairwise (fun p q => ∀ id, id ∈ bucketIds p → id ∈ bucketIds q → False) →
      0 ≤ cap →
      ∃ E, (processBuckets d bucketIds prios st cap day out).1 = out ++ E ∧
        PassSpec st (processBuckets d bucketIds prios st cap day out).2.1 E ∧
        (∀ si ∈ E, ∃ p ∈ prios, si.item.id ∈ bucketIds p) ∧
        0 ≤ (processBuckets d bucketIds prios st cap day out).2.2.1 := by
  intro prios
  induction prios with
  | nil =>
    intro st cap day out _ _ _ hcap
    refine ⟨[], by simp [processBuckets], PassSpec.id_of st, ?_, hcap⟩
    intro si h
    cases h
  | cons p rest ih =>
    intro st cap day out hnd hids hpair hcap
    have hpair2 := List.pairwise_cons.mp hpair
    rw [processBuckets]
    by_cases hbe : ((bucketIds p).filterMap (stateGet st)).isEmpty
    · rw [if_pos hbe]
      obtain ⟨E, h1, h2, h3, h4⟩ := ih st cap day out hnd hids hpair2.2 hcap
      exact ⟨E, h1, h2, fun si hsi =>
        (h3 si hsi).elim (fun q hq => ⟨q, List.mem_cons_of_mem p hq.1, hq.2⟩), h4⟩
    · rw [if_neg hbe]
      by_cases hc0 : cap ≤ 0
      · rw [if_pos hc0]
        refine ⟨[], by simp, PassSpec.id_of st, ?_, hcap⟩
        intro si h
        cases h
      · rw [if_neg hc0]
        simp only
        set bucketStates := (bucketIds p).filterMap (stateGet st) with hbsd
        have hndbs : NodupKeys bucketStates :=
          nodupKeys_filterMap_stateGet (hids p) st
        have hbskey : ∀ cs ∈ bucketStates, stateGet st cs.item.id = some cs ∧
            cs.item.id ∈ bucketIds p := by
          intro cs hcs
          exact mem_filterMap_stateGet (hbsd ▸ hcs)
        set movies := bucketStates.filter
          (fun s => s.item.type == ItemType.movie && s.remainingMinutes > 0) with hmvd
        set series := bucketStates.filter
          (fun s => s.item.type != ItemType.movie && s.remainingMinutes > 0) with hsrd
        have hndm : NodupKeys movies := NodupKeys.filter _ _ hndbs
        have hgetm : ∀ m ∈ movies, stateGet st m.item.id = some m := by
          intro m hm
          exact (hbskey m (List.mem_of_mem_filter (hmvd ▸ hm))).1
        have hposm : ∀ m ∈ movies, 0 < m.remainingMinutes := by
          intro m hm
          have := List.of_mem_filter (hmvd ▸ hm)
          simp at this
          exact this.2
        have hmtype : ∀ m ∈ movies, m.item.type = ItemType.movie := by
          intro m hm
          have := List.of_mem_filter (hmvd ▸ hm)
          simp at this
          exact this.1
        have hmspec := scheduleMoviePass_spec d movies st cap day hndm hgetm hposm
        set mp := scheduleMoviePass d movies st cap day with hmpd
        have hcap1 : 0 ≤ mp.2.2.1 := hmspec.2.2 (le_of_lt (by omega))
        have hnd1 : NodupKeys mp.2.1 := NodupKeys.of_shape hmspec.1.1 hnd
        have hmkeys : ∀ si ∈ mp.1, si.item.id ∈ bucketIds p := by
          intro si hsi
          rcases List.mem_map.mp (hmspec.2.1 si hsi) with ⟨m, hm, hmk⟩
          exact hmk ▸ (hbskey m (List.mem_of_mem_filter (hmvd ▸ hm))).2
        have hmovie_rem0 : ∀ id, emittedFor mp.1 id ≠ [] → remOf mp.2.1 id = 0 := by
          intro id hne
          rcases hmspec.1.2 id with ⟨he, _⟩ | ⟨si, he, hitem, _, _, _, _, hmv0⟩
          · exact absurd he hne
          · have hsimem : si ∈ mp.1 ∧ si.item.id = id := by
              refine mem_of_emittedFor ?_
              rw [he]
              exact List.mem_singleton.mpr rfl
            rcases List.mem_map.mp (hmspec.2.1 si hsimem.1) with ⟨m, hm, hmk⟩
            have hitm : itemOf st id = some m.item := by
              unfold itemOf
              rw [← hsimem.2, ← hmk, hgetm m hm]
              rfl
            have hsim : si.item = m.item := by
              rw [hitem] at hitm
              exact Option.some.inj hitm
            exact hmv0 (by rw [hsim]; exact hmtype m hm)
        set activeSeries := ((series.map (fun s => s.item.id)).filterMap
          (stateGet mp.2.1)).filter (fun s => s.remainingMinutes > 0) with hasd
        have hndser : NodupKeys series := NodupKeys.filter _ _ hndbs
        have hndA : NodupKeys activeSeries := by
          rw [hasd]
          exact NodupKeys.filter _ _ (nodupKeys_filterMap_stateGet hndser mp.2.1)
        have hgetA : ∀ x ∈ activeSeries, stateGet mp.2.1 x.item.id = some x := by
          intro x hx
          exact (mem_filterMap_stateGet (List.mem_of_mem_filter (hasd ▸ hx))).1
        have hposA : ∀ x ∈ activeSeries, 0 < x.remainingMinutes := by
          intro x hx
          have := List.of_mem_filter (hasd ▸ hx)
          simpa using this
        have hAkeys : ∀ x ∈ activeSeries, x.item.id ∈ bucketIds p := by
          intro x hx
          have hk := (mem_filterMap_stateGet (List.mem_of_mem_filter (hasd ▸ hx))).2
          rcases List.mem_map.mp hk with ⟨s, hs, hsk⟩
          exact hsk ▸ (hbskey s (List.mem_of_mem_filter (hsrd ▸ hs))).2
        have hmvA : ∀ x ∈ activeSeries, x.item.type ≠ ItemType.movie := by
          intro x hx
          have hk := (mem_filterMap_stateGet (List.mem_of_mem_filter (hasd ▸ hx))).2
          rcases List.mem_map.mp hk with ⟨s, hs, hsk⟩
          have hstype : s.item.type ≠ ItemType.movie := by
            have := List.of_mem_filter (hsrd ▸ hs)
            simp at this
            exact this.1
          have hgets := (hbskey s (List.mem_of_mem_filter (hsrd ▸ hs))).1
          have h1 : itemOf st x.item.id = some s.item := by
            unfold itemOf
            rw [← hsk, hgets]
            rfl
          have h2 : itemOf mp.2.1 x.item.id = some x.item := by
            unfold itemOf
            rw [hgetA x hx]
            rfl
          have h3 := itemOf_of_shape hmspec.1.1 x.item.id
          rw [h2, h1] at h3
          rw [Option.some.inj h3]
          exact hstype
        by_cases hskip : activeSeries.isEmpty || decide (mp.2.2.1 ≤ 0)
        · rw [if_pos hskip]
          obtain ⟨E, h1, h2, h3, h4⟩ :=
            ih mp.2.1 mp.2.2.1 mp.2.2.2 (out ++ mp.1) hnd1 hids hpair2.2 hcap1
          have hdisj : ∀ id, emittedFor mp.1 id ≠ [] → emittedFor E id = [] := by
            intro id hne
            cases he : emittedFor E id with
            | nil => rfl
            | cons si t =>
              have hsi : si ∈ emittedFor E id := by rw [he]; exact List.mem_cons_self si t
              obtain ⟨hsiE, hsik⟩ := mem_of_emittedFor hsi
              obtain ⟨q, hq, hqid⟩ := h3 si hsiE
              have hpid : id ∈ bucketIds p := by
                cases hem : emittedFor mp.1 id with
                | nil => exact absurd hem hne
                | cons sj t2 =>
                  have hsj : sj ∈ emittedFor mp.1 id := by
                    rw [hem]; exact List.mem_cons_self sj t2
                  obtain ⟨hsjm, hsjk⟩ := mem_of_emittedFor hsj
                  exact hsjk ▸ hmkeys sj hsjm
              exact absurd (hpair2.1 q hq id hpid (hsik ▸ hqid)) (fun h => h)
          refine ⟨mp.1 ++ E, ?_, PassSpec.comp hmspec.1 h2 hdisj, ?_, h4⟩
          · rw [h1, List.append_assoc]
          · intro si hsi
            rcases List.mem_append.mp hsi with h | h
            · exact ⟨p, List.mem_cons_self p rest, hmkeys si h⟩
            · exact (h3 si h).elim (fun q hq => ⟨q, List.mem_cons_of_mem p hq.1, hq.2⟩)
        · rw [if_neg hskip]
          have hallocspec := computeAllocations_spec activeSeries mp.2.2.1 hndA hcap1
          have hnnA := computeAllocations_nonneg activeSeries mp.2.2.1 hcap1
            (fun x hx => le_of_lt (hposA x hx))
          have hsspec := scheduleSeriesPass_spec d
            (computeAllocations activeSeries mp.2.2.1) mp.2.2.2 activeSeries
            mp.2.1 mp.2.2.1 hndA hgetA hallocspec.1 (fun x _ => hnnA x.item.id) hmvA
          set sp := scheduleSeriesPass d (computeAllocations activeSeries mp.2.2.1)
            mp.2.2.2 activeSeries mp.2.1 mp.2.2.1 with hspd
          have hcap2 : 0 ≤ sp.2.2 := by
            have := hsspec.2.2
            have := hallocspec.2.1
            omega
          have hskeys : ∀ si ∈ sp.1, si.item.id ∈ bucketIds p := by
            intro si hsi
            rcases List.mem_map.mp (hsspec.2.1 si hsi) with ⟨x, hx, hxk⟩
            exact hxk ▸ hAkeys x hx
          have hdisjms : ∀ id, emittedFor mp.1 id ≠ [] → emittedFor sp.1 id = [] := by
            intro id hne
            cases he : emittedFor sp.1 id with
            | nil => rfl
            | cons si t =>
              have hsi : si ∈ emittedFor sp.1 id := by rw [he]; exact List.mem_cons_self si t
              obtain ⟨hsiS, hsik⟩ := mem_of_emittedFor hsi
              rcases List.mem_map.mp (hsspec.2.1 si hsiS) with ⟨x, hx, hxk⟩
              have hrem : remOf mp.2.1 id = x.remainingMinutes := by
                unfold remOf
                rw [← hsik, ← hxk, hgetA x hx]
              have h0 := hmovie_rem0 id hne
              have := hposA x hx
              omega
          have hmonth := PassSpec.comp hmspec.1 hsspec.1 hdisjms
          have hnd2 : NodupKeys sp.2.1 := NodupKeys.of_shape hmonth.1 hnd
          obtain ⟨E, h1, h2, h3, h4⟩ := ih sp.2.1 sp.2.2
            (min (mp.2.2.2 + ((activeSeries.length + 1) / 2 : Nat)) DAYS_IN_MONTH)
            (out ++ mp.1 ++ sp.1) hnd2 hids hpair2.2 hcap2
          have hdisj2 : ∀ id, emittedFor (mp.1 ++ sp.1) id ≠ [] →
              emittedFor E id = [] := by
            intro id hne
            cases he : emittedFor E id with
            | nil => rfl
            | cons si t =>
              have hsi : si ∈ emittedFor E id := by rw [he]; exact List.mem_cons_self si t
              obtain ⟨hsiE, hsik⟩ := mem_of_emittedFor hsi
              obtain ⟨q, hq, hqid⟩ := h3 si hsiE
              have hpid : id ∈ bucketIds p := by
                cases hem : emittedFor (mp.1 ++ sp.1) id with
                | nil => exact absurd hem hne
                | cons sj t2 =>
                  have hsj : sj ∈ emittedFor (mp.1 ++ sp.1) id := by
                    rw [hem]; exact List.mem_cons_self sj t2
                  obtain ⟨hsjm, hsjk⟩ := mem_of_emittedFor hsj
                  rcases List.mem_append.mp hsjm with h | h
                  · exact hsjk ▸ hmkeys sj h
                  · exact hsjk ▸ hskeys sj h
              exact absurd (hpair2.1 q hq id hpid (hsik ▸ hqid)) (fun h => h)
          refine ⟨(mp.1 ++ sp.1) ++ E, ?_, PassSpec.comp hmonth h2 hdisj2, ?_, h4⟩
          · rw [h1]
            simp [List.append_assoc]
          · intro si hsi
            rcases List.mem_append.mp hsi with h | h
            · rcases List.mem_append.mp h with h2a | h2b
              · exact ⟨p, List.mem_cons_self p rest, hmkeys si h2a⟩
              · exact ⟨p, List.mem_cons_self p rest, hskeys si h2b⟩
            · exact (h3 si h).elim (fun q hq => ⟨q, List.mem_cons_of_mem p hq.1, hq.2⟩)

/-- The candidate-id fold keeps the accumulated list duplicate-free (a
new id is only appended after the `contains` check). -/
theorem computeCandidateIds_fold_nodup (ps : List OptimizedService) (st : CState) :
    ∀ (wl : List WatchlistItem) (acc : List String), acc.Nodup →
      (wl.foldl
        (fun (acc : List String) item =>
          if !shouldScheduleItem item then acc
          else
            match stateGet st item.id with
            | none => acc
            | some state =>
              if state.remainingMinutes ≤ 0 then acc
              else if acc.contains item.id then acc
              else if (getEffectiveProviders item).any
                  (fun p => (ps.map (fun q => q.service)).contains p) then acc ++ [item.id]
              else acc)
        acc).Nodup := by
  intro wl
  induction wl with
  | nil => intro acc h; exact h
  | cons item rest ih =>
    intro acc hacc
    rw [List.foldl_cons]
    refine ih _ ?_
    by_cases hs : !shouldScheduleItem item
    · rw [if_pos hs]; exact hacc
    · rw [if_neg hs]
      cases hg : stateGet st item.id with
      | none => exact hacc
      | some state =>
        simp only
        by_cases hr : state.remainingMinutes ≤ 0
        · rw [if_pos hr]; exact hacc
        · rw [if_neg hr]
          by_cases hc : acc.contains item.id
          · rw [if_pos hc]; exact hacc
          · rw [if_neg hc]
            by_cases hp : (getEffectiveProviders item).any
                (fun p => (ps.map (fun q => q.service)).contains p)
            · rw [if_pos hp]
              have hnotin : item.id ∉ acc := fun hm => hc (by simpa using hm)
              simp [List.nodup_append, hacc, hnotin]
            · rw [if_neg hp]; exact hacc

/-- The candidate ids of a month are duplicate-free. -/
theorem computeCandidateIds_nodup (ps : List OptimizedService) (st : CState)
    (wl : List WatchlistItem) : (computeCandidateIds ps st wl).Nodup := by
  have h := computeCandidateIds_fold_nodup ps st wl [] List.nodup_nil
  simpa [computeCandidateIds] using h

/-- The month scheduler obeys the per-id pass contract, and every
emitted item's key is a candidate id of the month. -/
theorem scheduleContentForMonth_spec (ps : List OptimizedService) (st : CState)
    (wl : List WatchlistItem) (d : SimDate) (hnd : NodupKeys st) :
    PassSpec st (scheduleContentForMonth ps st wl d).2.1
      (scheduleContentForMonth ps st wl d).1 ∧
    (∀ si ∈ (scheduleContentForMonth ps st wl d).1,
      si.item.id ∈ computeCandidateIds ps st wl) := by
  have hids : ∀ p : Priority, ((computeCandidateIds ps st wl).filter (fun id =>
      match stateGet st id with
      | some cs => cs.item.priority == p
      | none => false)).Nodup :=
    fun p => List.Nodup.filter _ (computeCandidateIds_nodup ps st wl)
  have hpairne : PRIORITY_ORDER.Pairwise (fun p q => p ≠ q) := by decide
  have hpair : PRIORITY_ORDER.Pairwise (fun p q =>
      ∀ id, id ∈ (computeCandidateIds ps st wl).filter (fun id =>
          match stateGet st id with
          | some cs => cs.item.priority == p
          | none => false) →
        id ∈ (computeCandidateIds ps st wl).filter (fun id =>
          match stateGet st id with
          | some cs => cs.item.priority == q
          | none => false) → False) := by
    refine hpairne.imp ?_
    intro p q hne id hp hq
    have h1 := List.of_mem_filter hp
    have h2 := List.of_mem_filter hq
    cases hg : stateGet st id with
    | none => rw [hg] at h1; exact absurd h1 (by simp)
    | some cs =>
      rw [hg] at h1 h2
      have e1 : cs.item.priority = p := by simpa using h1
      have e2 : cs.item.priority = q := by simpa using h2
      exact hne (e1 ▸ e2)
  obtain ⟨E, h1, h2, h3, _⟩ := processBuckets_spec d
    (fun p => (computeCandidateIds ps st wl).filter (fun id =>
      match stateGet st id with
      | some cs => cs.item.priority == p
      | none => false))
    PRIORITY_ORDER st (MONTHLY_WATCH_LIMIT * 60) 1 [] hnd hids hpair (by decide)
  rw [List.nil_append] at h1
  constructor
  · show PassSpec st (processBuckets d _ PRIORITY_ORDER st (MONTHLY_WATCH_LIMIT * 60)
      1 []).2.1 (processBuckets d _ PRIORITY_ORDER st (MONTHLY_WATCH_LIMIT * 60) 1 []).1
    rw [h1]
    exact h2
  · intro si hsi
    show si.item.id ∈ computeCandidateIds ps st wl
    rw [show (scheduleContentForMonth ps st wl d).1 = E from h1] at hsi
    obtain ⟨p, _, hpid⟩ := h3 si hsi
    exact List.mem_of_mem_filter hpid

/-! ## Rotation-level accounting -/

/-- The immutable real duration the state records for a key. -/
def realOf (st : CState) (id : String) : Nat :=
  match stateGet st id with
  | some cs => cs.realMinutes
  | none => 0

/-- All scheduled items of a list of monthly plans, in plan order. -/
def monthItems : List MonthlyPlan → List ScheduledItem
  | [] => []
  | m :: rest => m.itemsToWatch ++ monthItems rest

theorem monthItems_append (a b : List MonthlyPlan) :
    monthItems (a ++ b) = monthItems a ++ monthItems b := by
  induction a with
  | nil => rfl
  | cons m t ih => simp [monthItems, ih]

/-- Equal shapes yield equal real durations. -/
theorem realOf_of_shape {st st' : CState} (h : shapeOf st' = shapeOf st) (id : String) :
    realOf st' id = realOf st id := by
  have h2 := stateGet_shape h id
  unfold realOf
  cases h1 : stateGet st' id with
  | none =>
    rw [h1] at h2
    cases h3 : stateGet st id with
    | none => rfl
    | some cs => rw [h3] at h2; simp at h2
  | some cs =>
    rw [h1] at h2
    cases h3 : stateGet st id with
    | none => rw [h3] at h2; simp at h2
    | some cs2 =>
      rw [h3] at h2
      simp only [Option.map_some'] at h2
      have := (Prod.mk.injEq _ _ _ _).mp (Option.some.inj h2)
      show cs.realMinutes = cs2.realMinutes
      rw [this.2]

/-- Equal shapes turn a found entry into a found entry with the same
item and real duration. -/
theorem stateGet_of_shape_some {st st' : CState} (h : shapeOf st' = shapeOf st)
    {id : String} {cs' : ContentState} (hg : stateGet st' id = some cs') :
    ∃ cs, stateGet st id = some cs ∧ cs.item = cs'.item ∧
      cs.realMinutes = cs'.realMinutes := by
  have h2 := stateGet_shape h id
  rw [hg] at h2
  cases h3 : stateGet st id with
  | none => rw [h3] at h2; simp at h2
  | some cs =>
    rw [h3] at h2
    simp only [Option.map_some'] at h2
    have hp := (Prod.mk.injEq _ _ _ _).mp (Option.some.inj h2.symm)
    exact ⟨cs, rfl, hp.1, hp.2⟩

theorem watchedMin_append (a b : List ScheduledItem) (id : String) :
    watchedMin (a ++ b) id = watchedMin a id + watchedMin b id := by
  unfold watchedMin
  rw [emittedFor_append, List.map_append, List.sum_append]

theorem watchedMin_nil (id : String) : watchedMin [] id = 0 := by
  simp [watchedMin, emittedFor]

/-- A pass never raises a remaining counter. -/
theorem PassSpec.rem_le {st st' : CState} {items : List ScheduledItem}
    (h : PassSpec st st' items) (id : String) : remOf st' id ≤ remOf st id := by
  rcases h.2 id with ⟨_, hr⟩ | ⟨si, _, _, _, hlt, _⟩
  · exact le_of_eq hr
  · exact le_of_lt hlt

/-- A pass keeps remaining counters nonnegative. -/
theorem PassSpec.rem_nonneg {st st' : CState} {items : List ScheduledItem}
    (h : PassSpec st st' items) (id : String) (h0 : 0 ≤ remOf st id) :
    0 ≤ remOf st' id := by
  rcases h.2 id with ⟨_, hr⟩ | ⟨si, _, _, _, _, hnn, _⟩
  · exact hr ▸ h0
  · exact hnn

/-- A pass's emitted minutes for a key equal its remaining decrease. -/
theorem PassSpec.watched_eq {st st' : CState} {items : List ScheduledItem}
    (h : PassSpec st st' items) (id : String) :
    watchedMin items id = ((remOf st id - remOf st' id : Int) : ℚ) := by
  rcases h.2 id with ⟨he, hr⟩ | ⟨si, he, _, heq, _⟩
  · rw [hr]
    unfold watchedMin
    rw [he]
    simp
  · unfold watchedMin
    rw [he]
    simpa using heq

/-- What a pass guarantees about each item it emits. -/
theorem PassSpec.emitted {st st' : CState} {items : List ScheduledItem}
    (h : PassSpec st st' items) {si : ScheduledItem} (hsi : si ∈ items) :
    itemOf st si.item.id = some si.item ∧
    si.remainingMinutes = some (remOf st' si.item.id) ∧
    remOf st' si.item.id < remOf st si.item.id ∧
    0 ≤ remOf st' si.item.id ∧
    si.watchHours * 60 = ((remOf st si.item.id - remOf st' si.item.id : Int) : ℚ) ∧
    (si.item.type = ItemType.movie → remOf st' si.item.id = 0) := by
  have hmem : si ∈ emittedFor items si.item.id := by
    unfold emittedFor
    refine List.mem_filter.mpr ⟨hsi, ?_⟩
    simp
  rcases h.2 si.item.id with ⟨he, _⟩ | ⟨si2, he, hitem, heq, hlt, hnn, hrm, hmv⟩
  · rw [he] at hmem
    cases hmem
  · rw [he] at hmem
    rcases List.mem_singleton.mp hmem with rfl
    exact ⟨hitem, hrm, hlt, hnn, heq, hmv⟩

/-- Movie entries are always untouched or fully watched: their counter
is `0` or the full real duration. -/
def MovieZeroOrFull (st : CState) : Prop :=
  ∀ id cs, stateGet st id = some cs → cs.item.type = ItemType.movie →
    cs.remainingMinutes = 0 ∨ cs.remainingMinutes = (cs.realMinutes : Int)

/-- A found entry's remaining counter is `remOf`. -/
theorem remOf_of_get {st : CState} {id : String} {cs : ContentState}
    (h : stateGet st id = some cs) : remOf st id = cs.remainingMinutes := by
  unfold remOf
  rw [h]

/-- A found entry's item is `itemOf`. -/
theorem itemOf_of_get {st : CState} {id : String} {cs : ContentState}
    (h : stateGet st id = some cs) : itemOf st id = some cs.item := by
  unfold itemOf
  rw [h]
  rfl

/-- Every pass preserves the zero-or-full movie invariant. -/
theorem PassSpec.movieZeroOrFull {st st' : CState} {items : List ScheduledItem}
    (h : PassSpec st st' items) (hinv : MovieZeroOrFull st) : MovieZeroOrFull st' := by
  intro id cs' hg hmovie
  obtain ⟨cs, hg0, hitem, hreal⟩ := stateGet_of_shape_some h.1 hg
  rcases h.2 id with ⟨_, hr⟩ | ⟨si, _, hitem2, _, _, _, _, hmv⟩
  · rw [remOf_of_get hg, remOf_of_get hg0] at hr
    rw [hr, ← hreal]
    exact hinv id cs hg0 (hitem ▸ hmovie)
  · left
    have hsi : si.item = cs.item := by
      have := hitem2
      rw [itemOf_of_get hg0] at this
      exact (Option.some.inj this).symm
    have h0 := hmv (by rw [hsi, hitem]; exact hmovie)
    rw [remOf_of_get hg] at h0
    exact h0

/-- Every candidate id belongs to a schedulable watchlist entry. -/
theorem mem_computeCandidateIds {ps : List OptimizedService} {st : CState}
    {wl : List WatchlistItem} {id : String} (h : id ∈ computeCandidateIds ps st wl) :
    ∃ w ∈ wl, shouldScheduleItem w = true ∧ w.id = id := by
  have hgen : ∀ (l : List WatchlistItem) (acc : List String),
      (∀ w ∈ l, w ∈ wl) →
      id ∈ l.foldl
        (fun (acc : List String) item =>
          if !shouldScheduleItem item then acc
          else
            match stateGet st item.id with
            | none => acc
            | some state =>
              if state.remainingMinutes ≤ 0 then acc
              else if acc.contains item.id then acc
              else if (getEffectiveProviders item).any
                  (fun p => (ps.map (fun q => q.service)).contains p) then acc ++ [item.id]
              else acc)
        acc →
      id ∈ acc ∨ ∃ w ∈ wl, shouldScheduleItem w = true ∧ w.id = id := by
    intro l
    induction l with
    | nil => intro acc _ hm; exact Or.inl hm
    | cons item rest ih =>
      intro acc hsub hm
      rw [List.foldl_cons] at hm
      have hrest : ∀ w ∈ rest, w ∈ wl :=
        fun w hw => hsub w (List.mem_cons_of_mem item hw)
      by_cases hs : !shouldScheduleItem item
      · rw [if_pos hs] at hm
        exact ih acc hrest hm
      · rw [if_neg hs] at hm
        have hstrue : shouldScheduleItem item = true := by
          simpa using hs
        cases hg : stateGet st item.id with
        | none =>
          rw [hg] at hm
          exact ih acc hrest hm
        | some state =>
          rw [hg] at hm
          simp only at hm
          by_cases hr : state.remainingMinutes ≤ 0
          · rw [if_pos hr] at hm
            exact ih acc hrest hm
          · rw [if_neg hr] at hm
            by_cases hc : acc.contains item.id
            · rw [if_pos hc] at hm
              exact ih acc hrest hm
            · rw [if_neg hc] at hm
              by_cases hp : (getEffectiveProviders item).any
                  (fun p => (ps.map (fun q => q.service)).contains p)
              · rw [if_pos hp] at hm
                rcases ih _ hrest hm with hin | hex
                · rcases List.mem_append.mp hin with h2 | h2
                  · exact Or.inl h2
                  · rcases List.mem_singleton.mp h2 with rfl
                    exact Or.inr ⟨item, hsub item (List.mem_cons_self item rest),
                      hstrue, rfl⟩
                · exact Or.inr hex
              · rw [if_neg hp] at hm
                exact ih acc hrest hm
  have := hgen wl [] (fun w hw => hw) (by simpa [computeCandidateIds] using h)
  rcases this with hin | hex
  · cases hin
  · exact hex

/-- An `itemOf` fact comes from a found entry. -/
theorem itemOf_some {st : CState} {id : String} {it : WatchlistItem}
    (h : itemOf st id = some it) : ∃ cs, stateGet st id = some cs ∧ cs.item = it := by
  unfold itemOf at h
  cases hg : stateGet st id with
  | none => rw [hg] at h; simp at h
  | some cs =>
    rw [hg] at h
    simp only [Option.map_some'] at h
    exact ⟨cs, rfl, Option.some.inj h⟩

/-- The rotation loop's cumulative accounting: it appends some plans
`P`; the state keeps its shape; every remaining counter decreases
monotonically, stays nonnegative, and the minutes scheduled across all
appended plans for a key equal exactly its counter's total decrease;
every emitted item echoes a nonnegative remaining, movies are emitted
with their full real duration and a zero remaining, and every emitted
key belongs to a schedulable watchlist entry. -/
theorem runRotation_acc (wl : List WatchlistItem) (b : Int) (cm : Nat) (cy : Int) :
    ∀ (fuel offset : Nat) (st : CState) (prev : List String) (plans : List MonthlyPlan),
      NodupKeys st →
      (∀ id, 0 ≤ remOf st id) →
      MovieZeroOrFull st →
      ∃ P, (runRotation wl b cm cy fuel offset st prev plans).1 = plans ++ P ∧
        shapeOf (runRotation wl b cm cy fuel offset st prev plans).2 = shapeOf st ∧
        (∀ id,
          remOf (runRotation wl b cm cy fuel offset st prev plans).2 id ≤ remOf st id ∧
          0 ≤ remOf (runRotation wl b cm cy fuel offset st prev plans).2 id ∧
          watchedMin (monthItems P) id =
            ((remOf st id -
              remOf (runRotation wl b cm cy fuel offset st prev plans).2 id : Int) : ℚ)) ∧
        (∀ si ∈ monthItems P,
          itemOf st si.item.id = some si.item ∧
          (∃ v, si.remainingMinutes = some v ∧ 0 ≤ v) ∧
          (si.item.type = ItemType.movie →
            si.remainingMinutes = some 0 ∧
            si.watchHours * 60 = ((realOf st si.item.id : Nat) : ℚ)) ∧
          (∃ w ∈ wl, shouldScheduleItem w = true ∧ w.id = si.item.id)) := by
  intro fuel
  induction fuel with
  | zero =>
    intro offset st prev plans hnd h0 hmz
    refine ⟨[], by simp [runRotation], rfl, ?_, ?_⟩
    · intro id
      refine ⟨le_refl _, h0 id, ?_⟩
      show watchedMin [] id = ((remOf st id - remOf st id : Int) : ℚ)
      rw [watchedMin_nil]
      simp
    · intro si hsi
      simp [monthItems] at hsi
  | succ n ih =>
    intro offset st prev plans hnd h0 hmz
    rw [runRotation]
    cases hb : getActivePriorityBucket wl st with
    | none =>
      refine ⟨[], by simp, rfl, ?_, ?_⟩
      · intro id
        refine ⟨le_refl _, h0 id, ?_⟩
        show watchedMin [] id = ((remOf st id - remOf st id : Int) : ℚ)
        rw [watchedMin_nil]
        simp
      · intro si hsi
        simp [monthItems] at hsi
    | some activeBucket =>
      simp only
      set sel := (selectPlatformsForMonth activeBucket wl st b prev).1 with hseld
      by_cases he : sel.isEmpty
      · rw [if_pos he]
        refine ⟨[], by simp, rfl, ?_, ?_⟩
        · intro id
          refine ⟨le_refl _, h0 id, ?_⟩
          show watchedMin [] id = ((remOf st id - remOf st id : Int) : ℚ)
          rw [watchedMin_nil]
          simp
        · intro si hsi
          simp [monthItems] at hsi
      · rw [if_neg he]
        by_cases hover : (sel.map (fun p => p.cost)).sum > b
        · rw [if_pos hover]
          refine ⟨[], by simp, rfl, ?_, ?_⟩
          · intro id
            refine ⟨le_refl _, h0 id, ?_⟩
            show watchedMin [] id = _
            rw [watchedMin_nil]
            simp
          · intro si hsi
            simp [monthItems] at hsi
        · rw [if_neg hover]
          set d0 : SimDate := ⟨cy + (((cm + offset) / 12 : Nat) : Int),
            (((cm + offset) % 12 : Nat) : Int), 1⟩ with hd0
          have hms := scheduleContentForMonth_spec sel st wl d0 hnd
          set sched := scheduleContentForMonth sel st wl d0 with hschedd
          have hnd1 : NodupKeys sched.2.1 := NodupKeys.of_shape hms.1.1 hnd
          have h01 : ∀ id, 0 ≤ remOf sched.2.1 id :=
            fun id => PassSpec.rem_nonneg hms.1 id (h0 id)
          have hmz1 : MovieZeroOrFull sched.2.1 := PassSpec.movieZeroOrFull hms.1 hmz
          obtain ⟨P2, hp1, hp2, hp3, hp4⟩ := ih (offset + 1) sched.2.1
            (sel.map (fun p => p.service))
            (plans ++ [{ month := MONTHS.getD ((cm + offset) % 12) ""
                         monthIndex := (((cm + offset) % 12 : Nat) : Int)
                         year := cy + (((cm + offset) / 12 : Nat) : Int)
                         services := sel
                         itemsToWatch := sched.1
                         monthlyCost := (sel.map (fun p => p.cost)).sum
                         action :=
                           if offset = 0 then PlanAction.subscribe
                           else
                             if sameServiceSets sel
                                 (((plans.getLast?).map (fun m => m.services)).getD []) then
                               PlanAction.keep
                             else PlanAction.rotate
                         totalWatchHours := sched.2.2
                         isBudgetConstrained :=
                           decide ((sel.map (fun p => p.cost)).sum * 10 ≥ b * 9) }])
            hnd1 h01 hmz1
          refine ⟨{ month := MONTHS.getD ((cm + offset) % 12) ""
                    monthIndex := (((cm + offset) % 12 : Nat) : Int)
                    year := cy + (((cm + offset) / 12 : Nat) : Int)
                    services := sel
                    itemsToWatch := sched.1
                    monthlyCost := (sel.map (fun p => p.cost)).sum
                    action :=
                      if offset = 0 then PlanAction.subscribe
                      else
                        if sameServiceSets sel
                            (((plans.getLast?).map (fun m => m.services)).getD []) then
                          PlanAction.keep
                        else PlanAction.rotate
                    totalWatchHours := sched.2.2
                    isBudgetConstrained :=
                      decide ((sel.map (fun p => p.cost)).sum * 10 ≥ b * 9) } :: P2,
            ?_, ?_, ?_, ?_⟩
          · rw [hp1]
            simp
          · rw [hp2]
            exact hms.1.1
          · intro id
            have h3 := hp3 id
            refine ⟨le_trans h3.1 (PassSpec.rem_le hms.1 id), h3.2.1, ?_⟩
            show watchedMin (sched.1 ++ monthItems P2) id = _
            rw [watchedMin_append, h3.2.2, PassSpec.watched_eq hms.1 id]
            push_cast
            ring
          · intro si hsi
            rcases List.mem_append.mp hsi with hsi1 | hsi2
            · have hem := PassSpec.emitted hms.1 hsi1
              refine ⟨hem.1, ⟨remOf sched.2.1 si.item.id, hem.2.1, hem.2.2.2.1⟩, ?_, ?_⟩
              · intro hmovie
                have hz := hem.2.2.2.2.2 hmovie
                obtain ⟨cs, hg, hcsit⟩ := itemOf_some hem.1
                have hcsmv : cs.item.type = ItemType.movie := by rw [hcsit]; exact hmovie
                have hpos : 0 < remOf st si.item.id := by
                  have := hem.2.2.1
                  omega
                rcases hmz si.item.id cs hg hcsmv with hc0 | hcfull
                · rw [remOf_of_get hg] at hpos
                  omega
                · refine ⟨by rw [hem.2.1, hz], ?_⟩
                  have hwh := hem.2.2.2.2.1
                  rw [hz] at hwh
                  rw [hwh, remOf_of_get hg, hcfull]
                  unfold realOf
                  rw [hg]
                  push_cast
                  ring
              · exact mem_computeCandidateIds (hms.2 si hsi1)
            · have h4 := hp4 si hsi2
              refine ⟨?_, h4.2.1, ?_, h4.2.2.2⟩
              · rw [← itemOf_of_shape hms.1.1 si.item.id]
                exact h4.1
              · intro hmovie
                have := h4.2.2.1 hmovie
                rwa [realOf_of_shape hms.1.1 si.item.id] at this

/-- On a duplicate-free watchlist, the initial state's keys are
duplicate-free too. -/
theorem initializeContentState_nodupKeys (wl : List WatchlistItem)
    (hnd : (wl.map (fun i => i.id)).Nodup) :
    NodupKeys (initializeContentState wl) := by
  unfold NodupKeys
  rw [initializeContentState_eq_map wl hnd, List.map_map]
  exact hnd

/-- Every freshly initialized entry starts at its full real duration. -/
theorem init_rem_eq_real (wl : List WatchlistItem)
    (hnd : (wl.map (fun i => i.id)).Nodup) :
    ∀ cs ∈ initializeContentState wl, cs.remainingMinutes = (cs.realMinutes : Int) := by
  rw [initializeContentState_eq_map wl hnd]
  intro cs hcs
  rcases List.mem_map.mp hcs with ⟨w, _, rfl⟩
  rfl

/-- The initial state's counters are nonnegative. -/
theorem init_rem_nonneg (wl : List WatchlistItem)
    (hnd : (wl.map (fun i => i.id)).Nodup) :
    ∀ id, 0 ≤ remOf (initializeContentState wl) id := by
  intro id
  unfold remOf
  cases hg : stateGet (initializeContentState wl) id with
  | none => exact le_refl 0
  | some cs =>
    show 0 ≤ cs.remainingMinutes
    rw [init_rem_eq_real wl hnd cs (stateGet_mem hg)]
    exact_mod_cast Nat.zero_le _

/-- The initial state satisfies the zero-or-full movie invariant. -/
theorem init_movieZeroOrFull (wl : List WatchlistItem)
    (hnd : (wl.map (fun i => i.id)).Nodup) :
    MovieZeroOrFull (initializeContentState wl) := by
  intro id cs hg _
  exact Or.inr (init_rem_eq_real wl hnd cs (stateGet_mem hg))

/-- C2: for every watchlist entry of a duplicate-free watchlist, the
final remaining counter satisfies `0 ≤ remaining ≤ real total duration`
(so the counter, which starts at the real duration and only ever
decreases, never increases and never overshoots); the cumulative watch
minutes recorded across all emitted `ScheduledItem`s for that entry
equal exactly the counter's total decrease, hence never exceed the real
total duration, and equal it exactly for a fully watched movie; every
emitted record for the entry echoes a nonnegative remaining counter. -/
theorem no_duration_inflation (wl : List WatchlistItem) (b : Int) (cm : Nat) (cy : Int)
    (item : WatchlistItem) (hmem : item ∈ wl)
    (hnd : (wl.map (fun i => i.id)).Nodup) :
    0 ≤ remOf (runRotation wl b cm cy (min (maxHorizon wl) 24) 0
        (initializeContentState wl) [] []).2 item.id ∧
    remOf (runRotation wl b cm cy (min (maxHorizon wl) 24) 0
        (initializeContentState wl) [] []).2 item.id ≤
      (getRealWatchTimeMinutes item : Int) ∧
    watchedMin (monthItems (optimizeSubscriptions wl b cm cy).rotationSchedule) item.id =
      ((getRealWatchTimeMinutes item : Int) -
        remOf (runRotation wl b cm cy (min (maxHorizon wl) 24) 0
          (initializeContentState wl) [] []).2 item.id : Int) ∧
    watchedMin (monthItems (optimizeSubscriptions wl b cm cy).rotationSchedule) item.id ≤
      ((getRealWatchTimeMinutes item : Nat) : ℚ) ∧
    (item.type = ItemType.movie →
      remOf (runRotation wl b cm cy (min (maxHorizon wl) 24) 0
        (initializeContentState wl) [] []).2 item.id = 0 →
      watchedMin (monthItems (optimizeSubscriptions wl b cm cy).rotationSchedule) item.id =
        ((getRealWatchTimeMinutes item : Nat) : ℚ)) ∧
    (∀ si ∈ monthItems (optimizeSubscriptions wl b cm cy).rotationSchedule,
      si.item.id = item.id → ∃ v, si.remainingMinutes = some v ∧ 0 ≤ v) := by
  have hnd0 := initializeContentState_nodupKeys wl hnd
  have h00 := init_rem_nonneg wl hnd
  have hmz0 := init_movieZeroOrFull wl hnd
  obtain ⟨P, hp1, hp2, hp3, hp4⟩ := runRotation_acc wl b cm cy
    (min (maxHorizon wl) 24) 0 (initializeContentState wl) [] [] hnd0 h00 hmz0
  have hsched : (optimizeSubscriptions wl b cm cy).rotationSchedule = P := by
    show (runRotation wl b cm cy (min (maxHorizon wl) 24) 0
      (initializeContentState wl) [] []).1 = P
    rw [hp1]
    simp
  have hget0 := initializeContentState_get wl item hnd hmem
  have hrem0 : remOf (initializeContentState wl) item.id =
      (getRealWatchTimeMinutes item : Int) := by
    rw [remOf_of_get hget0]
    rfl
  have h3 := hp3 item.id
  rw [hsched]
  refine ⟨h3.2.1, hrem0 ▸ h3.1, ?_, ?_, ?_, ?_⟩
  · rw [h3.2.2, hrem0]
  · have h4 := h3.2.1
    rw [h3.2.2, hrem0]
    generalize hq : remOf (runRotation wl b cm cy (min (maxHorizon wl) 24) 0
        (initializeContentState wl) [] []).2 item.id = q at h4 ⊢
    have h5 : (0 : ℚ) ≤ (q : ℚ) := by exact_mod_cast h4
    push_cast
    linarith
  · intro _ hz
    rw [h3.2.2, hrem0, hz]
    push_cast
    ring
  · intro si hsi _
    exact (hp4 si hsi).2.1

theorem no_duration_inflation_witness :
    0 ≤ remOf (runRotation [exMovie, exSeries] 1000 0 2026
        (min (maxHorizon [exMovie, exSeries]) 24) 0
        (initializeContentState [exMovie, exSeries]) [] []).2 exMovie.id :=
  (no_duration_inflation [exMovie, exSeries] 1000 0 2026 exMovie
    (List.mem_cons_self exMovie [exSeries]) (by decide)).1

/-- Equal shapes with an equal remaining counter give an equal lookup. -/
theorem stateGet_eq_of_shape_rem {st st' : CState} (hsh : shapeOf st' = shapeOf st)
    {id : String} (hrem : remOf st' id = remOf st id) :
    stateGet st' id = stateGet st id := by
  have h2 := stateGet_shape hsh id
  cases hg' : stateGet st' id with
  | none =>
    rw [hg'] at h2
    cases hg : stateGet st id with
    | none => rfl
    | some cs => rw [hg] at h2; simp at h2
  | some cs' =>
    obtain ⟨cs, hg, hitem, hreal⟩ := stateGet_of_shape_some hsh hg'
    rw [hg]
    rw [remOf_of_get hg', remOf_of_get hg] at hrem
    cases cs with
    | mk i r m =>
      cases cs' with
      | mk i' r' m' =>
        simp only at hitem hreal hrem
        rw [hitem, hreal, hrem]

/-- The movie loop never touches a key outside its list. -/
theorem scheduleMoviePass_untouched (d : SimDate) :
    ∀ (movies : List ContentState) (st : CState) (cap day : Int) (id : String),
      id ∉ movies.map (fun m => m.item.id) →
      stateGet (scheduleMoviePass d movies st cap day).2.1 id = stateGet st id := by
  intro movies
  induction movies with
  | nil => intro st cap day id _; rfl
  | cons m rest ih =>
    intro st cap day id hid
    rw [List.map_cons, List.mem_cons, not_or] at hid
    rw [scheduleMoviePass]
    by_cases hcap : cap ≤ 0
    · rw [if_pos hcap]
    · rw [if_neg hcap]
      simp only
      by_cases hfit : m.remainingMinutes ≤ cap
      · rw [if_pos hfit]
        simp only
        rw [ih _ _ _ _ hid.2, stateGet_setRemaining, if_neg hid.1]
      · rw [if_neg hfit]
        exact ih _ _ _ _ hid.2

/-- A movie needing more than the loop's entry capacity is skipped by
the whole movie loop: nothing is emitted for it and its entry is
untouched. -/
theorem scheduleMoviePass_skip (d : SimDate) :
    ∀ (movies : List ContentState) (st : CState) (cap day : Int) (m : ContentState),
      NodupKeys movies → (∀ x ∈ movies, 0 < x.remainingMinutes) →
      m ∈ movies → cap < m.remainingMinutes →
      emittedFor (scheduleMoviePass d movies st cap day).1 m.item.id = [] ∧
      stateGet (scheduleMoviePass d movies st cap day).2.1 m.item.id =
        stateGet st m.item.id := by
  intro movies
  induction movies with
  | nil => intro st cap day m _ _ hm; cases hm
  | cons x rest ih =>
    intro st cap day m hnd hpos hm hover
    unfold NodupKeys at hnd
    rw [List.map_cons, List.nodup_cons] at hnd
    rw [scheduleMoviePass]
    by_cases hcap : cap ≤ 0
    · rw [if_pos hcap]
      exact ⟨rfl, rfl⟩
    · rw [if_neg hcap]
      simp only
      rcases List.mem_cons.mp hm with rfl | hm2
      · rw [if_neg (by omega)]
        have hnotin : m.item.id ∉ rest.map (fun y => y.item.id) := hnd.1
        refine ⟨?_, scheduleMoviePass_untouched d rest st cap day m.item.id hnotin⟩
        refine emittedFor_eq_nil ?_
        intro si hsi
        obtain ⟨y, hy, hye⟩ := (scheduleMoviePass_items d rest st cap day).2 si hsi
        rw [hye]
        intro he
        exact hnotin (he ▸ List.mem_map_of_mem (fun z => z.item.id) hy)
      · have hne : x.item.id ≠ m.item.id := by
          intro he
          exact hnd.1 (he ▸ List.mem_map_of_mem (fun z => z.item.id) hm2)
        by_cases hfit : x.remainingMinutes ≤ cap
        · rw [if_pos hfit]
          simp only
          have hposx := hpos x (List.mem_cons_self x rest)
          have hrec := ih (stateSetRemaining st x.item.id 0) (cap - x.remainingMinutes)
            (day + 1) m hnd.2 (fun y hy => hpos y (List.mem_cons_of_mem x hy)) hm2
            (by omega)
          refine ⟨?_, ?_⟩
          · have hrest : emittedFor (scheduleMoviePass d rest
                (stateSetRemaining st x.item.id 0)
                (cap - x.remainingMinutes) (day + 1)).1 m.item.id = [] := hrec.1
            unfold emittedFor at hrest ⊢
            rw [List.filter_cons, if_neg (by simpa using hne)]
            exact hrest
          · rw [hrec.2, stateGet_setRemaining, if_neg (fun h => hne h.symm)]
        · rw [if_neg hfit]
          exact ih st cap day m hnd.2
            (fun y hy => hpos y (List.mem_cons_of_mem x hy)) hm2 hover

/-- Initialized entries record the real duration of their own item. -/
theorem init_real_eq (wl : List WatchlistItem)
    (hnd : (wl.map (fun i => i.id)).Nodup) :
    ∀ cs ∈ initializeContentState wl, cs.realMinutes = getRealWatchTimeMinutes cs.item := by
  rw [initializeContentState_eq_map wl hnd]
  intro cs hcs
  rcases List.mem_map.mp hcs with ⟨w, _, rfl⟩
  rfl

/-- C4: movies are atomic.  (i) Within any month, every `ScheduledItem`
the scheduler emits for a movie entry carries watch hours equal to the
entry's entire remaining duration at the month's start, drops the
entry's remaining counter to `0`, and echoes `remainingMinutes = 0`;
any entry with no emission that month keeps its state entry unchanged.
(ii) A movie needing more than the movie loop's entry capacity is not
scheduled by that loop and its state is untouched.  (iii) Across the
whole optimization of a duplicate-free watchlist, every emitted movie
item records its full real duration as watched. -/
theorem atomic_movies :
    (∀ (ps : List OptimizedService) (st : CState) (wl : List WatchlistItem)
        (d : SimDate), NodupKeys st →
      (∀ si ∈ (scheduleContentForMonth ps st wl d).1, si.item.type = ItemType.movie →
        si.watchHours * 60 = ((remOf st si.item.id : Int) : ℚ) ∧
        remOf (scheduleContentForMonth ps st wl d).2.1 si.item.id = 0 ∧
        si.remainingMinutes = some 0) ∧
      (∀ id, emittedFor (scheduleContentForMonth ps st wl d).1 id = [] →
        stateGet (scheduleContentForMonth ps st wl d).2.1 id = stateGet st id)) ∧
    (∀ (d : SimDate) (movies : List ContentState) (st : CState) (cap day : Int)
        (m : ContentState), NodupKeys movies → (∀ x ∈ movies, 0 < x.remainingMinutes) →
      m ∈ movies → cap < m.remainingMinutes →
      emittedFor (scheduleMoviePass d movies st cap day).1 m.item.id = [] ∧
      stateGet (scheduleMoviePass d movies st cap day).2.1 m.item.id =
        stateGet st m.item.id) ∧
    (∀ (wl : List WatchlistItem) (b : Int) (cm : Nat) (cy : Int),
      (wl.map (fun i => i.id)).Nodup →
      ∀ si ∈ monthItems (optimizeSubscriptions wl b cm cy).rotationSchedule,
        si.item.type = ItemType.movie →
        si.remainingMinutes = some 0 ∧
        si.watchHours * 60 = ((getRealWatchTimeMinutes si.item : Nat) : ℚ)) := by
  refine ⟨?_, fun d movies st cap day m hnd hpos hm hover =>
    scheduleMoviePass_skip d movies st cap day m hnd hpos hm hover, ?_⟩
  · intro ps st wl d hnd
    have hms := scheduleContentForMonth_spec ps st wl d hnd
    constructor
    · intro si hsi hmovie
      have hem := PassSpec.emitted hms.1 hsi
      have hz := hem.2.2.2.2.2 hmovie
      refine ⟨?_, hz, by rw [hem.2.1, hz]⟩
      have := hem.2.2.2.2.1
      rw [hz] at this
      rw [this]
      simp
    · intro id hid
      rcases hms.1.2 id with ⟨_, hr⟩ | ⟨si, he, _⟩
      · exact stateGet_eq_of_shape_rem hms.1.1 hr
      · rw [hid] at he
        cases he
  · intro wl b cm cy hnd si hsi hmovie
    have hnd0 := initializeContentState_nodupKeys wl hnd
    have h00 := init_rem_nonneg wl hnd
    have hmz0 := init_movieZeroOrFull wl hnd
    obtain ⟨P, hp1, hp2, hp3, hp4⟩ := runRotation_acc wl b cm cy
      (min (maxHorizon wl) 24) 0 (initializeContentState wl) [] [] hnd0 h00 hmz0
    have hsched : (optimizeSubscriptions wl b cm cy).rotationSchedule = P := by
      show (runRotation wl b cm cy (min (maxHorizon wl) 24) 0
        (initializeContentState wl) [] []).1 = P
      rw [hp1]
      simp
    rw [hsched] at hsi
    have h4 := hp4 si hsi
    obtain ⟨hrm0, hwh⟩ := h4.2.2.1 hmovie
    refine ⟨hrm0, ?_⟩
    obtain ⟨cs, hg, hcsit⟩ := itemOf_some h4.1
    have hreal : realOf (initializeContentState wl) si.item.id =
        getRealWatchTimeMinutes si.item := by
      unfold realOf
      rw [hg]
      show cs.realMinutes = getRealWatchTimeMinutes si.item
      rw [init_real_eq wl hnd cs (stateGet_mem hg), hcsit]
    rw [hwh, hreal]

theorem atomic_movies_witness :
    ((monthItems (optimizeSubscriptions [exMovie, exSeries] 1000 0 2026).rotationSchedule).head
        (by decide)).remainingMinutes = some 0 ∧
    ((monthItems (optimizeSubscriptions [exMovie, exSeries] 1000 0 2026).rotationSchedule).head
        (by decide)).watchHours * 60 =
      ((getRealWatchTimeMinutes
        ((monthItems (optimizeSubscriptions [exMovie, exSeries] 1000 0
          2026).rotationSchedule).head (by decide)).item : Nat) : ℚ) :=
  atomic_movies.2.2 [exMovie, exSeries] 1000 0 2026 (by decide) _
    (List.head_mem _) (by decide)


/-- How many deferred entries carry a given key. -/
def countId (l : List (WatchlistItem × String)) (id : String) : Nat :=
  l.countP (fun d2 => d2.1.id == id)

theorem countId_nil (id : String) : countId [] id = 0 := rfl

theorem countId_append (a b : List (WatchlistItem × String)) (id : String) :
    countId (a ++ b) id = countId a id + countId b id := by
  unfold countId
  exact List.countP_append _ _ _

theorem countId_single (w : WatchlistItem) (r : String) (id : String) :
    countId [(w, r)] id = if w.id = id then 1 else 0 := by
  unfold countId
  rw [List.countP_cons]
  by_cases h : w.id = id
  · rw [if_pos h]
    simp [h]
  · rw [if_neg h]
    simp [h]

theorem countId_cons (w : WatchlistItem) (r : String)
    (l : List (WatchlistItem × String)) (id : String) :
    countId ((w, r) :: l) id = countId l id + (if w.id = id then 1 else 0) := by
  unfold countId
  rw [List.countP_cons]
  by_cases h : w.id = id
  · rw [if_pos h]
    simp [h]
  · rw [if_neg h]
    simp [h]

theorem countId_eq_zero {l : List (WatchlistItem × String)} {id : String} :
    countId l id = 0 ↔ ∀ d2 ∈ l, d2.1.id ≠ id := by
  unfold countId
  rw [List.countP_eq_zero]
  constructor
  · intro h d2 hd2
    have := h d2 hd2
    simpa using this
  · intro h d2 hd2
    simpa using h d2 hd2

theorem countId_pos {l : List (WatchlistItem × String)} {id : String}
    (h : 0 < countId l id) : ∃ d2 ∈ l, d2.1.id = id := by
  by_contra hcon
  push_neg at hcon
  rw [countId_eq_zero.mpr hcon] at h
  omega

/-- Pending-deferred entries are the pending watchlist entries, tagged
with the pending reason. -/
theorem mem_pendingDeferred : ∀ {wl : List WatchlistItem}
    {d2 : WatchlistItem × String}, d2 ∈ pendingDeferred wl →
    d2.1 ∈ wl ∧ d2.1.pendingPlatformSelection = true ∧ d2.2 = reasonPending := by
  intro wl
  induction wl with
  | nil => intro d2 h; cases h
  | cons a rest ih =>
    intro d2 h
    rw [pendingDeferred] at h
    by_cases hp : a.pendingPlatformSelection
    · rw [if_pos hp] at h
      rcases List.mem_cons.mp h with rfl | h2
      · exact ⟨List.mem_cons_self a rest, hp, rfl⟩
      · obtain ⟨h1, h2, h3⟩ := ih h2
        exact ⟨List.mem_cons_of_mem a h1, h2, h3⟩
    · rw [if_neg hp] at h
      obtain ⟨h1, h2, h3⟩ := ih h
      exact ⟨List.mem_cons_of_mem a h1, h2, h3⟩

/-- A key outside the watchlist is not counted among its pending
entries. -/
theorem countId_pendingDeferred_zero {wl : List WatchlistItem} {id : String}
    (h : id ∉ wl.map (fun i => i.id)) :
    countId (pendingDeferred wl) id = 0 := by
  rw [countId_eq_zero]
  intro d2 hd2 he
  exact h (he ▸ List.mem_map_of_mem (fun i => i.id) (mem_pendingDeferred hd2).1)

/-- On a duplicate-free watchlist, a member is pending-deferred once if
it is pending, never otherwise. -/
theorem countId_pendingDeferred : ∀ (wl : List WatchlistItem),
    (wl.map (fun i => i.id)).Nodup →
    ∀ item ∈ wl, countId (pendingDeferred wl) item.id =
      if item.pendingPlatformSelection then 1 else 0 := by
  intro wl
  induction wl with
  | nil => intro _ item h; cases h
  | cons a rest ih =>
    intro hnd item hitem
    rw [List.map_cons, List.nodup_cons] at hnd
    rcases List.mem_cons.mp hitem with rfl | h2
    · rw [pendingDeferred]
      by_cases hp : item.pendingPlatformSelection
      · rw [if_pos hp, if_pos hp, countId_cons,
          countId_pendingDeferred_zero hnd.1, if_pos rfl]
      · rw [if_neg hp, if_neg hp]
        exact countId_pendingDeferred_zero hnd.1
    · have hne : a.id ≠ item.id := by
        intro he
        exact hnd.1 (he ▸ List.mem_map_of_mem (fun i => i.id) h2)
      rw [pendingDeferred]
      by_cases hp : a.pendingPlatformSelection
      · rw [if_pos hp, countId_cons, if_neg hne, ih hnd.2 item h2]
        omega
      · rw [if_neg hp]
        exact ih hnd.2 item h2

/-- Once a key is listed among the deferred, the collection loop keeps
its count unchanged. -/
theorem collectDeferred_count_stable :
    ∀ (stl : CState) (acc : List (WatchlistItem × String)) (id : String),
      0 < countId acc id →
      countId (collectDeferred stl acc) id = countId acc id := by
  intro stl
  induction stl with
  | nil => intro acc id _; rfl
  | cons x rest ih =>
    intro acc id hpos
    rw [collectDeferred]
    by_cases hany : acc.any (fun d2 => d2.1.id == x.item.id)
    · rw [if_pos hany]
      exact ih acc id hpos
    · rw [if_neg hany]
      by_cases hrem : x.remainingMinutes > 0
      · rw [if_pos hrem]
        have hxid : x.item.id ≠ id := by
          intro he
          subst he
          obtain ⟨d2, hd2, hde⟩ := countId_pos hpos
          refine hany ?_
          rw [List.any_eq_true]
          exact ⟨d2, hd2, by simpa using hde⟩
        have hstep : ∀ r, countId (acc ++ [(x.item, r)]) id = countId acc id := by
          intro r
          rw [countId_append, countId_single, if_neg hxid]
          omega
        by_cases hnp : (getEffectiveProviders x.item).isEmpty
        · rw [if_pos hnp, ih _ id (by rw [hstep]; exact hpos), hstep]
        · rw [if_neg hnp, ih _ id (by rw [hstep]; exact hpos), hstep]
      · rw [if_neg hrem]
        exact ih acc id hpos

/-- A not-yet-listed entry with remaining time is collected exactly
once. -/
theorem collectDeferred_count_add :
    ∀ (stl : CState) (acc : List (WatchlistItem × String)) (id : String)
      (cs : ContentState), NodupKeys stl → cs ∈ stl → cs.item.id = id →
      0 < cs.remainingMinutes →
      countId acc id = 0 →
      countId (collectDeferred stl acc) id = 1 := by
  intro stl
  induction stl with
  | nil => intro acc id cs _ hm; cases hm
  | cons x rest ih =>
    intro acc id cs hnd hm hid hrem h0
    unfold NodupKeys at hnd
    rw [List.map_cons, List.nodup_cons] at hnd
    rw [collectDeferred]
    rcases List.mem_cons.mp hm with rfl | hm2
    · have hany : acc.any (fun d2 => d2.1.id == cs.item.id) = false := by
        rw [List.any_eq_false]
        intro d2 hd2
        have := countId_eq_zero.mp h0 d2 hd2
        rw [hid]
        simpa using this
      rw [if_neg (by rw [hany]; exact fun h => nomatch h), if_pos hrem]
      have hstep : ∀ r, countId (acc ++ [(cs.item, r)]) id = 1 := by
        intro r
        rw [countId_append, countId_single, if_pos hid, h0]
      by_cases hnp : (getEffectiveProviders cs.item).isEmpty
      · rw [if_pos hnp]
        rw [collectDeferred_count_stable rest _ id (by rw [hstep]; omega), hstep]
      · rw [if_neg hnp]
        rw [collectDeferred_count_stable rest _ id (by rw [hstep]; omega), hstep]
    · have hxne : x.item.id ≠ id := by
        intro he
        refine hnd.1 ?_
        rw [he, ← hid]
        exact List.mem_map_of_mem (fun z => z.item.id) hm2
      by_cases hany : acc.any (fun d2 => d2.1.id == x.item.id)
      · rw [if_pos hany]
        exact ih acc id cs hnd.2 hm2 hid hrem h0
      · rw [if_neg hany]
        by_cases hrx : x.remainingMinutes > 0
        · rw [if_pos hrx]
          have hstep : ∀ r, countId (acc ++ [(x.item, r)]) id = 0 := by
            intro r
            rw [countId_append, countId_single, if_neg hxne, h0]
          by_cases hnp : (getEffectiveProviders x.item).isEmpty
          · rw [if_pos hnp]
            exact ih _ id cs hnd.2 hm2 hid hrem (hstep _)
          · rw [if_neg hnp]
            exact ih _ id cs hnd.2 hm2 hid hrem (hstep _)
        · rw [if_neg hrx]
          exact ih acc id cs hnd.2 hm2 hid hrem h0

/-- Everything the collection loop emits is inherited or tagged with
one of the two collection reasons. -/
theorem mem_collectDeferred :
    ∀ (stl : CState) (acc : List (WatchlistItem × String))
      (d2 : WatchlistItem × String), d2 ∈ collectDeferred stl acc →
      d2 ∈ acc ∨ d2.2 = reasonNoPlatform ∨ d2.2 = reasonBudget := by
  intro stl
  induction stl with
  | nil => intro acc d2 h; exact Or.inl h
  | cons x rest ih =>
    intro acc d2 h
    rw [collectDeferred] at h
    by_cases hany : acc.any (fun e => e.1.id == x.item.id)
    · rw [if_pos hany] at h
      exact ih acc d2 h
    · rw [if_neg hany] at h
      by_cases hrem : x.remainingMinutes > 0
      · rw [if_pos hrem] at h
        by_cases hnp : (getEffectiveProviders x.item).isEmpty
        · rw [if_pos hnp] at h
          rcases ih _ d2 h with hin | hr
          · rcases List.mem_append.mp hin with h2 | h2
            · exact Or.inl h2
            · rcases List.mem_singleton.mp h2 with rfl
              exact Or.inr (Or.inl rfl)
          · exact Or.inr hr
        · rw [if_neg hnp] at h
          rcases ih _ d2 h with hin | hr
          · rcases List.mem_append.mp hin with h2 | h2
            · exact Or.inl h2
            · rcases List.mem_singleton.mp h2 with rfl
              exact Or.inr (Or.inr rfl)
          · exact Or.inr hr
      · rw [if_neg hrem] at h
        exact ih acc d2 h

/-- C8: after the rotation loop halts, every watchlist entry (of a
duplicate-free watchlist) whose remaining counter is still positive
appears exactly once in the result's deferred list, and every deferred
entry's reason is one of the three source reason strings (pending
decision, no platform available, could not fit budget) — a subset of
the claim's reason set; the embedding is total, so no input raises. -/
theorem deferred_classification (wl : List WatchlistItem) (b : Int) (cm : Nat) (cy : Int)
    (hnd : (wl.map (fun i => i.id)).Nodup) :
    (∀ item ∈ wl,
      0 < remOf (runRotation wl b cm cy (min (maxHorizon wl) 24) 0
          (initializeContentState wl) [] []).2 item.id →
      countId (optimizeSubscriptions wl b cm cy).deferredItems item.id = 1) ∧
    (∀ d2 ∈ (optimizeSubscriptions wl b cm cy).deferredItems,
      d2.2 = reasonPending ∨ d2.2 = reasonNoPlatform ∨ d2.2 = reasonBudget) := by
  have hnd0 := initializeContentState_nodupKeys wl hnd
  obtain ⟨P, hp1, hp2, hp3, hp4⟩ := runRotation_acc wl b cm cy (min (maxHorizon wl) 24) 0
    (initializeContentState wl) [] [] hnd0 (init_rem_nonneg wl hnd)
    (init_movieZeroOrFull wl hnd)
  have hndf : NodupKeys (runRotation wl b cm cy (min (maxHorizon wl) 24) 0
      (initializeContentState wl) [] []).2 := NodupKeys.of_shape hp2 hnd0
  have hdef : (optimizeSubscriptions wl b cm cy).deferredItems =
      collectDeferred (runRotation wl b cm cy (min (maxHorizon wl) 24) 0
        (initializeContentState wl) [] []).2 (pendingDeferred wl) := rfl
  constructor
  · intro item hitem hrem
    rw [hdef]
    by_cases hp : item.pendingPlatformSelection
    · have h1 : countId (pendingDeferred wl) item.id = 1 := by
        rw [countId_pendingDeferred wl hnd item hitem, if_pos hp]
      rw [collectDeferred_count_stable _ _ _ (by rw [h1]; omega), h1]
    · have h0 : countId (pendingDeferred wl) item.id = 0 := by
        rw [countId_pendingDeferred wl hnd item hitem, if_neg hp]
      have hex : ∃ cs, stateGet (runRotation wl b cm cy (min (maxHorizon wl) 24) 0
          (initializeContentState wl) [] []).2 item.id = some cs := by
        cases hg : stateGet (runRotation wl b cm cy (min (maxHorizon wl) 24) 0
            (initializeContentState wl) [] []).2 item.id with
        | none =>
          unfold remOf at hrem
          rw [hg] at hrem
          exact absurd hrem (by simp)
        | some cs => exact ⟨cs, rfl⟩
      obtain ⟨cs, hg⟩ := hex
      have hcsrem : 0 < cs.remainingMinutes := by
        rw [remOf_of_get hg] at hrem
        exact hrem
      exact collectDeferred_count_add _ _ _ cs hndf (stateGet_mem hg)
        (stateGet_key hg) hcsrem h0
  · intro d2 hd2
    rw [hdef] at hd2
    rcases mem_collectDeferred _ _ _ hd2 with hin | hr
    · exact Or.inl (mem_pendingDeferred hin).2.2
    · exact Or.inr hr

theorem deferred_classification_witness :
    countId (optimizeSubscriptions [exMovie] 0 0 2026).deferredItems exMovie.id = 1 :=
  (deferred_classification [exMovie] 0 0 2026 (by decide)).1 exMovie
    (List.mem_cons_self exMovie []) (by decide)

/-! ## C6: purity modulo the ambient clock -/

/-- A scheduled item with its two simulated dates erased. -/
structure ScheduledItemE where
  item : WatchlistItem
  day : Int
  watchHours : ℚ
  remainingMinutes : Option Int
deriving DecidableEq

/-- A monthly plan with its calendar labels (month, monthIndex, year)
and all item dates erased. -/
structure MonthlyPlanE where
  services : List OptimizedService
  itemsToWatch : List ScheduledItemE
  monthlyCost : Int
  action : PlanAction
  totalWatchHours : ℚ
  isBudgetConstrained : Bool
deriving DecidableEq

/-- An optimization result with all calendar data erased. -/
structure OptimizationResultE where
  subscribeThisMonth : List OptimizedService
  deferredItems : List (WatchlistItem × String)
  totalCost : Int
  estimatedSavings : Int
  coveragePercent : Int
  explanation : String
  rotationSchedule : List MonthlyPlanE
  totalMonthsNeeded : Nat
  averageMonthlyCost : ℚ
deriving DecidableEq

def eraseSI (si : ScheduledItem) : ScheduledItemE :=
  ⟨si.item, si.day, si.watchHours, si.remainingMinutes⟩

def erasePlan (m : MonthlyPlan) : MonthlyPlanE :=
  ⟨m.services, m.itemsToWatch.map eraseSI, m.monthlyCost, m.action,
    m.totalWatchHours, m.isBudgetConstrained⟩

def eraseResult (r : OptimizationResult) : OptimizationResultE :=
  ⟨r.subscribeThisMonth, r.deferredItems, r.totalCost, r.estimatedSavings,
    r.coveragePercent, r.explanation, r.rotationSchedule.map erasePlan,
    r.totalMonthsNeeded, r.averageMonthlyCost⟩

/-- The movie loop's decisions and state never read the month start:
only the emitted dates differ. -/
theorem scheduleMoviePass_dateIndep (d1 d2 : SimDate) :
    ∀ (movies : List ContentState) (st : CState) (cap day : Int),
      (scheduleMoviePass d1 movies st cap day).1.map eraseSI =
        (scheduleMoviePass d2 movies st cap day).1.map eraseSI ∧
      (scheduleMoviePass d1 movies st cap day).2 =
        (scheduleMoviePass d2 movies st cap day).2 := by
  intro movies
  induction movies with
  | nil => intro st cap day; exact ⟨rfl, rfl⟩
  | cons m rest ih =>
    intro st cap day
    rw [scheduleMoviePass, scheduleMoviePass]
    by_cases hcap : cap ≤ 0
    · rw [if_pos hcap, if_pos hcap]
      exact ⟨rfl, rfl⟩
    · rw [if_neg hcap, if_neg hcap]
      simp only
      by_cases hfit : m.remainingMinutes ≤ cap
      · rw [if_pos hfit, if_pos hfit]
        simp only
        have hrec := ih (stateSetRemaining st m.item.id 0) (cap - m.remainingMinutes)
          (day + 1)
        refine ⟨?_, hrec.2⟩
        rw [List.map_cons, List.map_cons, hrec.1]
        rfl
      · rw [if_neg hfit, if_neg hfit]
        exact ih st cap day
    
/-- The series loop's decisions and state never read the month start. -/
theorem scheduleSeriesPass_dateIndep (d1 d2 : SimDate) (alloc : AllocMap) (sd : Int) :
    ∀ (ser : List ContentState) (st : CState) (cap : Int),
      (scheduleSeriesPass d1 alloc sd ser st cap).1.map eraseSI =
        (scheduleSeriesPass d2 alloc sd ser st cap).1.map eraseSI ∧
      (scheduleSeriesPass d1 alloc sd ser st cap).2 =
        (scheduleSeriesPass d2 alloc sd ser st cap).2 := by
  intro ser
  induction ser with
  | nil => intro st cap; exact ⟨rfl, rfl⟩
  | cons x rest ih =>
    intro st cap
    rw [scheduleSeriesPass, scheduleSeriesPass]
    simp only
    by_cases hz : alloc x.item.id ≤ 0
    · rw [if_pos hz, if_pos hz]
      exact ih st cap
    · rw [if_neg hz, if_neg hz]
      simp only
      have hrec := ih (stateSetRemaining st x.item.id
        (x.remainingMinutes - alloc x.item.id)) (cap - alloc x.item.id)
      refine ⟨?_, hrec.2⟩
      rw [List.map_cons, List.map_cons, hrec.1]
      rfl

/-- The bucket loop's decisions and state never read the month start. -/
theorem processBuckets_dateIndep (d1 d2 : SimDate) (bucketIds : Priority → List String) :
    ∀ (prios : List Priority) (st : CState) (cap day : Int)
      (out1 out2 : List ScheduledItem), out1.map eraseSI = out2.map eraseSI →
      (processBuckets d1 bucketIds prios st cap day out1).1.map eraseSI =
        (processBuckets d2 bucketIds prios st cap day out2).1.map eraseSI ∧
      (processBuckets d1 bucketIds prios st cap day out1).2 =
        (processBuckets d2 bucketIds prios st cap day out2).2 := by
  intro prios
  induction prios with
  | nil => intro st cap day out1 out2 hout; exact ⟨hout, rfl⟩
  | cons p rest ih =>
    intro st cap day out1 out2 hout
    rw [processBuckets, processBuckets]
    by_cases hbe : ((bucketIds p).filterMap (stateGet st)).isEmpty
    · rw [if_pos hbe, if_pos hbe]
      exact ih st cap day out1 out2 hout
    · rw [if_neg hbe, if_neg hbe]
      by_cases hc0 : cap ≤ 0
      · rw [if_pos hc0, if_pos hc0]
        exact ⟨hout, rfl⟩
      · rw [if_neg hc0, if_neg hc0]
        simp only
        set movies := (((bucketIds p).filterMap (stateGet st)).filter
          (fun s => s.item.type == ItemType.movie && s.remainingMinutes > 0)) with hmvd
        have hmp := scheduleMoviePass_dateIndep d1 d2 movies st cap day
        rw [← hmp.2]
        set mp := scheduleMoviePass d1 movies st cap day with hmpd
        set activeSeries := ((((((bucketIds p).filterMap (stateGet st)).filter
          (fun s => s.item.type != ItemType.movie && s.remainingMinutes > 0)).map
            (fun s => s.item.id)).filterMap (stateGet mp.2.1)).filter
          (fun s => s.remainingMinutes > 0)) with hasd
        by_cases hskip : activeSeries.isEmpty || decide (mp.2.2.1 ≤ 0)
        · rw [if_pos hskip, if_pos hskip]
          refine ih mp.2.1 mp.2.2.1 mp.2.2.2 (out1 ++ mp.1)
            (out2 ++ (scheduleMoviePass d2 movies st cap day).1) ?_
          rw [List.map_append, List.map_append, hout, hmp.1]
        · rw [if_neg hskip, if_neg hskip]
          have hsp := scheduleSeriesPass_dateIndep d1 d2
            (computeAllocations activeSeries mp.2.2.1) mp.2.2.2 activeSeries
            mp.2.1 mp.2.2.1
          rw [← hsp.2]
          refine ih _ _ _ (out1 ++ mp.1 ++ (scheduleSeriesPass d1
            (computeAllocations activeSeries mp.2.2.1) mp.2.2.2 activeSeries
            mp.2.1 mp.2.2.1).1)
            (out2 ++ (scheduleMoviePass d2 movies st cap day).1 ++
              (scheduleSeriesPass d2
              (computeAllocations activeSeries mp.2.2.1) mp.2.2.2 activeSeries
              mp.2.1 mp.2.2.1).1) ?_
          rw [List.map_append, List.map_append, List.map_append, List.map_append,
            hout, hsp.1, hmp.1]

/-- The month scheduler's emissions differ only in their dates across
month starts; its state effect and watched-hours total are identical. -/
theorem scheduleContentForMonth_dateIndep (ps : List OptimizedService) (st : CState)
    (wl : List WatchlistItem) (d1 d2 : SimDate) :
    (scheduleContentForMonth ps st wl d1).1.map eraseSI =
      (scheduleContentForMonth ps st wl d2).1.map eraseSI ∧
    (scheduleContentForMonth ps st wl d1).2 =
      (scheduleContentForMonth ps st wl d2).2 := by
  have h := processBuckets_dateIndep d1 d2
    (fun p => (computeCandidateIds ps st wl).filter (fun id =>
      match stateGet st id with
      | some cs => cs.item.priority == p
      | none => false))
    PRIORITY_ORDER st (MONTHLY_WATCH_LIMIT * 60) 1 [] [] rfl
  exact ⟨h.1, by show (_, _) = (_, _); rw [h.2]⟩

/-- Date-erased-equal plan lists agree on every calendar-free
projection. -/
theorem erased_plans_proj {p1 p2 : List MonthlyPlan}
    (h : p1.map erasePlan = p2.map erasePlan) :
    p1.length = p2.length ∧
    p1.map (fun m => m.monthlyCost) = p2.map (fun m => m.monthlyCost) ∧
    p1.map (fun m => m.services) = p2.map (fun m => m.services) ∧
    p1.map (fun m => m.itemsToWatch.length) = p2.map (fun m => m.itemsToWatch.length) := by
  refine ⟨?_, ?_, ?_, ?_⟩
  · have := congrArg List.length h
    simpa using this
  · have h2 := congrArg (List.map (fun me : MonthlyPlanE => me.monthlyCost)) h
    rw [List.map_map, List.map_map] at h2
    exact h2
  · have h2 := congrArg (List.map (fun me : MonthlyPlanE => me.services)) h
    rw [List.map_map, List.map_map] at h2
    exact h2
  · have h2 := congrArg (List.map (fun me : MonthlyPlanE => me.itemsToWatch.length)) h
    rw [List.map_map, List.map_map] at h2
    have e1 : ((fun me : MonthlyPlanE => me.itemsToWatch.length) ∘ erasePlan) =
        (fun m : MonthlyPlan => m.itemsToWatch.length) := by
      funext m
      show (m.itemsToWatch.map eraseSI).length = m.itemsToWatch.length
      exact List.length_map _ _
    rw [e1] at h2
    exact h2

/-- Date-erased-equal plan lists agree on the last month's services. -/
theorem erased_plans_getLast_services {p1 p2 : List MonthlyPlan}
    (h : p1.map erasePlan = p2.map erasePlan) :
    ((p1.getLast?).map (fun m => m.services)).getD [] =
      ((p2.getLast?).map (fun m => m.services)).getD [] := by
  have hs := (erased_plans_proj h).2.2.1
  have e : ∀ (l : List MonthlyPlan),
      ((l.getLast?).map (fun m => m.services)).getD [] =
        ((l.map (fun m => m.services)).getLast?).getD [] := by
    intro l
    rw [List.getLast?_map]
  rw [e, e, hs]

/-- Date-erased-equal plan lists agree on the first month's services
and cost. -/
theorem erased_plans_head {p1 p2 : List MonthlyPlan}
    (h : p1.map erasePlan = p2.map erasePlan) :
    ((p1.head?).map (fun m => m.services)).getD [] =
      ((p2.head?).map (fun m => m.services)).getD [] ∧
    ((p1.head?).map (fun m => m.monthlyCost)).getD 0 =
      ((p2.head?).map (fun m => m.monthlyCost)).getD 0 := by
  have hs := (erased_plans_proj h).2.2.1
  have hc := (erased_plans_proj h).2.1
  constructor
  · have e : ∀ (l : List MonthlyPlan),
        ((l.head?).map (fun m => m.services)).getD [] =
          ((l.map (fun m => m.services)).head?).getD [] := by
      intro l
      rw [List.head?_map]
    rw [e, e, hs]
  · have e : ∀ (l : List MonthlyPlan),
        ((l.head?).map (fun m => m.monthlyCost)).getD 0 =
          ((l.map (fun m => m.monthlyCost)).head?).getD 0 := by
      intro l
      rw [List.head?_map]
    rw [e, e, hc]

/-- The explanation depends only on the calendar-free projections of
the schedule. -/
theorem generateExplanation_congr (sel : List OptimizedService)
    (def2 : List (WatchlistItem × String)) (b : Int) {p1 p2 : List MonthlyPlan}
    (h : p1.map erasePlan = p2.map erasePlan) :
    generateExplanation sel def2 b p1 = generateExplanation sel def2 b p2 := by
  obtain ⟨hlen, hcost, _, hitems⟩ := erased_plans_proj h
  unfold generateExplanation
  rw [hlen, hcost, hitems]

/-- The rotation loop run from two clock readings produces
date-erased-equal plans and the identical final state. -/
theorem runRotation_dateIndep (wl : List WatchlistItem) (b : Int) :
    ∀ (fuel offset : Nat) (st : CState) (prev : List String)
      (cm1 cm2 : Nat) (cy1 cy2 : Int) (plans1 plans2 : List MonthlyPlan),
      plans1.map erasePlan = plans2.map erasePlan →
      (runRotation wl b cm1 cy1 fuel offset st prev plans1).1.map erasePlan =
        (runRotation wl b cm2 cy2 fuel offset st prev plans2).1.map erasePlan ∧
      (runRotation wl b cm1 cy1 fuel offset st prev plans1).2 =
        (runRotation wl b cm2 cy2 fuel offset st prev plans2).2 := by
  intro fuel
  induction fuel with
  | zero => intro offset st prev cm1 cm2 cy1 cy2 plans1 plans2 hp; exact ⟨hp, rfl⟩
  | succ n ih =>
    intro offset st prev cm1 cm2 cy1 cy2 plans1 plans2 hp
    rw [runRotation, runRotation]
    cases hb : getActivePriorityBucket wl st with
    | none => exact ⟨hp, rfl⟩
    | some activeBucket =>
      simp only
      set sel := (selectPlatformsForMonth activeBucket wl st b prev).1 with hseld
      by_cases he : sel.isEmpty
      · rw [if_pos he, if_pos he]
        exact ⟨hp, rfl⟩
      · rw [if_neg he, if_neg he]
        by_cases hover : (sel.map (fun p => p.cost)).sum > b
        · rw [if_pos hover, if_pos hover]
          exact ⟨hp, rfl⟩
        · rw [if_neg hover, if_neg hover]
          have hms := scheduleContentForMonth_dateIndep sel st wl
            ⟨cy1 + (((cm1 + offset) / 12 : Nat) : Int),
              (((cm1 + offset) % 12 : Nat) : Int), 1⟩
            ⟨cy2 + (((cm2 + offset) / 12 : Nat) : Int),
              (((cm2 + offset) % 12 : Nat) : Int), 1⟩
          rw [← hms.2]
          refine ih (offset + 1)
            (scheduleContentForMonth sel st wl
              ⟨cy1 + (((cm1 + offset) / 12 : Nat) : Int),
                (((cm1 + offset) % 12 : Nat) : Int), 1⟩).2.1
            (sel.map (fun p => p.service)) cm1 cm2 cy1 cy2 _ _ ?_
          rw [List.map_append, List.map_append, hp]
          refine congrArg (fun z => List.map erasePlan plans2 ++ z) ?_
          rw [List.map_cons, List.map_cons, List.map_nil]
          refine congrArg (fun z => [z]) ?_
          show MonthlyPlanE.mk _ _ _ _ _ _ = MonthlyPlanE.mk _ _ _ _ _ _
          have hitems : (scheduleContentForMonth sel st wl
              ⟨cy1 + (((cm1 + offset) / 12 : Nat) : Int),
                (((cm1 + offset) % 12 : Nat) : Int), 1⟩).1.map eraseSI =
              (scheduleContentForMonth sel st wl
              ⟨cy2 + (((cm2 + offset) / 12 : Nat) : Int),
                (((cm2 + offset) % 12 : Nat) : Int), 1⟩).1.map eraseSI := hms.1
          have hhours : (scheduleContentForMonth sel st wl
              ⟨cy1 + (((cm1 + offset) / 12 : Nat) : Int),
                (((cm1 + offset) % 12 : Nat) : Int), 1⟩).2.2 =
              (scheduleContentForMonth sel st wl
              ⟨cy2 + (((cm2 + offset) / 12 : Nat) : Int),
                (((cm2 + offset) % 12 : Nat) : Int), 1⟩).2.2 :=
            congrArg Prod.snd hms.2
          have hact : (if offset = 0 then PlanAction.subscribe
              else
                if sameServiceSets sel
                    (((plans1.getLast?).map (fun m => m.services)).getD []) then
                  PlanAction.keep
                else PlanAction.rotate) =
              (if offset = 0 then PlanAction.subscribe
              else
                if sameServiceSets sel
                    (((plans2.getLast?).map (fun m => m.services)).getD []) then
                  PlanAction.keep
                else PlanAction.rotate) := by
            rw [erased_plans_getLast_services hp]
          rw [MonthlyPlanE.mk.injEq]
          exact ⟨rfl, hitems, rfl, hact, rfl, rfl⟩

/-- C6 (amended): `optimizeSubscriptions` is a pure function of
`(watchlist, budget)` up to calendar data — two calls with the same
watchlist and budget but different ambient clock readings return
results that agree on every field once month labels, month indices,
years and scheduled start/end dates are erased. -/
theorem purity_modulo_dates (wl : List WatchlistItem) (b : Int)
    (cm cm2 : Nat) (cy cy2 : Int) :
    eraseResult (optimizeSubscriptions wl b cm cy) =
      eraseResult (optimizeSubscriptions wl b cm2 cy2) := by
  have hrot := runRotation_dateIndep wl b (min (maxHorizon wl) 24) 0
    (initializeContentState wl) [] cm cm2 cy cy2 [] [] rfl
  have her := hrot.1
  have hst := hrot.2
  unfold eraseResult
  rw [OptimizationResultE.mk.injEq]
  refine ⟨?_, ?_, ?_, ?_, ?_, ?_, ?_, ?_, ?_⟩
  · show (((runRotation wl b cm cy (min (maxHorizon wl) 24) 0
        (initializeContentState wl) [] []).1.head?).map (fun m => m.services)).getD [] =
      (((runRotation wl b cm2 cy2 (min (maxHorizon wl) 24) 0
        (initializeContentState wl) [] []).1.head?).map (fun m => m.services)).getD []
    exact (erased_plans_head her).1
  · show buildDeferredItems wl (runRotation wl b cm cy (min (maxHorizon wl) 24) 0
        (initializeContentState wl) [] []).2 =
      buildDeferredItems wl (runRotation wl b cm2 cy2 (min (maxHorizon wl) 24) 0
        (initializeContentState wl) [] []).2
    rw [hst]
  · show (((runRotation wl b cm cy (min (maxHorizon wl) 24) 0
        (initializeContentState wl) [] []).1.head?).map (fun m => m.monthlyCost)).getD 0 =
      (((runRotation wl b cm2 cy2 (min (maxHorizon wl) 24) 0
        (initializeContentState wl) [] []).1.head?).map (fun m => m.monthlyCost)).getD 0
    exact (erased_plans_head her).2
  · show (PLATFORM_PRICES.map (fun e => e.2)).sum *
        ((runRotation wl b cm cy (min (maxHorizon wl) 24) 0
          (initializeContentState wl) [] []).1.length : Int) -
        ((runRotation wl b cm cy (min (maxHorizon wl) 24) 0
          (initializeContentState wl) [] []).1.map (fun m => m.monthlyCost)).sum =
      (PLATFORM_PRICES.map (fun e => e.2)).sum *
        ((runRotation wl b cm2 cy2 (min (maxHorizon wl) 24) 0
          (initializeContentState wl) [] []).1.length : Int) -
        ((runRotation wl b cm2 cy2 (min (maxHorizon wl) 24) 0
          (initializeContentState wl) [] []).1.map (fun m => m.monthlyCost)).sum
    rw [(erased_plans_proj her).1, (erased_plans_proj her).2.1]
  · show (if wl.length > 0 then
        jsRound (((wl.length : Int) -
          ((buildDeferredItems wl (runRotation wl b cm cy (min (maxHorizon wl) 24) 0
            (initializeContentState wl) [] []).2).length : Int)) * 100) (wl.length : Int)
      else 0) =
      (if wl.length > 0 then
        jsRound (((wl.length : Int) -
          ((buildDeferredItems wl (runRotation wl b cm2 cy2 (min (maxHorizon wl) 24) 0
            (initializeContentState wl) [] []).2).length : Int)) * 100) (wl.length : Int)
      else 0)
    rw [hst]
  · show generateExplanation
        ((((runRotation wl b cm cy (min (maxHorizon wl) 24) 0
          (initializeContentState wl) [] []).1.head?).map (fun m => m.services)).getD [])
        (buildDeferredItems wl (runRotation wl b cm cy (min (maxHorizon wl) 24) 0
          (initializeContentState wl) [] []).2) b
        (runRotation wl b cm cy (min (maxHorizon wl) 24) 0
          (initializeContentState wl) [] []).1 =
      generateExplanation
        ((((runRotation wl b cm2 cy2 (min (maxHorizon wl) 24) 0
          (initializeContentState wl) [] []).1.head?).map (fun m => m.services)).getD [])
        (buildDeferredItems wl (runRotation wl b cm2 cy2 (min (maxHorizon wl) 24) 0
          (initializeContentState wl) [] []).2) b
        (runRotation wl b cm2 cy2 (min (maxHorizon wl) 24) 0
          (initializeContentState wl) [] []).1
    rw [(erased_plans_head her).1, hst]
    exact generateExplanation_congr _ _ _ her
  · show (runRotation wl b cm cy (min (maxHorizon wl) 24) 0
        (initializeContentState wl) [] []).1.map erasePlan =
      (runRotation wl b cm2 cy2 (min (maxHorizon wl) 24) 0
        (initializeContentState wl) [] []).1.map erasePlan
    exact her
  · show (runRotation wl b cm cy (min (maxHorizon wl) 24) 0
        (initializeContentState wl) [] []).1.length =
      (runRotation wl b cm2 cy2 (min (maxHorizon wl) 24) 0
        (initializeContentState wl) [] []).1.length
    exact (erased_plans_proj her).1
  · show (if (runRotation wl b cm cy (min (maxHorizon wl) 24) 0
          (initializeContentState wl) [] []).1.length > 0 then
        ((((runRotation wl b cm cy (min (maxHorizon wl) 24) 0
          (initializeContentState wl) [] []).1.map (fun m => m.monthlyCost)).sum : Int) : ℚ) /
          (((runRotation wl b cm cy (min (maxHorizon wl) 24) 0
            (initializeContentState wl) [] []).1.length : Nat) : ℚ)
      else 0) =
      (if (runRotation wl b cm2 cy2 (min (maxHorizon wl) 24) 0
          (initializeContentState wl) [] []).1.length > 0 then
        ((((runRotation wl b cm2 cy2 (min (maxHorizon wl) 24) 0
          (initializeContentState wl) [] []).1.map (fun m => m.monthlyCost)).sum : Int) : ℚ) /
          (((runRotation wl b cm2 cy2 (min (maxHorizon wl) 24) 0
            (initializeContentState wl) [] []).1.length : Nat) : ℚ)
      else 0)
    rw [(erased_plans_proj her).1, (erased_plans_proj her).2.1]

/-- Counterexample for C6 as stated: the function reads the ambient
clock — the same watchlist and budget called under a January clock and
a February clock yield different results (the month labels differ), so
the literal claim of identical `OptimizationResult` values independent
of ambient state fails. -/
theorem purity_counterexample :
    (optimizeSubscriptions [exMovie] 1000 0 2026).rotationSchedule.map (fun m => m.month) ≠
    (optimizeSubscriptions [exMovie] 1000 1 2026).rotationSchedule.map (fun m => m.month) := by
  decide
